import Mathlib

/-!
# mc_hotkeys: the hot-key detection engine

A shallow embedding of the counting and selection core of `mc_hotkeys`, and the
properties proved about it:

* `model/window.go`: `topN`, and the ring `SimpleRollingWindows` with
  `NewSimpleRollingWindows`, `Increment` and `Roll`;
* `model/aggregator.go`: `HotKeyEntry` and the heap interface of `HotKeyEntries`, with
  `heap.Init` and `heap.Pop` of the Go library `container/heap`;
* `model/counter.go`: `EmptyGetKeyCounter`, `SimpleGetKeyCounter`, `BucketGetKeyCounter`;
* `model/bucket.go`: `Bucketing`, with the hash `fnv.New32a` of the Go library;
* `model/scorer.go`: `SimpleKeyScorer`, over the trie that holds its entries, and
  `BucketKeyScorer`;
* `mcrouter/protocol.go`: `scanCRLF`, `parseCommand`, and the `bufio.Scanner` of the
  Go library that reads the tokens;
* `mcrouter/eavesdropper.go`: `OnCommand`, `parseStore`, `skipN`, and the
  `RollingWindowsMcrouterEavesdropper`;
* `model/aggregator.go` and `model/reporter.go`: the cut of `Aggregate`, the keys of the
  reports, and the leader loop of `elect`, run one statement at a time;
* `model/discovery.go`: `parseMcrouter` and the `SimpleMcrouterRegistry`, the probe
  `testMcrouter` being a function that is given.

Conventions of the embedding:

* a Go `map[string]uint64` is an association list; the order of the list is the
  order in which a `range` loop visits the entries, so a statement quantified over
  all lists with distinct keys covers every iteration order the runtime may pick;
* `uint64` values are natural numbers, reduced modulo `2^64` wherever the source
  performs arithmetic on them;
* a method that changes its receiver returns the new receiver;
* a runtime failure (index out of range, integer division by zero) or a loop that
  does not end is the result `none`;
* locks and atomics are left out: every method is run to its end before the next;
* a Go `string` is a string, a `[]byte` a list of bytes, an `int64` an integer that
  is wrapped into its range wherever the source performs arithmetic on it, and the
  clock `time.Now().Unix()` is an argument `now` of the functions that read it.

The first part of the file holds the definitions, the second part the theorems.
-/

set_option autoImplicit false

namespace McHotkeys

/-! ## Go maps `map[string]uint64` -/

/-- A `map[string]uint64`: the entries in iteration order. -/
abbrev CountMap := List (String × Nat)

namespace CountMap

/-- The keys of a map, in iteration order. -/
def keys (m : CountMap) : List String := m.map Prod.fst

/-- The two-valued lookup `v, ok := m[k]`. -/
def find? : CountMap → String → Option Nat
  | [], _ => none
  | (k', v) :: m, k => if k' = k then some v else find? m k

/-- The lookup `m[k]`: the zero value when `k` is absent. -/
def get (m : CountMap) (k : String) : Nat := (find? m k).getD 0

/-- The assignment `m[k] = v`. -/
def put : CountMap → String → Nat → CountMap
  | [], k, v => [(k, v)]
  | (k', v') :: m, k, v => if k' = k then (k, v) :: m else (k', v') :: put m k v

/-- The statement `delete(m, k)`. -/
def delete (m : CountMap) (k : String) : CountMap := m.filter (fun e => !decide (e.1 = k))

/-- The statement `m[k] += c` on `uint64` values. -/
def add (m : CountMap) (k : String) (c : Nat) : CountMap := put m k ((get m k + c) % 2 ^ 64)

/-- The loop `for k, c := range src { dst[k] += c }`. -/
def addAll (dst src : CountMap) : CountMap := src.foldl (fun acc e => add acc e.1 e.2) dst

/-- Two maps hold the same keys with the same values (what `reflect.DeepEqual` tests). -/
def Same (m₁ m₂ : CountMap) : Prop := ∀ k, find? m₁ k = find? m₂ k

end CountMap

/-! ## `model/aggregator.go`: heap entries, and `container/heap` over them -/

/-- The struct `HotKeyEntry`. -/
structure HotKeyEntry where
  Key : String
  Score : Nat
  deriving DecidableEq, Repr, Inhabited

/-- The slice type `HotKeyEntries`. -/
abbrev HotKeyEntries := List HotKeyEntry

namespace HotKeyEntries

/-- The method `Less`: `entries[i].Score > entries[j].Score`. -/
def Less (entries : HotKeyEntries) (i j : Nat) : Bool :=
  decide ((entries.getD i default).Score > (entries.getD j default).Score)

/-- The method `Swap`: `entries[i], entries[j] = entries[j], entries[i]`. -/
def Swap (entries : HotKeyEntries) (i j : Nat) : HotKeyEntries :=
  (entries.set i (entries.getD j default)).set j (entries.getD i default)

/-- The loop of `heap.down`, with `fuel` bounding the number of iterations. (The test
`j1 < 0` of the source guards against an overflow of `2*i + 1` that no slice index
reaches.) -/
def downLoop : Nat → HotKeyEntries → Nat → Nat → HotKeyEntries
  | 0, h, _, _ => h
  | fuel + 1, h, i, n =>
    let j1 := 2 * i + 1
    if j1 ≥ n then h
    else
      let j := if j1 + 1 < n ∧ Less h (j1 + 1) j1 = true then j1 + 1 else j1
      if Less h j i = false then h
      else downLoop fuel (Swap h i j) j n

/-- The function `heap.down(h, i0, n)`, without the boolean it returns (`Init` and `Pop`
do not use it); the index grows in every iteration and stays below `n`, so `n`
iterations are enough. -/
def down (h : HotKeyEntries) (i0 n : Nat) : HotKeyEntries := downLoop n h i0 n

/-- The loop of `heap.Init`: `down(h, i, n)` for `i = c - 1, ..., 0`. -/
def initLoop (n : Nat) : Nat → HotKeyEntries → HotKeyEntries
  | 0, h => h
  | c + 1, h => initLoop n c (down h c n)

/-- The function `heap.Init`. -/
def heapInit (h : HotKeyEntries) : HotKeyEntries := initLoop h.length (h.length / 2) h

/-- The function `heap.Pop` followed by the method `Pop` it calls: the entry removed and
the remaining heap. On an empty heap `Swap(0, -1)` fails. -/
def heapPop (h : HotKeyEntries) : Option (HotKeyEntry × HotKeyEntries) :=
  if h.length = 0 then none
  else
    let n := h.length - 1
    let h₁ := down (Swap h 0 n) 0 n
    some (h₁.getD n default, h₁.take n)

end HotKeyEntries

/-! ## `model/window.go`: `topN` -/

/-- The first loop of `topN`: every visited entry below the threshold is deleted from
`all`, every other entry is overwritten with `count * score` and appended to the
entries. -/
def topNScan (GetScore : String → Nat) (threshold : Nat) :
    List (String × Nat) → CountMap × HotKeyEntries → CountMap × HotKeyEntries
  | [], st => st
  | (k, c) :: rest, (all, es) =>
    if c ≥ threshold then
      let score := GetScore k
      topNScan GetScore threshold rest
        (all.put k (c * score % 2 ^ 64), es ++ [⟨k, c * score % 2 ^ 64⟩])
    else
      topNScan GetScore threshold rest (all.delete k, es)

/-- The second loop of `topN`: `t` pops, each written into `tops`. -/
def topNPops : Nat → HotKeyEntries → CountMap → Option CountMap
  | 0, _, tops => some tops
  | t + 1, h, tops =>
    match HotKeyEntries.heapPop h with
    | none => none
    | some (e, h') => topNPops t h' (tops.put e.Key e.Score)

/-- The function `topN`, returning the input map as `topN` leaves it and the map
`topN` returns. -/
def topNRun (GetScore : String → Nat) (all : CountMap) (n : Int) (threshold : Nat) :
    Option (CountMap × CountMap) :=
  let st := topNScan GetScore threshold all (all, [])
  if (st.1.length : Int) ≤ n then some (st.1, st.1)
  else
    match topNPops n.toNat (HotKeyEntries.heapInit st.2) [] with
    | none => none
    | some tops => some (st.1, tops)

/-- The function `topN`: the map returned. -/
def topN (GetScore : String → Nat) (all : CountMap) (n : Int) (threshold : Nat) :
    Option CountMap :=
  (topNRun GetScore all n threshold).map Prod.snd

/-! ## `model/counter.go` and `model/bucket.go` -/

/-- The struct `EmptyGetKeyCounter`. -/
structure EmptyGetKeyCounter where
  deriving DecidableEq, Repr

/-- The method `EmptyGetKeyCounter.Increment`: a no-op. -/
def EmptyGetKeyCounter.Increment (c : EmptyGetKeyCounter) (_key : String) (_delta : Nat) :
    EmptyGetKeyCounter := c

/-- The method `EmptyGetKeyCounter.Snapshot`: always an empty map. -/
def EmptyGetKeyCounter.Snapshot (_c : EmptyGetKeyCounter) : CountMap := []

/-- The struct `SimpleGetKeyCounter` (the mutex left out). -/
structure SimpleGetKeyCounter where
  counts : CountMap
  deriving DecidableEq, Repr

/-- The method `SimpleGetKeyCounter.Increment`: `counts[key] += delta`. -/
def SimpleGetKeyCounter.Increment (c : SimpleGetKeyCounter) (key : String) (delta : Nat) :
    SimpleGetKeyCounter := { counts := c.counts.add key delta }

/-- The method `SimpleGetKeyCounter.Snapshot`: a fresh map filled with every entry of
`counts`. The counter itself is left as it is. -/
def SimpleGetKeyCounter.Snapshot (c : SimpleGetKeyCounter) : CountMap :=
  c.counts.foldl (fun readOnly e => readOnly.put e.1 e.2) []

/-- The function `NewSimpleGetKeyCounter`. -/
def NewSimpleGetKeyCounter : SimpleGetKeyCounter := { counts := [] }

/-- The hash `fnv.New32a` applied to the bytes of a key: FNV-1a on 32 bits. -/
def fnv1a32 (key : String) : Nat :=
  (key.data.flatMap String.utf8EncodeChar).foldl
    (fun hash b => ((hash ^^^ b.toNat) * 16777619) % 2 ^ 32) 2166136261

/-- The struct `Bucketing`; `hashing` maps a key to the `Sum32` of a new hash that the
key was written to. -/
structure Bucketing (α : Type) where
  instances : List α
  hashing : String → Nat
  buckets : Nat

/-- The index that `Bucketing.Pick` computes, `hashing.Sum32() % buckets`; the remainder
fails when `buckets` is zero. (`Write` on a `hash.Hash` never returns an error.) -/
def Bucketing.PickIndex {α : Type} (bucketing : Bucketing α) (key : String) : Option Nat :=
  if bucketing.buckets = 0 then none
  else some ((bucketing.hashing key % 2 ^ 32) % bucketing.buckets)

/-- The method `Bucketing.Pick`. -/
def Bucketing.Pick {α : Type} (bucketing : Bucketing α) (key : String) : Option α :=
  match bucketing.PickIndex key with
  | none => none
  | some i => bucketing.instances[i]?

/-- The function `NewBucketing`, `buckets` being a `uint32`. -/
def NewBucketing {α : Type} (new : Unit → α) (hashing : String → Nat) (buckets : Nat) :
    Bucketing α :=
  { instances := List.replicate buckets (new ()), hashing := hashing, buckets := buckets }

/-- The struct `BucketGetKeyCounter` (the lock left out). -/
structure BucketGetKeyCounter where
  bucketing : Bucketing SimpleGetKeyCounter
  snapshotted : CountMap
  freeze : Int

/-- The method `BucketGetKeyCounter.Increment`: nothing once frozen, else the increment
of the counter that `Pick` returns. -/
def BucketGetKeyCounter.Increment (c : BucketGetKeyCounter) (key : String) (delta : Nat) :
    Option BucketGetKeyCounter :=
  if c.freeze = 0 then
    match c.bucketing.PickIndex key with
    | none => none
    | some i =>
      match c.bucketing.instances[i]? with
      | none => none
      | some counter =>
        some { c with bucketing :=
          { c.bucketing with
            instances := c.bucketing.instances.set i (counter.Increment key delta) } }
  else some c

/-- The method `BucketGetKeyCounter.Snapshot`: the first call adds up the snapshots of
all buckets, stores the sum and sets `freeze`; later calls return the stored map. -/
def BucketGetKeyCounter.Snapshot (c : BucketGetKeyCounter) : CountMap × BucketGetKeyCounter :=
  if c.freeze = 0 then
    let aggregate := c.bucketing.instances.foldl
      (fun aggregate counter => CountMap.addAll aggregate counter.Snapshot) []
    (aggregate, { c with snapshotted := aggregate, freeze := 1 })
  else (c.snapshotted, c)

/-- The function `NewBucketGetKeyCounter`; `uint32(buckets)` is `buckets mod 2^32`. -/
def NewBucketGetKeyCounter (buckets : Int) : BucketGetKeyCounter :=
  { bucketing := NewBucketing (fun _ => NewSimpleGetKeyCounter) fnv1a32 (buckets % 2 ^ 32).toNat,
    snapshotted := [],
    freeze := 0 }

/-- The interface `GetKeyCounter`, with its three implementations. -/
inductive GetKeyCounter where
  | empty (c : EmptyGetKeyCounter)
  | simple (c : SimpleGetKeyCounter)
  | bucket (c : BucketGetKeyCounter)

/-- The interface method `Increment`. -/
def GetKeyCounter.Increment : GetKeyCounter → String → Nat → Option GetKeyCounter
  | .empty c, key, delta => some (.empty (c.Increment key delta))
  | .simple c, key, delta => some (.simple (c.Increment key delta))
  | .bucket c, key, delta => (c.Increment key delta).map .bucket

/-- The interface method `Snapshot`: the map returned and the counter afterwards. -/
def GetKeyCounter.Snapshot : GetKeyCounter → CountMap × GetKeyCounter
  | .empty c => (c.Snapshot, .empty c)
  | .simple c => (c.Snapshot, .simple c)
  | .bucket c => ((c.Snapshot).1, .bucket (c.Snapshot).2)

/-! ## `model/window.go`: the ring of windows -/

/-- The struct `SimpleRollingWindows` (the lock left out), over a scorer of type `σ`.
The width is a natural number: with a negative width `NewSimpleRollingWindows` fails. -/
structure SimpleRollingWindows (σ : Type) where
  width : Nat
  windows : List GetKeyCounter
  scorer : σ
  current : Nat
  readFrom : Nat
  readTo : Int
  topN : Int
  threshold : Nat

/-- The function `NewSimpleRollingWindows`. -/
def NewSimpleRollingWindows {σ : Type} (scorer : σ) (keyCounterGenerator : Unit → GetKeyCounter)
    (rollingWidth : Nat) (topN : Int) (threshold : Nat) : SimpleRollingWindows σ :=
  { width := rollingWidth,
    windows := (List.replicate (rollingWidth + 1) (GetKeyCounter.empty {})).set rollingWidth
      (keyCounterGenerator ()),
    scorer := scorer,
    current := rollingWidth,
    readFrom := 0,
    readTo := (rollingWidth : Int) - 1,
    topN := topN,
    threshold := threshold }

namespace SimpleRollingWindows

/-- The method `last`. -/
def last {σ : Type} (w : SimpleRollingWindows σ) : Option GetKeyCounter :=
  w.windows[w.current]?

/-- The method `Increment`: the increment of the window at `current`. -/
def Increment {σ : Type} (w : SimpleRollingWindows σ) (key : String) (delta : Nat) :
    Option (SimpleRollingWindows σ) :=
  match w.last with
  | none => none
  | some c =>
    match c.Increment key delta with
    | none => none
    | some c' => some { w with windows := w.windows.set w.current c' }

/-- The loop of `Roll` from index `s` on: every window up to `readFrom`, exclusive, is
snapshotted and added to `aggregate`. `fuel` bounds the number of iterations. -/
def rollLoop (readFrom width : Nat) :
    Nat → Nat → List GetKeyCounter → CountMap → Option (List GetKeyCounter × CountMap)
  | 0, s, windows, aggregate => if s = readFrom then some (windows, aggregate) else none
  | fuel + 1, s, windows, aggregate =>
    if s = readFrom then some (windows, aggregate)
    else
      match windows[s]? with
      | none => none
      | some c =>
        rollLoop readFrom width fuel ((s + 1) % width) (windows.set s (c.Snapshot).2)
          (CountMap.addAll aggregate (c.Snapshot).1)

/-- The method `Roll`: the map returned and the ring afterwards. `GetScore` is the
method `GetScore` of the scorer. -/
def Roll {σ : Type} (GetScore : σ → String → Nat) (w : SimpleRollingWindows σ) :
    Option (CountMap × SimpleRollingWindows σ) :=
  if w.windows.length ≤ w.readFrom then none
  else
    let windows := w.windows.set w.readFrom (GetKeyCounter.bucket (NewBucketGetKeyCounter 32))
    let width := w.width + 1
    match rollLoop w.readFrom width width ((w.readFrom + 1) % width) windows [] with
    | none => none
    | some (windows', aggregate) =>
      match McHotkeys.topN (GetScore w.scorer) aggregate w.topN w.threshold with
      | none => none
      | some tops =>
        some (tops, { w with
          windows := windows',
          readTo := (w.current : Int),
          current := w.readFrom,
          readFrom := (w.readFrom + 1) % width })

end SimpleRollingWindows

/-! ## Notions used in the statements -/

/-- The entries that reach the threshold, in iteration order. -/
def survivors (all : CountMap) (threshold : Nat) : CountMap :=
  all.filter (fun e => decide (threshold ≤ e.2))

/-- The entries that reach the threshold, each with its final score. -/
def scored (GetScore : String → Nat) (all : CountMap) (threshold : Nat) : CountMap :=
  (survivors all threshold).map (fun e => (e.1, e.2 * GetScore e.1 % 2 ^ 64))

/-- A map entry as a heap entry. -/
def toEntry (e : String × Nat) : HotKeyEntry := ⟨e.1, e.2⟩

/-- A heap entry as a map entry. -/
def ofEntry (e : HotKeyEntry) : String × Nat := (e.Key, e.Score)

namespace HotKeyEntries

/-- The child that `heap.down` compares with node `i`: the right one when it exists
and is `Less` than the left one, else the left one. -/
def downChild (h : HotKeyEntries) (i n : Nat) : Nat :=
  if 2 * i + 1 + 1 < n ∧ Less h (2 * i + 1 + 1) (2 * i + 1) = true then 2 * i + 1 + 1
  else 2 * i + 1

/-- The score at index `i`. -/
def sc (h : HotKeyEntries) (i : Nat) : Nat := (h.getD i default).Score

/-- The children of node `k`, among the first `n` entries, have no larger score than
node `k`. -/
def HeapAt (h : HotKeyEntries) (n k : Nat) : Prop :=
  (2 * k + 1 < n → sc h (2 * k + 1) ≤ sc h k) ∧ (2 * k + 2 < n → sc h (2 * k + 2) ≤ sc h k)

/-- Every node from `lo` on dominates its children, among the first `n` entries. -/
def HeapFrom (h : HotKeyEntries) (lo n : Nat) : Prop :=
  ∀ k, lo ≤ k → k < n → HeapAt h n k

end HotKeyEntries

/-! ## Sequences of calls on a counter -/

/-- A call on a counter: `Increment(key, delta)` or `Snapshot()`. -/
inductive CounterOp where
  | inc (key : String) (delta : Nat)
  | snap
  deriving DecidableEq, Repr

/-- The calls `Increment(key, delta)` for every `(key, delta)` of `incs`, in order, on a
`SimpleGetKeyCounter`. -/
def SimpleGetKeyCounter.IncrementAll (c : SimpleGetKeyCounter) (incs : List (String × Nat)) :
    SimpleGetKeyCounter :=
  incs.foldl (fun c e => c.Increment e.1 e.2) c

/-- The calls `Increment(key, delta)` for every `(key, delta)` of `incs`, in order, on a
`BucketGetKeyCounter`. -/
def BucketGetKeyCounter.IncrementAll :
    BucketGetKeyCounter → List (String × Nat) → Option BucketGetKeyCounter
  | c, [] => some c
  | c, (key, delta) :: incs =>
    match c.Increment key delta with
    | none => none
    | some c' => BucketGetKeyCounter.IncrementAll c' incs

/-- A sequence of calls on a `BucketGetKeyCounter`: the maps that the `Snapshot` calls
return, in order, and the counter afterwards. -/
def BucketGetKeyCounter.run :
    BucketGetKeyCounter → List CounterOp → Option (List CountMap × BucketGetKeyCounter)
  | c, [] => some ([], c)
  | c, .inc key delta :: ops =>
    match c.Increment key delta with
    | none => none
    | some c' => BucketGetKeyCounter.run c' ops
  | c, .snap :: ops =>
    match BucketGetKeyCounter.run (c.Snapshot).2 ops with
    | none => none
    | some (snaps, c') => some ((c.Snapshot).1 :: snaps, c')

/-- The sum of the deltas that a sequence of increments gives to key `k`. -/
def deltaSum (incs : List (String × Nat)) (k : String) : Nat :=
  ((incs.filter (fun e => decide (e.1 = k))).map Prod.snd).sum

/-- The buckets of `b` hold between them what the simple counter `s` holds: a key is
counted in the bucket that `Pick` gives it, with the count it has in `s`, and in no
other bucket. -/
def BucketsHold (b : Bucketing SimpleGetKeyCounter) (s : SimpleGetKeyCounter) : Prop :=
  1 ≤ b.buckets ∧ b.instances.length = b.buckets
    ∧ (∀ k v, CountMap.find? s.counts k = some v → v < 2 ^ 64)
    ∧ ∀ j (hj : j < b.instances.length),
        (CountMap.keys (b.instances.get ⟨j, hj⟩).counts).Nodup
          ∧ ∀ k, CountMap.find? (b.instances.get ⟨j, hj⟩).counts k
              = if (b.hashing k % 2 ^ 32) % b.buckets = j then CountMap.find? s.counts k
                else none

/-! ## Runs of the ring -/

namespace SimpleRollingWindows

/-- The index `i` positions to the right of `readFrom`, modulo `width + 1`. -/
def slot {σ : Type} (w : SimpleRollingWindows σ) (i : Nat) : Nat :=
  (w.readFrom + i) % (w.width + 1)

/-- The windows at the indices `ps`, snapshotted one after the other and added to
`aggregate`: what the loop of `Roll` does when it visits the indices `ps`. -/
def visit : List Nat → List GetKeyCounter → CountMap → List GetKeyCounter × CountMap
  | [], windows, aggregate => (windows, aggregate)
  | p :: ps, windows, aggregate =>
    match windows[p]? with
    | none => (windows, aggregate)
    | some c => visit ps (windows.set p (c.Snapshot).2) (CountMap.addAll aggregate (c.Snapshot).1)

/-- The calls `Increment(key, delta)` for every `(key, delta)` of `incs`, in order. -/
def IncrementAll {σ : Type} :
    SimpleRollingWindows σ → List (String × Nat) → Option (SimpleRollingWindows σ)
  | w, [] => some w
  | w, (key, delta) :: incs =>
    match w.Increment key delta with
    | none => none
    | some w' => IncrementAll w' incs

/-- A run of the ring: for every element `incs` of the trace, the increments `incs`
followed by one `Roll`. The result is the maps that the `Roll`s return, in order, and
the ring afterwards. -/
def run {σ : Type} (GetScore : σ → String → Nat) :
    SimpleRollingWindows σ → List (List (String × Nat)) →
      Option (List CountMap × SimpleRollingWindows σ)
  | w, [] => some ([], w)
  | w, incs :: trace =>
    match w.IncrementAll incs with
    | none => none
    | some w₁ =>
      match w₁.Roll GetScore with
      | none => none
      | some (tops, w₂) =>
        match run GetScore w₂ trace with
        | none => none
        | some (rest, w₃) => some (tops :: rest, w₃)

/-- The states that a ring reaches from `w₀` with `k` calls of `Roll` and any number of
calls of `Increment`, in any order. -/
inductive ReachableIn {σ : Type} (GetScore : σ → String → Nat) (w₀ : SimpleRollingWindows σ) :
    Nat → SimpleRollingWindows σ → Prop where
  | init : ReachableIn GetScore w₀ 0 w₀
  | roll {k : Nat} {w w' : SimpleRollingWindows σ} {tops : CountMap} :
      ReachableIn GetScore w₀ k w → w.Roll GetScore = some (tops, w') →
        ReachableIn GetScore w₀ (k + 1) w'
  | increment {k : Nat} {w w' : SimpleRollingWindows σ} {key : String} {delta : Nat} :
      ReachableIn GetScore w₀ k w → w.Increment key delta = some w' →
        ReachableIn GetScore w₀ k w'

end SimpleRollingWindows

/-- The map `m` holds the per-key sums, modulo `2^64`, of the increments `incs`. -/
def Tallies (m : CountMap) (incs : List (String × Nat)) : Prop :=
  (CountMap.keys m).Nodup
    ∧ ∀ k, CountMap.find? m k
        = if k ∈ incs.map Prod.fst then some (deltaSum incs k % 2 ^ 64) else none

/-- The method `GetScore` of the `dumbKeyScorer` of `window_test.go`: always 1. -/
def dumbKeyScorer.GetScore : Unit → String → Nat := fun _ _ => 1

/-- The ring of `TestSimpleRollingWindows`: width 4, top 3, threshold 1, over one
bucket. -/
def testRing : SimpleRollingWindows Unit :=
  NewSimpleRollingWindows () (fun _ => GetKeyCounter.bucket (NewBucketGetKeyCounter 1)) 4 3 1

namespace SimpleRollingWindows

/-- The ring after a `Roll` whose loop left the windows `windows'`. -/
def rolled {σ : Type} (w : SimpleRollingWindows σ) (windows' : List GetKeyCounter) :
    SimpleRollingWindows σ :=
  { w with
    windows := windows',
    readTo := (w.current : Int),
    current := w.readFrom,
    readFrom := (w.readFrom + 1) % (w.width + 1) }

/-- The indices of a ring of width `W` after `k` calls of `Roll`. -/
def IdxAt {σ : Type} (W k : Nat) (w : SimpleRollingWindows σ) : Prop :=
  w.width = W ∧ w.windows.length = W + 1 ∧ w.readFrom = k % (W + 1)
    ∧ w.current = (k % (W + 1) + W) % (W + 1)
    ∧ w.readTo = if W = 0 ∧ k = 0 then -1 else (((k % (W + 1) + (W - 1)) % (W + 1) : Nat) : Int)

end SimpleRollingWindows

/-- The snapshot of the counter `c` holds the per-key sums of the increments `incs`. -/
def SnapshotIs (c : GetKeyCounter) (incs : List (String × Nat)) : Prop :=
  Tallies (c.Snapshot).1 incs

/-- The last `W` elements of the list of windows `l`, preceded by empty windows when
`l` has fewer than `W` elements. -/
def lastW (W : Nat) (l : List (List (String × Nat))) : List (List (String × Nat)) :=
  (List.replicate W [] ++ l).drop l.length

/-- The state of a ring of width `W` in terms of the increments it has received: the
window `i` positions to the right of `readFrom`, for `i < W`, is a closed window whose
snapshot sums the increments `closed[i]`, and the window at `current`, which follows
them, is an unfrozen bucket counter that holds the increments `cur`. -/
def RingInv {σ : Type} (W : Nat) (scorer : σ) (N : Int) (T : Nat) (w : SimpleRollingWindows σ)
    (closed : List (List (String × Nat))) (cur : List (String × Nat)) : Prop :=
  w.width = W ∧ w.scorer = scorer ∧ w.topN = N ∧ w.threshold = T
    ∧ w.windows.length = W + 1 ∧ w.readFrom < W + 1 ∧ w.current = (w.readFrom + W) % (W + 1)
    ∧ closed.length = W
    ∧ (∀ i, i < W →
        ∃ c, w.windows[(w.readFrom + i) % (W + 1)]? = some c ∧ SnapshotIs c (closed.getD i []))
    ∧ ∃ c, w.windows[w.current]? = some (GetKeyCounter.bucket c) ∧ c.freeze = 0
        ∧ BucketsHold c.bucketing (NewSimpleGetKeyCounter.IncrementAll cur)

/-! ## `model/scorer.go`: `SimpleKeyScorer` -/

/-- The struct `scoreEntry`: the size of a value and its expiry, in unix seconds. -/
structure scoreEntry where
  bytes : Nat
  exptime : Int
  deriving DecidableEq, Repr

/-- A `trie.RuneTrie` (library `github.com/dghubble/trie`) that holds score entries: the
keys that have a value, each with its value, in the order in which `Walk` visits them. -/
abbrev RuneTrie := List (String × scoreEntry)

namespace RuneTrie

/-- The method `Get`: the value stored at `key`, `nil` when there is none. -/
def Get : RuneTrie → String → Option scoreEntry
  | [], _ => none
  | (k, v) :: t, key => if k = key then some v else Get t key

/-- The method `Put`: the value is stored at `key`, in place of the one there if any. -/
def Put : RuneTrie → String → scoreEntry → RuneTrie
  | [], key, v => [(key, v)]
  | (k, v') :: t, key, v => if k = key then (key, v) :: t else (k, v') :: Put t key v

/-- The method `Delete`: the value stored at `key` is removed. -/
def Delete (t : RuneTrie) (key : String) : RuneTrie := t.filter (fun e => !decide (e.1 = key))

end RuneTrie

/-- The struct `SimpleKeyScorer` (the lock left out). -/
structure SimpleKeyScorer where
  minBytes : Nat
  trie : RuneTrie
  deriving DecidableEq, Repr

namespace SimpleKeyScorer

/-- The method `SetScore`: the entry `{bytes, exptime}` is put at `key`, `exptime` as
it is given. -/
def SetScore (s : SimpleKeyScorer) (key : String) (bytes : Nat) (exptime : Int) :
    SimpleKeyScorer :=
  { s with trie := s.trie.Put key ⟨bytes, exptime⟩ }

/-- The method `DelScore`: every key given is deleted. -/
def DelScore (s : SimpleKeyScorer) (key : List String) : SimpleKeyScorer :=
  { s with trie := key.foldl (fun t k => t.Delete k) s.trie }

/-- The method `GetScore`, `now` being `time.Now().Unix()`: the stored bytes when there
is an entry whose `exptime` is 0 or later than `now`, `minBytes` otherwise. -/
def GetScore (s : SimpleKeyScorer) (now : Int) (key : String) : Nat :=
  match s.trie.Get key with
  | some stored => if stored.exptime = 0 ∨ stored.exptime > now then stored.bytes else s.minBytes
  | none => s.minBytes

/-- The method `sweep`, `now` being `time.Now().Unix()`: the keys whose entry has an
`exptime > 0` that is not later than `now`. -/
def sweep (s : SimpleKeyScorer) (now : Int) : List String :=
  (s.trie.filter (fun e => decide (e.2.exptime > 0 ∧ e.2.exptime ≤ now))).map Prod.fst

/-- One tick of the sweeper that `NewSimpleKeyScorer` starts:
`scorer.DelScore(scorer.sweep()...)`. -/
def sweepTick (s : SimpleKeyScorer) (now : Int) : SimpleKeyScorer := s.DelScore (s.sweep now)

end SimpleKeyScorer

/-- The function `NewSimpleKeyScorer`: an empty trie (the sweeper it starts is
`sweepTick`, run at every tick). -/
def NewSimpleKeyScorer (minBytes : Nat) : SimpleKeyScorer := { minBytes := minBytes, trie := [] }

/-! ## `mcrouter/protocol.go` and `mcrouter/eavesdropper.go`: the codec

In this part a Go `string` is a Lean string, a `[]byte` is a list of bytes, and
`[]byte(s)` is the UTF-8 encoding of `s`. -/

/-- The enumeration `Command`. -/
inductive Command where
  | UNKNOWN | GET | GETS | GAT | GATS | SET | ADD | REPLACE | CAS | APPEND | PREPEND
  | INCR | DECR | TOUCH | DELETE | STATS | VERSION | QUIT
  deriving DecidableEq, Repr

/-- The errors of the codec: `ErrParse`, `ErrQuit`, and `bufio.ErrAdvanceTooFar` of the
Go library. -/
inductive Error where
  | ErrParse | ErrQuit | ErrAdvanceTooFar
  deriving DecidableEq, Repr

/-- The conversion `[]byte(s)`. -/
def bytesOf (s : String) : List UInt8 := s.data.flatMap String.utf8EncodeChar

/-- The constant `CRLF`. -/
def CRLF : String := "\r\n"

/-- The constant `MAX_EXPIRE_SECONDS`. -/
def MAX_EXPIRE_SECONDS : Int := 60 * 60 * 24 * 30

/-- The reply `Version`, as the string it is made from. -/
def Version : String := "mc_guardian 0.1\r\n"

/-- The reply `End`. -/
def End : String := "END\r\n"

/-- The reply `NotStored`. -/
def NotStored : String := "NOT_STORED\r\n"

/-- The reply `NotFound`. -/
def NotFound : String := "NOT_FOUND\r\n"

/-- The reply `ClientError`. -/
def ClientError : String := "CLIENT_ERROR <ignore eavesdropping error>\r\n"

/-- An `int64` (and an `int`, on a 64-bit platform) after an arithmetic operation: the
value modulo `2^64`, between `-2^63` and `2^63 - 1`. -/
def wrapInt64 (x : Int) : Int := (x + 2 ^ 63) % 2 ^ 64 - 2 ^ 63

/-- The conversion `uint64(n)` of an `int`. -/
def toUint64 (n : Int) : Nat := (n % 2 ^ 64).toNat

/-- The function `bytes.IndexAny(data, chars)` of the Go library, for ASCII `chars`: the
index of the first byte of `data` that is one of `chars`. -/
def IndexAny (data : List UInt8) (chars : List UInt8) : Option Nat :=
  match data with
  | [] => none
  | b :: rest => if b ∈ chars then some 0 else (IndexAny rest chars).map (· + 1)

/-- The function `scanCRLF`: the advance, the token (`nil` is `none`) and the error. -/
def scanCRLF (data : List UInt8) (atEOF : Bool) : Nat × Option (List UInt8) × Option Error :=
  if atEOF ∧ data.length = 0 then (0, none, none)
  else
    match IndexAny data (bytesOf CRLF) with
    | some i => (i + 2, some (data.take i), none)
    | none => if atEOF then (data.length, some data, none) else (0, none, none)

/-- A `bufio.Scanner` with the split function `scanCRLF`, over a connection whose bytes
have all arrived: `buf` holds the unread bytes, all of which a call of the split
function is given, at end of file; `token` is what `Bytes()` returns. The bound of the
library on the length of a token (64 KiB) is left out. -/
structure Scanner where
  buf : List UInt8
  token : List UInt8
  done : Bool
  err : Option Error
  deriving DecidableEq, Repr

namespace Scanner

/-- The function `bufio.NewScanner` followed by `Split(scanCRLF)`, on a connection that
delivers `stream`. -/
def new (stream : List UInt8) : Scanner := { buf := stream, token := [], done := false, err := none }

/-- The method `Scan`: whether there is a token, and the scanner afterwards. An advance
beyond the unread bytes is the error `ErrAdvanceTooFar`; no token at end of file ends
the scan. -/
def Scan (s : Scanner) : Bool × Scanner :=
  if s.done then (false, s)
  else
    match scanCRLF s.buf true with
    | (advance, token, _) =>
      if advance > s.buf.length then
        (false, { s with token := [], done := true, err := some Error.ErrAdvanceTooFar })
      else
        match token with
        | none => (false, { s with buf := s.buf.drop advance, token := [], done := true })
        | some t => (true, { s with buf := s.buf.drop advance, token := t })

end Scanner

/-- The loop of `skipN`, with `fuel` bounding the number of iterations: the error
returned and the scanner afterwards. -/
def skipNLoop : Nat → Scanner → Int → Option Error × Scanner
  | 0, scanner, _ => (some Error.ErrParse, scanner)
  | fuel + 1, scanner, n =>
    if (scanner.Scan).1 then
      let scanned : Int := ((scanner.Scan).2.token.length : Int) + 2
      let n := wrapInt64 (n - scanned)
      if n < 0 then (some Error.ErrParse, (scanner.Scan).2)
      else if n = 0 then (none, (scanner.Scan).2)
      else skipNLoop fuel (scanner.Scan).2 n
    else
      if ((scanner.Scan).2.err).isSome then ((scanner.Scan).2.err, (scanner.Scan).2)
      else (some Error.ErrParse, (scanner.Scan).2)

/-- The function `skipN`; every `Scan` that returns `true` takes at least one byte, so
one iteration more than there are unread bytes is enough. -/
def skipN (scanner : Scanner) (n : Int) : Option Error × Scanner :=
  skipNLoop (scanner.buf.length + 1) scanner n

/-- The function `unicode.IsSpace` of the Go library. -/
def IsSpace (c : Char) : Bool :=
  c = '\t' || c = '\n' || c = '\x0b' || c = '\x0c' || c = '\r' || c = ' '
    || c.toNat = 0x85 || c.toNat = 0xA0 || c.toNat = 0x1680
    || (0x2000 ≤ c.toNat && c.toNat ≤ 0x200a)
    || c.toNat = 0x2028 || c.toNat = 0x2029 || c.toNat = 0x202f || c.toNat = 0x205f
    || c.toNat = 0x3000

/-- The function `strings.TrimSpace` of the Go library. -/
def TrimSpace (s : String) : String :=
  String.mk ((s.data.dropWhile IsSpace).reverse.dropWhile IsSpace).reverse

/-- The digits of `strconv.ParseUint(s, 10, 64)`, without the check of the range: the
number that the decimal digits `s` spell after `acc`, `none` when a byte is not a
digit. -/
def parseDigits : List Char → Nat → Option Nat
  | [], acc => some acc
  | c :: rest, acc =>
    if '0' ≤ c ∧ c ≤ '9' then parseDigits rest (acc * 10 + (c.toNat - '0'.toNat)) else none

/-- The function `strconv.ParseInt(s, 10, 64)` of the Go library, `none` when it returns
an error: an optional sign, then at least one decimal digit, the value within `int64`. -/
def ParseInt (s : String) : Option Int :=
  match s.data with
  | [] => none
  | c :: rest =>
    let neg := decide (c = '-')
    let digits := if c = '+' ∨ c = '-' then rest else c :: rest
    if digits = [] then none
    else
      match parseDigits digits 0 with
      | none => none
      | some un =>
        if ¬ neg ∧ un ≥ 2 ^ 63 then none
        else if neg ∧ un > 2 ^ 63 then none
        else some (if neg then -(un : Int) else (un : Int))

/-- The function `strconv.Atoi` of the Go library, `int` being 64 bits wide. -/
def Atoi (s : String) : Option Int := ParseInt s

/-- The sections of `strings.Split(s, " ")`, on the characters of `s`: `cur` holds, in
reverse, the characters of the section being read. -/
def splitSpaces : List Char → List Char → List String
  | [], cur => [String.mk cur.reverse]
  | c :: rest, cur =>
    if c = ' ' then String.mk cur.reverse :: splitSpaces rest []
    else splitSpaces rest (c :: cur)

/-- The function `strings.Split(s, " ")` of the Go library. -/
def Split (s : String) : List String := splitSpaces s.data []

/-- The function `parseStore`, `now` being `time.Now().Unix()`. -/
def parseStore (now : Int) (args : List String) : Except Error (String × Int × Int) :=
  if args.length < 4 then Except.error Error.ErrParse
  else
    match Atoi (TrimSpace (args.getD 3 "")) with
    | none => Except.error Error.ErrParse
    | some bytes =>
      match ParseInt (args.getD 2 "") with
      | none => Except.error Error.ErrParse
      | some exptime =>
        let exptime :=
          if exptime > 0 ∧ exptime ≤ MAX_EXPIRE_SECONDS then wrapInt64 (now + exptime)
          else exptime
        Except.ok (args.getD 0 "", bytes, exptime)

/-- The function `parseCommand`: the command, the arguments and the error; `none` when
the slice expression `sections[2:]` is out of range. -/
def parseCommand (command : String) : Option (Command × List String × Option Error) :=
  let sections := Split command
  if sections.length < 1 then some (Command.UNKNOWN, [], some Error.ErrParse)
  else
    let cmd := sections.getD 0 ""
    if cmd = "get" then some (Command.GET, sections.drop 1, none)
    else if cmd = "gets" then some (Command.GETS, sections.drop 1, none)
    else if cmd = "gat" then
      if sections.length < 2 then none else some (Command.GAT, sections.drop 2, none)
    else if cmd = "gats" then
      if sections.length < 2 then none else some (Command.GATS, sections.drop 2, none)
    else if cmd = "set" then some (Command.SET, sections.drop 1, none)
    else if cmd = "add" then some (Command.ADD, sections.drop 1, none)
    else if cmd = "replace" then some (Command.REPLACE, sections.drop 1, none)
    else if cmd = "delete" then some (Command.DELETE, sections.drop 1, none)
    else if cmd = "cas" then some (Command.CAS, sections.drop 1, none)
    else if cmd = "append" then some (Command.APPEND, sections.drop 1, none)
    else if cmd = "prepend" then some (Command.PREPEND, sections.drop 1, none)
    else if cmd = "incr" then some (Command.INCR, sections.drop 1, none)
    else if cmd = "decr" then some (Command.DECR, sections.drop 1, none)
    else if cmd = "touch" then some (Command.TOUCH, sections.drop 1, none)
    else if cmd = "stats" then some (Command.STATS, sections.drop 1, none)
    else if cmd = "version" then some (Command.VERSION, [], none)
    else if cmd = "quit" then some (Command.QUIT, [], none)
    else some (Command.UNKNOWN, [], none)

/-- The struct `AbstractMcrouterEavesdropper`, over the state `σ` that its three
functions read and change; a function that fails returns `none`. -/
structure AbstractMcrouterEavesdropper (σ : Type) where
  OnFetch : List String → σ → Option σ
  OnStore : String → Int → Int → σ → Option σ
  OnDelete : String → σ → Option σ

/-- What `OnCommand` returns: the reply (`nil` is `none`) and the error, with the scanner
and the state afterwards. -/
structure Reply (σ : Type) where
  resp : Option String
  err : Option Error
  scanner : Scanner
  state : σ

/-- The method `AbstractMcrouterEavesdropper.OnCommand`, `now` being the
`time.Now().Unix()` that `parseStore` reads. -/
def AbstractMcrouterEavesdropper.OnCommand {σ : Type} (eavesdropper : AbstractMcrouterEavesdropper σ)
    (now : Int) (command : Command) (args : List String) (scanner : Scanner) (state : σ) :
    Option (Reply σ) :=
  match command with
  | Command.GET | Command.GETS | Command.GAT | Command.GATS =>
    match eavesdropper.OnFetch args state with
    | none => none
    | some state' => some ⟨some End, none, scanner, state'⟩
  | Command.SET | Command.ADD | Command.REPLACE | Command.CAS =>
    match parseStore now args with
    | Except.ok (key, bytes, exptime) =>
      match eavesdropper.OnStore key bytes exptime state with
      | none => none
      | some state' => some ⟨some NotStored, none, (skipN scanner (wrapInt64 (bytes + 2))).2, state'⟩
    | Except.error _ => some ⟨some NotStored, none, scanner, state⟩
  | Command.DELETE =>
    match args with
    | key :: _ =>
      match eavesdropper.OnDelete key state with
      | none => none
      | some state' => some ⟨some NotFound, none, scanner, state'⟩
    | [] => some ⟨some NotFound, none, scanner, state⟩
  | Command.APPEND | Command.PREPEND | Command.INCR | Command.DECR | Command.TOUCH =>
    some ⟨some NotFound, none, scanner, state⟩
  | Command.VERSION => some ⟨some Version, none, scanner, state⟩
  | Command.STATS => some ⟨some End, none, scanner, state⟩
  | Command.QUIT => some ⟨none, some Error.ErrQuit, scanner, state⟩
  | Command.UNKNOWN => some ⟨some ClientError, none, scanner, state⟩

/-- The function `NewNoopMcrouterEavesdropper`. -/
def NewNoopMcrouterEavesdropper : AbstractMcrouterEavesdropper Unit :=
  { OnFetch := fun _ s => some s, OnStore := fun _ _ _ s => some s, OnDelete := fun _ s => some s }

/-- The interface `KeyScorer` of `model/api.go`, as the methods of an implementation
whose state is `σ`; `GetScore` is given the clock, and a method that fails returns
`none`. -/
structure KeyScorer (σ : Type) where
  SetScore : σ → String → Nat → Int → Option σ
  DelScore : σ → List String → Option σ
  GetScore : σ → Int → String → Option Nat

/-- The type `SimpleKeyScorer` as a `KeyScorer`. -/
def SimpleKeyScorer.asKeyScorer : KeyScorer SimpleKeyScorer :=
  { SetScore := fun s key bytes exptime => some (s.SetScore key bytes exptime),
    DelScore := fun s key => some (s.DelScore key),
    GetScore := fun s now key => some (s.GetScore now key) }

/-- The struct `RollingWindowsMcrouterEavesdropper`. Its field `keyScorer` is the scorer
of `rollingWindows`, one object that `newEavesdropper` of `mc_hotkeys.go` hands to both:
its state is `rollingWindows.scorer`, its methods are `keyScorer`. -/
structure RollingWindowsMcrouterEavesdropper (σ : Type) where
  rollingWindows : SimpleRollingWindows σ
  keyScorer : KeyScorer σ

namespace RollingWindowsMcrouterEavesdropper

/-- The method `OnFetch`: `Increment(key, 1)` for every key. -/
def OnFetch {σ : Type} (eavesdropper : RollingWindowsMcrouterEavesdropper σ)
    (keys : List String) : Option (RollingWindowsMcrouterEavesdropper σ) :=
  match keys with
  | [] => some eavesdropper
  | key :: rest =>
    match eavesdropper.rollingWindows.Increment key 1 with
    | none => none
    | some w => OnFetch { eavesdropper with rollingWindows := w } rest

/-- The method `OnStore`: `SetScore(key, uint64(len), exptime)`. -/
def OnStore {σ : Type} (eavesdropper : RollingWindowsMcrouterEavesdropper σ) (key : String)
    (len : Int) (exptime : Int) : Option (RollingWindowsMcrouterEavesdropper σ) :=
  match eavesdropper.keyScorer.SetScore eavesdropper.rollingWindows.scorer key (toUint64 len)
      exptime with
  | none => none
  | some s =>
    some { eavesdropper with rollingWindows := { eavesdropper.rollingWindows with scorer := s } }

/-- The method `OnDelete`: `DelScore(key)`. -/
def OnDelete {σ : Type} (eavesdropper : RollingWindowsMcrouterEavesdropper σ) (key : String) :
    Option (RollingWindowsMcrouterEavesdropper σ) :=
  match eavesdropper.keyScorer.DelScore eavesdropper.rollingWindows.scorer [key] with
  | none => none
  | some s =>
    some { eavesdropper with rollingWindows := { eavesdropper.rollingWindows with scorer := s } }

end RollingWindowsMcrouterEavesdropper

/-- The function `NewRollingWindowsMcrouterEavesdropper`: the three functions of the
embedded `AbstractMcrouterEavesdropper` call the methods of the eavesdropper. -/
def NewRollingWindowsMcrouterEavesdropper (σ : Type) :
    AbstractMcrouterEavesdropper (RollingWindowsMcrouterEavesdropper σ) :=
  { OnFetch := fun keys eavesdropper => eavesdropper.OnFetch keys,
    OnStore := fun key len exptime eavesdropper => eavesdropper.OnStore key len exptime,
    OnDelete := fun key eavesdropper => eavesdropper.OnDelete key }

/-! ## Windows that take increments, and windows that drop them -/

/-- The counter `c` is a `BucketGetKeyCounter` that is not frozen and has as many
buckets, at least one, as its `Bucketing` says: `Increment` reaches a bucket. -/
def Writable (c : GetKeyCounter) : Prop :=
  ∃ b, c = GetKeyCounter.bucket b ∧ b.freeze = 0 ∧ 1 ≤ b.bucketing.buckets
    ∧ b.bucketing.instances.length = b.bucketing.buckets

/-- The counter `c` is an `EmptyGetKeyCounter`, or a `BucketGetKeyCounter` that is
frozen. -/
def Closed (c : GetKeyCounter) : Prop :=
  (∃ e, c = GetKeyCounter.empty e) ∨ ∃ b, c = GetKeyCounter.bucket b ∧ b.freeze ≠ 0

/-- The window at `current` is writable and every other window is closed. -/
def OneWritable {σ : Type} (w : SimpleRollingWindows σ) : Prop :=
  w.windows.length = w.width + 1 ∧ w.readFrom < w.width + 1 ∧ w.current < w.width + 1
    ∧ ∀ j c, w.windows[j]? = some c → if j = w.current then Writable c else Closed c

/-! ## `model/aggregator.go` and `model/reporter.go`: the cut and the keys -/

/-- The loop `for t := 0; t < topN && hotKeyEntries.Len() > 0; t++` of `Aggregate`,
with `t` iterations left: the entries popped are appended to `cutN`. The result is
`cutN` and the heap that remains. -/
def cutLoop : Nat → HotKeyEntries → HotKeyEntries → Option (HotKeyEntries × HotKeyEntries)
  | 0, hotKeyEntries, cutN => some (cutN, hotKeyEntries)
  | t + 1, hotKeyEntries, cutN =>
    if hotKeyEntries.length > 0 then
      match HotKeyEntries.heapPop hotKeyEntries with
      | none => none
      | some (top, rest) => cutLoop t rest (cutN ++ [top])
    else some (cutN, hotKeyEntries)

/-- The entries that `Aggregate` collects from the reports, each report being the map
that `json.Unmarshal` decodes it to, or `none` when the decoding fails. -/
def collect : List (Option CountMap) → HotKeyEntries
  | [] => []
  | none :: reports => collect reports
  | some candidates :: reports => candidates.map toEntry ++ collect reports

/-- The part of `Aggregate` between the decoding of the reports and the encoding of the
result: `heap.Init`, then `make([]*HotKeyEntry, 0, topN)`, which fails when `topN` is
negative (a capacity beyond the memory is left out), then the loop that pops at most
`topN` entries. The result is `cutN` and the heap that remains. -/
def cutN (hotKeyEntries : HotKeyEntries) (topN : Int) : Option (HotKeyEntries × HotKeyEntries) :=
  if topN < 0 then none
  else cutLoop topN.toNat (HotKeyEntries.heapInit hotKeyEntries) []

/-- The verb `%d` of `fmt.Sprintf` on an `int`: the decimal digits, after a minus sign
when the number is negative. -/
def decimal : Int → String
  | Int.ofNat m => String.mk (Nat.toDigits 10 m)
  | Int.negSucc m => String.mk ('-' :: Nat.toDigits 10 (m + 1))

/-- The function `ReporterIdentity`, `hostname` being what `os.Hostname()` returns. -/
def ReporterIdentity (hostname : String) (host : String) (port : Int) : String :=
  let host := if host = "" then hostname else host
  host ++ ":" ++ decimal port

/-- The fields of `MemcachedHotKeyReporter` that make the key of its report. -/
structure MemcachedHotKeyReporter where
  identity : String
  reportKey : String
  deriving DecidableEq, Repr

/-- A `memcache.Item`: its key and its value. -/
structure Item where
  Key : String
  Value : List UInt8
  deriving DecidableEq, Repr

/-- The item that `MemcachedHotKeyReporter.Report` sets, `rawBytes` being what
`json.Marshal(updates)` returns. -/
def MemcachedHotKeyReporter.Report (reporter : MemcachedHotKeyReporter)
    (rawBytes : List UInt8) : Item :=
  { Key := reporter.reportKey ++ ":" ++ reporter.identity, Value := rawBytes }

/-- The fields of `MemcachedHotKeyAggregator` that `discover` and the cut read. -/
structure MemcachedHotKeyAggregator where
  serviceName : String
  reportKey : String
  topN : Int
  deriving DecidableEq, Repr

/-- The method `MemcachedHotKeyAggregator.discover`, `reporters` being the node address
of every instance that the health query returns, `none` when the query fails. -/
def MemcachedHotKeyAggregator.discover (aggregator : MemcachedHotKeyAggregator)
    (reporters : Option (List String)) : List String :=
  match reporters with
  | none => []
  | some reporters => reporters.map (fun address => aggregator.reportKey ++ ":" ++ address)

/-! ## `model/aggregator.go`: the leader loop of `elect`

The loop is run one statement at a time. A step is taken when the statement can go
on; a statement that waits for something that has not happened takes no step. -/

/-- The statement that `elect` is at: the call `locker.Lock(nil)`, the receive
`<-ticker.C`, the `select` on the channel `leader`, and the two statements after the
`select`, of which the second is the call of `Aggregate`. -/
inductive ElectAt where
  | lock | tick | select | aggregate
  deriving DecidableEq, Repr

/-- The state of `elect` and of what it waits for: `ticked` says that a tick waits in
`ticker.C`, `stopped` that `ticker.Stop()` was called, `leaderClosed` that the channel
`leader` is closed; `aggregates` counts the calls of `Aggregate` and `locks` the calls
of `locker.Lock` that returned. -/
structure Elect where
  at_ : ElectAt
  ticked : Bool
  stopped : Bool
  leaderClosed : Bool
  aggregates : Nat
  locks : Nat
  deriving DecidableEq, Repr

namespace Elect

/-- The state in which `elect` enters its outer loop. -/
def start : Elect :=
  { at_ := ElectAt.lock, ticked := false, stopped := false, leaderClosed := false,
    aggregates := 0, locks := 0 }

/-- One step of `elect`, `none` when the statement it is at waits.
`locker.Lock(nil)` returns the channel `leader`, open, and a new ticker is made;
`<-ticker.C` takes the tick that waits; the `select` has the one case
`_, open := <-leader` and no default, so it waits until the channel is closed (nothing
is ever sent on it), then calls `ticker.Stop()`, and its `break` ends the `select`; the
statements after the `select` call `Aggregate`, and the inner loop starts over. -/
def step (s : Elect) : Option Elect :=
  match s.at_ with
  | ElectAt.lock =>
    some { s with at_ := ElectAt.tick, ticked := false, stopped := false, leaderClosed := false,
                  locks := s.locks + 1 }
  | ElectAt.tick =>
    if s.ticked then some { s with at_ := ElectAt.select, ticked := false } else none
  | ElectAt.select =>
    if s.leaderClosed then some { s with at_ := ElectAt.aggregate, stopped := true } else none
  | ElectAt.aggregate => some { s with at_ := ElectAt.tick, aggregates := s.aggregates + 1 }

/-- The ticker fires: a tick waits in `ticker.C`, unless the ticker was stopped. -/
def fire (s : Elect) : Elect := if s.stopped then s else { s with ticked := true }

/-- The leadership is lost: the channel `leader` is closed. -/
def lose (s : Elect) : Elect := { s with leaderClosed := true }

/-- What happens to `elect`: a step of its own, a tick of the ticker, or the loss of the
leadership. -/
inductive Event where
  | step | fire | lose
  deriving DecidableEq, Repr

/-- The state after an event; a step that cannot be taken leaves the state as it is. -/
def next (s : Elect) : Event → Elect
  | Event.step => (s.step).getD s
  | Event.fire => s.fire
  | Event.lose => s.lose

/-- The state after a sequence of events. -/
def run (s : Elect) (events : List Event) : Elect := events.foldl next s

/-- What holds of `elect` at every moment: it is at `locker.Lock` before the first call
returns and never again, and it reaches the call of `Aggregate` only with the channel
`leader` closed and the ticker stopped. -/
def Inv (s : Elect) : Prop :=
  (s.at_ = ElectAt.lock ∧ s.locks = 0 ∧ s.aggregates = 0)
    ∨ (s.at_ ≠ ElectAt.lock ∧ s.locks = 1
        ∧ (s.at_ = ElectAt.aggregate ∨ 0 < s.aggregates →
            s.leaderClosed = true ∧ s.stopped = true))

end Elect

/-! ## `model/discovery.go`: the registry of routers -/

/-- The error `ErrParseMcrouter`. -/
inductive McrouterError where
  | ErrParseMcrouter
  deriving DecidableEq, Repr

/-- The function `strings.LastIndex(s, sep)` of the Go library for a separator of one
character, on the characters of `s`: `none` is the result `-1`. The separator that
`parseMcrouter` looks for is one byte long, so the comparisons and the slices that it
makes with the index are the same on characters as on bytes. -/
def LastIndex : List Char → Char → Option Nat
  | [], _ => none
  | x :: xs, sep =>
    match LastIndex xs sep with
    | some i => some (i + 1)
    | none => if x = sep then some 0 else none

/-- The function `parseMcrouter`: the string and the error (`nil` is `none`). -/
def parseMcrouter (mcrouter : String) (mcrouterPort : Int) : String × Option McrouterError :=
  match LastIndex mcrouter.data ':' with
  | some colon =>
    if colon > 0 ∧ colon + 1 < mcrouter.data.length then
      let host := String.mk (mcrouter.data.take colon)
      match Atoi (String.mk (mcrouter.data.drop (colon + 1))) with
      | some _ => (host ++ ":" ++ decimal mcrouterPort, none)
      | none => ("", some McrouterError.ErrParseMcrouter)
    else ("", some McrouterError.ErrParseMcrouter)
  | none => ("", some McrouterError.ErrParseMcrouter)

/-- A Go map `map[string]int`, in the order in which a `range` loop visits it. -/
abbrev UsageMap := List (String × Int)

namespace UsageMap

/-- The lookup `m[k]` with its `ok`: `none` when the key is absent. -/
def find? : UsageMap → String → Option Int
  | [], _ => none
  | (k, v) :: m, key => if k = key then some v else find? m key

/-- The value `m[k]`, zero when the key is absent. -/
def get (m : UsageMap) (key : String) : Int := (find? m key).getD 0

/-- The assignment `m[k] = v`. -/
def put : UsageMap → String → Int → UsageMap
  | [], key, v => [(key, v)]
  | (k, v') :: m, key, v => if k = key then (k, v) :: m else (k, v') :: put m key v

end UsageMap

/-- The struct `SimpleMcrouterRegistry` (the lock left out); `ss` holds the servers that
the last call of `SetServers` was given, which the server list resolves. -/
structure SimpleMcrouterRegistry where
  ss : List String
  mcrouterPort : Int
  mcrouters : UsageMap
  deriving DecidableEq, Repr

/-- The function `NewMcrouterRegistry`. -/
def NewMcrouterRegistry (port : Int) : SimpleMcrouterRegistry :=
  { ss := [], mcrouterPort := port, mcrouters := [] }

namespace SimpleMcrouterRegistry

/-- The method `unsafeUpdateServerList`: the servers are the keys whose usage is
positive, in the order in which the loop visits them. -/
def unsafeUpdateServerList (registry : SimpleMcrouterRegistry) : SimpleMcrouterRegistry :=
  { registry with
    ss := (registry.mcrouters.filter (fun e => decide (e.2 > 0))).map Prod.fst }

/-- The method `Register`: the error returned (`nil` is `none`) and the registry
afterwards; `testMcrouter` is the probe, which answers for the address it is given. -/
def Register (testMcrouter : String → Bool) (registry : SimpleMcrouterRegistry)
    (mcrouter : String) : Option McrouterError × SimpleMcrouterRegistry :=
  if (UsageMap.find? registry.mcrouters mcrouter).isSome then (none, registry)
  else
    match parseMcrouter mcrouter registry.mcrouterPort with
    | (testing, none) =>
      if testMcrouter testing then
        (none, unsafeUpdateServerList { registry with
          mcrouters := registry.mcrouters.put testing
            (wrapInt64 (UsageMap.get registry.mcrouters testing + 1)) })
      else (some McrouterError.ErrParseMcrouter, registry)
    | (_, some _) => (some McrouterError.ErrParseMcrouter, registry)

/-- The method `Unregister`: the error returned and the registry afterwards. -/
def Unregister (registry : SimpleMcrouterRegistry) (mcrouter : String) :
    Option McrouterError × SimpleMcrouterRegistry :=
  if ¬ (UsageMap.find? registry.mcrouters mcrouter).isSome then (none, registry)
  else
    match parseMcrouter mcrouter registry.mcrouterPort with
    | (parsed, none) =>
      (none, unsafeUpdateServerList { registry with
        mcrouters := registry.mcrouters.put parsed
          (wrapInt64 (UsageMap.get registry.mcrouters parsed - 1)) })
    | (_, some _) => (some McrouterError.ErrParseMcrouter, registry)

/-- Every key of `mcrouters` is a host that is not empty, a colon and the decimal digits
of `mcrouterPort`: what `parseMcrouter` returns. -/
def RouterKeys (registry : SimpleMcrouterRegistry) : Prop :=
  ∀ e ∈ registry.mcrouters, ∃ host : List Char, host ≠ []
    ∧ e.1 = String.mk host ++ ":" ++ decimal registry.mcrouterPort

end SimpleMcrouterRegistry

/-! ## `model/scorer.go`: `BucketKeyScorer` -/

/-- The struct `BucketKeyScorer`; the field `scorers`, a map that no method reads or
writes, is left out. -/
structure BucketKeyScorer where
  minBytes : Nat
  bucketing : Bucketing SimpleKeyScorer

/-- The map `groups` of `BucketKeyScorer.DelScore`: the scorers that were picked, each
by its index among the instances, with the keys appended to it. -/
abbrev ScorerGroups := List (Nat × List String)

/-- The statement `groups[scorer] = append(groups[scorer], k)`. -/
def ScorerGroups.append : ScorerGroups → Nat → String → ScorerGroups
  | [], scorer, k => [(scorer, [k])]
  | (i, keys) :: groups, scorer, k =>
    if i = scorer then (i, keys ++ [k]) :: groups
    else (i, keys) :: ScorerGroups.append groups scorer k

namespace BucketKeyScorer

/-- The method `SetScore`: `SetScore` of the scorer that `Pick` returns. -/
def SetScore (bucketKeyScorer : BucketKeyScorer) (key : String) (bytes : Nat) (exptime : Int) :
    Option BucketKeyScorer :=
  match bucketKeyScorer.bucketing.PickIndex key with
  | none => none
  | some i =>
    match bucketKeyScorer.bucketing.instances[i]? with
    | none => none
    | some scorer =>
      some { bucketKeyScorer with bucketing :=
        { bucketKeyScorer.bucketing with
          instances := bucketKeyScorer.bucketing.instances.set i
            (scorer.SetScore key bytes exptime) } }

/-- The first loop of `DelScore`: every key is appended to the group of the scorer that
`Pick` returns for it. -/
def group (bucketKeyScorer : BucketKeyScorer) : List String → ScorerGroups → Option ScorerGroups
  | [], groups => some groups
  | k :: key, groups =>
    match bucketKeyScorer.bucketing.PickIndex k with
    | none => none
    | some i =>
      match bucketKeyScorer.bucketing.instances[i]? with
      | none => none
      | some _ => group bucketKeyScorer key (groups.append i k)

/-- The second loop of `DelScore`, over the groups in the order in which it visits them:
`DelScore` of every scorer with the keys of its group. -/
def delGroups : ScorerGroups → List SimpleKeyScorer → List SimpleKeyScorer
  | [], instances => instances
  | (i, keys) :: groups, instances =>
    match instances[i]? with
    | none => delGroups groups instances
    | some scorer => delGroups groups (instances.set i (scorer.DelScore keys))

/-- The method `DelScore`; `order` gives, for the map `groups`, the order in which the
second loop visits its entries. -/
def DelScore (bucketKeyScorer : BucketKeyScorer) (key : List String)
    (order : ScorerGroups → ScorerGroups) : Option BucketKeyScorer :=
  match bucketKeyScorer.group key [] with
  | none => none
  | some groups =>
    some { bucketKeyScorer with bucketing :=
      { bucketKeyScorer.bucketing with
        instances := delGroups (order groups) bucketKeyScorer.bucketing.instances } }

/-- The method `GetScore`, `now` being `time.Now().Unix()`: `GetScore` of the scorer that
`Pick` returns. -/
def GetScore (bucketKeyScorer : BucketKeyScorer) (now : Int) (key : String) : Option Nat :=
  match bucketKeyScorer.bucketing.Pick key with
  | none => none
  | some scorer => some (scorer.GetScore now key)

end BucketKeyScorer

/-- The type `BucketKeyScorer` as a `KeyScorer`, `order` being the order in which
`DelScore` visits its groups. -/
def BucketKeyScorer.asKeyScorer (order : ScorerGroups → ScorerGroups) :
    KeyScorer BucketKeyScorer :=
  { SetScore := fun s key bytes exptime => s.SetScore key bytes exptime,
    DelScore := fun s key => s.DelScore key order,
    GetScore := fun s now key => s.GetScore now key }

/-- The function `NewBucketKeyScorer`; `uint32(buckets)` is `buckets mod 2^32`. -/
def NewBucketKeyScorer (buckets : Int) (minBytes : Nat) : BucketKeyScorer :=
  { minBytes := minBytes,
    bucketing := NewBucketing (fun _ => NewSimpleKeyScorer minBytes) fnv1a32
      (buckets % 2 ^ 32).toNat }

/-! ## Sequences of calls on a scorer -/

/-- A call on a scorer: `SetScore(key, bytes, exptime)`, `DelScore(key...)`, or
`GetScore(key)` at the clock time `now`. -/
inductive ScorerOp where
  | set (key : String) (bytes : Nat) (exptime : Int)
  | del (key : List String)
  | get (now : Int) (key : String)
  deriving DecidableEq, Repr

/-- A sequence of calls on a `SimpleKeyScorer`: what the `GetScore` calls return, in
order. -/
def SimpleKeyScorer.run : SimpleKeyScorer → List ScorerOp → List Nat
  | _, [] => []
  | s, ScorerOp.set key bytes exptime :: ops =>
    SimpleKeyScorer.run (s.SetScore key bytes exptime) ops
  | s, ScorerOp.del key :: ops => SimpleKeyScorer.run (s.DelScore key) ops
  | s, ScorerOp.get now key :: ops => s.GetScore now key :: SimpleKeyScorer.run s ops

/-- A sequence of calls on a `BucketKeyScorer`, the first being call number `n`: what the
`GetScore` calls return, in order; `order n` is the order in which call number `n`, when
it is a `DelScore`, visits its groups. -/
def BucketKeyScorer.run (order : Nat → ScorerGroups → ScorerGroups) :
    Nat → BucketKeyScorer → List ScorerOp → Option (List Nat)
  | _, _, [] => some []
  | n, s, ScorerOp.set key bytes exptime :: ops =>
    match s.SetScore key bytes exptime with
    | none => none
    | some s' => BucketKeyScorer.run order (n + 1) s' ops
  | n, s, ScorerOp.del key :: ops =>
    match s.DelScore key (order n) with
    | none => none
    | some s' => BucketKeyScorer.run order (n + 1) s' ops
  | n, s, ScorerOp.get now key :: ops =>
    match s.GetScore now key with
    | none => none
    | some score =>
      match BucketKeyScorer.run order (n + 1) s ops with
      | none => none
      | some scores => some (score :: scores)

/-- The scorers of `b` hold between them what the scorer `s` holds: every scorer has the
floor of `s`, and for a key the scorer that `Pick` gives it has the entry that `s`
has. -/
def ScorersHold (b : BucketKeyScorer) (s : SimpleKeyScorer) : Prop :=
  1 ≤ b.bucketing.buckets ∧ b.bucketing.instances.length = b.bucketing.buckets
    ∧ ∀ (j : Nat) (scorer : SimpleKeyScorer), b.bucketing.instances[j]? = some scorer →
        scorer.minBytes = s.minBytes
          ∧ ∀ k, (b.bucketing.hashing k % 2 ^ 32) % b.bucketing.buckets = j →
              scorer.trie.Get k = s.trie.Get k

/-- The groups `groups` are groups of the scorers `instances`, and every key of a group
is one for which `Pick` returns the scorer of the group, `pick` being the index that
`Pick` computes. -/
def GroupsOk (pick : String → Nat) (instances : List SimpleKeyScorer) (groups : ScorerGroups) :
    Prop :=
  ∀ p ∈ groups, p.1 < instances.length ∧ ∀ k ∈ p.2, pick k = p.1

end McHotkeys

/-! # Properties -/

namespace McHotkeys

/-! ## Lemmas on maps -/

namespace CountMap

theorem find?_eq_none_iff (m : CountMap) (k : String) : find? m k = none ↔ k ∉ keys m := by
  induction m with
  | nil => simp [find?, keys]
  | cons e m ih =>
    obtain ⟨k', v⟩ := e
    by_cases h : k' = k
    · simp [find?, keys, h]
    · have h' : ¬ k = k' := fun hh => h hh.symm
      simpa [find?, keys, h, h'] using ih

theorem find?_isSome_iff (m : CountMap) (k : String) : (find? m k).isSome ↔ k ∈ keys m := by
  rw [← not_iff_not, ← find?_eq_none_iff]
  cases find? m k <;> simp

theorem find?_put (m : CountMap) (k : String) (v : Nat) (k' : String) :
    find? (put m k v) k' = if k = k' then some v else find? m k' := by
  induction m with
  | nil => simp [put, find?]
  | cons e m ih =>
    obtain ⟨k₀, v₀⟩ := e
    by_cases h : k₀ = k
    · subst h
      by_cases h' : k₀ = k' <;> simp [put, find?, h']
    · by_cases h' : k₀ = k'
      · subst h'
        have : ¬ k = k₀ := fun hh => h hh.symm
        simp [put, find?, h, this]
      · simp [put, find?, h, h', ih]

theorem find?_delete (m : CountMap) (k k' : String) :
    find? (delete m k) k' = if k = k' then none else find? m k' := by
  induction m with
  | nil => simp [delete, find?]
  | cons e m ih =>
    obtain ⟨k₀, v₀⟩ := e
    unfold delete at ih ⊢
    by_cases h : k₀ = k
    · subst h
      by_cases h' : k₀ = k'
      · subst h'
        simpa [List.filter_cons, find?] using ih
      · simp [List.filter_cons, find?, h', ih]
    · by_cases h' : k₀ = k'
      · subst h'
        have : ¬ k = k₀ := fun hh => h hh.symm
        simp [List.filter_cons, find?, h, this]
      · simp [List.filter_cons, find?, h, h', ih]

theorem keys_put_of_mem (m : CountMap) (k : String) (v : Nat) (h : k ∈ keys m) :
    keys (put m k v) = keys m := by
  induction m with
  | nil => simp [keys] at h
  | cons e m ih =>
    obtain ⟨k₀, v₀⟩ := e
    by_cases h' : k₀ = k
    · simp [put, keys, h']
    · have hm : k ∈ keys m := by
        simp only [keys, List.map_cons, List.mem_cons] at h
        rcases h with h | h
        · exact absurd h.symm h'
        · exact h
      have := ih hm
      simp only [keys] at this
      simp [put, keys, h', this]

theorem put_of_not_mem (m : CountMap) (k : String) (v : Nat) (h : k ∉ keys m) :
    put m k v = m ++ [(k, v)] := by
  induction m with
  | nil => simp [put]
  | cons e m ih =>
    obtain ⟨k₀, v₀⟩ := e
    simp only [keys, List.map_cons, List.mem_cons, not_or] at h
    have h' : ¬ k₀ = k := fun hh => h.1 hh.symm
    simp [put, h', ih h.2]

theorem put_append_cons (p r : CountMap) (k : String) (c v : Nat) (h : k ∉ keys p) :
    put (p ++ (k, c) :: r) k v = p ++ (k, v) :: r := by
  induction p with
  | nil => simp [put]
  | cons e p ih =>
    obtain ⟨k₀, v₀⟩ := e
    simp only [keys, List.map_cons, List.mem_cons, not_or] at h
    have h' : ¬ k₀ = k := fun hh => h.1 hh.symm
    simp [put, h', ih h.2]

theorem delete_of_not_mem (m : CountMap) (k : String) (h : k ∉ keys m) : delete m k = m := by
  unfold delete
  rw [List.filter_eq_self]
  intro e he
  have : e.1 ∈ keys m := List.mem_map_of_mem _ he
  have hne : e.1 ≠ k := fun hh => h (hh ▸ this)
  simpa using hne

theorem delete_append_cons (p r : CountMap) (k : String) (c : Nat)
    (hp : k ∉ keys p) (hr : k ∉ keys r) : delete (p ++ (k, c) :: r) k = p ++ r := by
  have h1 := delete_of_not_mem p k hp
  have h2 := delete_of_not_mem r k hr
  unfold delete at h1 h2 ⊢
  simp [List.filter_append, List.filter_cons, h1, h2]

theorem nodup_keys_put (m : CountMap) (k : String) (v : Nat) (h : (keys m).Nodup) :
    (keys (put m k v)).Nodup := by
  by_cases hk : k ∈ keys m
  · rw [keys_put_of_mem m k v hk]; exact h
  · rw [put_of_not_mem m k v hk]
    simp only [keys, List.map_append, List.map_cons, List.map_nil]
    rw [List.nodup_append]
    refine ⟨h, by simp, ?_⟩
    intro a ha hb
    simp only [List.mem_singleton] at hb
    subst hb
    exact hk ha

theorem length_put_of_not_mem (m : CountMap) (k : String) (v : Nat) (h : k ∉ keys m) :
    (put m k v).length = m.length + 1 := by
  rw [put_of_not_mem m k v h]; simp

theorem mem_keys_put (m : CountMap) (k : String) (v : Nat) (k' : String) :
    k' ∈ keys (put m k v) ↔ k' = k ∨ k' ∈ keys m := by
  rw [← find?_isSome_iff, ← find?_isSome_iff, find?_put]
  by_cases h : k = k'
  · simp [h]
  · have : ¬ k' = k := fun hh => h hh.symm
    simp [h, this]

end CountMap

/-! ## The first loop of `topN` -/

theorem topNScan_append (GetScore : String → Nat) (threshold : Nat) (r p : CountMap)
    (es : HotKeyEntries) (h : (CountMap.keys (p ++ r)).Nodup) :
    topNScan GetScore threshold r (p ++ r, es)
      = (p ++ scored GetScore r threshold, es ++ (scored GetScore r threshold).map toEntry) := by
  induction r generalizing p es with
  | nil => simp [topNScan, scored, survivors]
  | cons e r ih =>
    obtain ⟨k, c⟩ := e
    have hk : k ∉ CountMap.keys p ∧ k ∉ CountMap.keys r := by
      simp only [CountMap.keys, List.map_append, List.map_cons] at h
      rw [List.nodup_append] at h
      obtain ⟨_, h2, h3⟩ := h
      refine ⟨fun hp => h3 hp (List.mem_cons_self _ _), ?_⟩
      exact (List.nodup_cons.mp h2).1
    by_cases hc : threshold ≤ c
    · have hnd : (CountMap.keys ((p ++ [(k, c * GetScore k % 2 ^ 64)]) ++ r)).Nodup := by
        simpa [CountMap.keys] using h
      have := ih (p ++ [(k, c * GetScore k % 2 ^ 64)])
        (es ++ [⟨k, c * GetScore k % 2 ^ 64⟩]) hnd
      simp only [List.append_assoc, List.singleton_append] at this
      simp only [scored, survivors, List.map_map] at this
      simp [-Nat.reducePow, topNScan, hc, CountMap.put_append_cons p r k c _ hk.1, this, scored,
        survivors, List.filter_cons, toEntry]
    · have hnd : (CountMap.keys (p ++ r)).Nodup := by
        simp only [CountMap.keys, List.map_append, List.map_cons] at h ⊢
        rw [List.nodup_append] at h ⊢
        obtain ⟨h1, h2, h3⟩ := h
        exact ⟨h1, (List.nodup_cons.mp h2).2, fun a ha hb => h3 ha (List.mem_cons_of_mem _ hb)⟩
      simp [-Nat.reducePow, topNScan, hc, CountMap.delete_append_cons p r k c hk.1 hk.2,
        ih p es hnd, scored, survivors, List.filter_cons]

theorem topNScan_eq (GetScore : String → Nat) (threshold : Nat) (all : CountMap)
    (h : (CountMap.keys all).Nodup) :
    topNScan GetScore threshold all (all, [])
      = (scored GetScore all threshold, (scored GetScore all threshold).map toEntry) := by
  simpa using topNScan_append GetScore threshold all [] [] (by simpa using h)

theorem keys_scored (GetScore : String → Nat) (all : CountMap) (threshold : Nat) :
    CountMap.keys (scored GetScore all threshold) = CountMap.keys (survivors all threshold) := by
  simp [scored, CountMap.keys, List.map_map, Function.comp_def]

theorem nodup_keys_survivors (all : CountMap) (threshold : Nat) (h : (CountMap.keys all).Nodup) :
    (CountMap.keys (survivors all threshold)).Nodup := by
  unfold survivors CountMap.keys at *
  exact (List.Sublist.map _ (List.filter_sublist _)).nodup h

theorem length_scored (GetScore : String → Nat) (all : CountMap) (threshold : Nat) :
    (scored GetScore all threshold).length = (survivors all threshold).length := by
  simp [scored]

/-! ## `container/heap`: the operations permute the entries -/

namespace HotKeyEntries

theorem length_Swap (h : HotKeyEntries) (i j : Nat) : (Swap h i j).length = h.length := by
  simp [Swap]

theorem getD_cons_set_perm (xs : HotKeyEntries) (j : Nat) (x d : HotKeyEntry)
    (hj : j < xs.length) : (xs.getD j d :: xs.set j x).Perm (x :: xs) := by
  induction xs generalizing j with
  | nil => simp at hj
  | cons y ys ih =>
    cases j with
    | zero => simpa using List.Perm.swap x y ys
    | succ j =>
      have hj' : j < ys.length := by simpa using hj
      have h1 := ih j hj'
      simp only [List.getD_cons_succ, List.set_cons_succ]
      exact ((List.Perm.swap y (ys.getD j d) (ys.set j x)).trans (h1.cons y)).trans
        (List.Perm.swap x y ys)

theorem Swap_perm (h : HotKeyEntries) (i j : Nat) (hi : i < h.length) (hj : j < h.length) :
    (Swap h i j).Perm h := by
  induction h generalizing i j with
  | nil => simp at hi
  | cons x xs ih =>
    cases i with
    | zero =>
      cases j with
      | zero => simp [Swap]
      | succ j =>
        have hj' : j < xs.length := by simpa using hj
        simpa [Swap] using getD_cons_set_perm xs j x default hj'
    | succ i =>
      have hi' : i < xs.length := by simpa using hi
      cases j with
      | zero => simpa [Swap] using getD_cons_set_perm xs i x default hi'
      | succ j =>
        have hj' : j < xs.length := by simpa using hj
        simpa [Swap] using ih i j hi' hj'

theorem downLoop_succ (fuel : Nat) (h : HotKeyEntries) (i n : Nat) :
    downLoop (fuel + 1) h i n
      = if 2 * i + 1 ≥ n then h
        else if Less h (downChild h i n) i = false then h
        else downLoop fuel (Swap h i (downChild h i n)) (downChild h i n) n := rfl

theorem downChild_lt (h : HotKeyEntries) (i n : Nat) (hj : 2 * i + 1 < n) :
    downChild h i n < n := by
  unfold downChild
  split
  · rename_i hc; exact hc.1
  · exact hj

theorem downChild_cases (h : HotKeyEntries) (i n : Nat) :
    downChild h i n = 2 * i + 1 ∨ downChild h i n = 2 * i + 2 := by
  unfold downChild
  split
  · right; rfl
  · left; rfl

theorem downLoop_perm (fuel : Nat) (h : HotKeyEntries) (i n : Nat) (hi : i < n)
    (hn : n ≤ h.length) : (downLoop fuel h i n).Perm h := by
  induction fuel generalizing h i with
  | zero => simp [downLoop]
  | succ fuel ih =>
    rw [downLoop_succ]
    by_cases hj1 : 2 * i + 1 ≥ n
    · simp [hj1]
    · have hjn := downChild_lt h i n (by omega)
      by_cases hl : Less h (downChild h i n) i = false
      · simp [hl]
      · rw [if_neg hj1, if_neg hl]
        refine (ih _ _ hjn (by rw [length_Swap]; exact hn)).trans ?_
        exact Swap_perm h _ _ (by omega) (by omega)

theorem downLoop_length (fuel : Nat) (h : HotKeyEntries) (i n : Nat) :
    (downLoop fuel h i n).length = h.length := by
  induction fuel generalizing h i with
  | zero => simp [downLoop]
  | succ fuel ih =>
    rw [downLoop_succ]
    by_cases hj1 : 2 * i + 1 ≥ n
    · simp [hj1]
    · by_cases hl : Less h (downChild h i n) i = false
      · simp [hl]
      · rw [if_neg hj1, if_neg hl]
        rw [ih, length_Swap]

theorem down_perm (h : HotKeyEntries) (i n : Nat) (hn : n ≤ h.length) :
    (down h i n).Perm h := by
  unfold down
  by_cases hi : i < n
  · exact downLoop_perm n h i n hi hn
  · cases n with
    | zero => simp [downLoop]
    | succ n =>
      have : 2 * i + 1 ≥ n + 1 := by omega
      simp [downLoop, this]

theorem down_length (h : HotKeyEntries) (i n : Nat) : (down h i n).length = h.length :=
  downLoop_length n h i n

theorem initLoop_perm (n c : Nat) (h : HotKeyEntries) (hn : n ≤ h.length) :
    (initLoop n c h).Perm h := by
  induction c generalizing h with
  | zero => simp [initLoop]
  | succ c ih =>
    unfold initLoop
    exact (ih _ (by rw [down_length]; exact hn)).trans (down_perm h c n hn)

theorem heapInit_perm (h : HotKeyEntries) : (heapInit h).Perm h :=
  initLoop_perm h.length _ h (Nat.le_refl _)

theorem heapPop_perm (h : HotKeyEntries) (e : HotKeyEntry) (h' : HotKeyEntries)
    (hp : heapPop h = some (e, h')) : h.Perm (h' ++ [e]) := by
  unfold heapPop at hp
  split at hp
  · simp at hp
  · rename_i hlen
    simp only [Option.some.injEq, Prod.mk.injEq] at hp
    obtain ⟨he, hh⟩ := hp
    have hl : (down (Swap h 0 (h.length - 1)) 0 (h.length - 1)).length = h.length := by
      rw [down_length, length_Swap]
    have hperm : (down (Swap h 0 (h.length - 1)) 0 (h.length - 1)).Perm h :=
      (down_perm _ _ _ (by rw [length_Swap]; omega)).trans
        (Swap_perm h 0 _ (by omega) (by omega))
    generalize down (Swap h 0 (h.length - 1)) 0 (h.length - 1) = g at he hh hl hperm
    have hsplit : g = h' ++ [e] := by
      rw [← he, ← hh]
      have hlt : h.length - 1 < g.length := by omega
      rw [List.getD_eq_getElem _ _ hlt]
      have := List.take_append_drop (h.length - 1) g
      rw [List.drop_eq_getElem_cons hlt] at this
      have hd : List.drop (h.length - 1 + 1) g = [] := by
        apply List.drop_of_length_le; omega
      rw [hd] at this
      exact this.symm
    rw [← hsplit]
    exact hperm.symm

theorem heapPop_isSome (h : HotKeyEntries) (hl : 0 < h.length) :
    ∃ e h', heapPop h = some (e, h') := by
  unfold heapPop
  have : ¬ h.length = 0 := by omega
  simp [this]

theorem heapPop_length (h : HotKeyEntries) (e : HotKeyEntry) (h' : HotKeyEntries)
    (hp : heapPop h = some (e, h')) : h'.length + 1 = h.length := by
  have := (heapPop_perm h e h' hp).length_eq
  simpa using this.symm

/-! ## `container/heap`: the heap order -/

theorem Less_eq_true (h : HotKeyEntries) (i j : Nat) : Less h i j = true ↔ sc h j < sc h i := by
  simp [Less, sc]

theorem Less_eq_false (h : HotKeyEntries) (i j : Nat) : Less h i j = false ↔ sc h i ≤ sc h j := by
  simp [Less, sc]

theorem getD_Swap (h : HotKeyEntries) (i j k : Nat) (d : HotKeyEntry) (hi : i < h.length)
    (hj : j < h.length) :
    (Swap h i j).getD k d
      = if k = j then h.getD i d else if k = i then h.getD j d else h.getD k d := by
  unfold Swap
  by_cases hkj : k = j
  · subst hkj
    simp [List.getD_eq_getElem?_getD, List.getElem?_set, hi, hj]
  · by_cases hki : k = i
    · subst hki
      have : ¬ j = k := fun hh => hkj hh.symm
      simp [List.getD_eq_getElem?_getD, List.getElem?_set, hi, hj, hkj, this]
    · have h1 : ¬ j = k := fun hh => hkj hh.symm
      have h2 : ¬ i = k := fun hh => hki hh.symm
      simp [List.getD_eq_getElem?_getD, List.getElem?_set, hkj, hki, h1, h2]

theorem sc_Swap (h : HotKeyEntries) (i j k : Nat) (hi : i < h.length) (hj : j < h.length) :
    sc (Swap h i j) k = if k = j then sc h i else if k = i then sc h j else sc h k := by
  unfold sc
  rw [getD_Swap h i j k default hi hj]
  split
  · rfl
  · split <;> rfl

theorem downChild_ge_left (h : HotKeyEntries) (i n : Nat) :
    sc h (2 * i + 1) ≤ sc h (downChild h i n) := by
  unfold downChild
  split
  · rename_i hc
    exact Nat.le_of_lt ((Less_eq_true _ _ _).mp hc.2)
  · exact Nat.le_refl _

theorem downChild_ge_right (h : HotKeyEntries) (i n : Nat) (hr : 2 * i + 2 < n) :
    sc h (2 * i + 2) ≤ sc h (downChild h i n) := by
  unfold downChild
  split
  · exact Nat.le_refl _
  · rename_i hc
    have : ¬ Less h (2 * i + 1 + 1) (2 * i + 1) = true := fun hh => hc ⟨hr, hh⟩
    rw [Less_eq_true] at this
    show sc h (2 * i + 1 + 1) ≤ _
    omega

theorem downLoop_heap (fuel : Nat) (h : HotKeyEntries) (lo i n : Nat)
    (hfuel : n ≤ fuel + i) (hi : i < n) (hn : n ≤ h.length) (hlo : lo ≤ i)
    (H1 : ∀ k, lo ≤ k → k < n → k ≠ i → HeapAt h n k)
    (H2 : ∀ p, lo ≤ p → (i = 2 * p + 1 ∨ i = 2 * p + 2) →
      ∀ c, (c = 2 * i + 1 ∨ c = 2 * i + 2) → c < n → sc h c ≤ sc h p) :
    HeapFrom (downLoop fuel h i n) lo n := by
  induction fuel generalizing h i with
  | zero => omega
  | succ fuel ih =>
    rw [downLoop_succ]
    by_cases hj1 : 2 * i + 1 ≥ n
    · rw [if_pos hj1]
      intro k hk1 hk2
      by_cases hki : k = i
      · subst hki
        exact ⟨fun hc => by omega, fun hc => by omega⟩
      · exact H1 k hk1 hk2 hki
    · rw [if_neg hj1]
      have hjn := downChild_lt h i n (by omega)
      have hjc := downChild_cases h i n
      have hgl := downChild_ge_left h i n
      have hgr := downChild_ge_right h i n
      generalize downChild h i n = j at hjn hjc hgl hgr
      by_cases hl : Less h j i = false
      · rw [if_pos hl]
        rw [Less_eq_false] at hl
        intro k hk1 hk2
        by_cases hki : k = i
        · subst hki
          exact ⟨fun _ => Nat.le_trans hgl hl, fun hc => Nat.le_trans (hgr hc) hl⟩
        · exact H1 k hk1 hk2 hki
      · rw [if_neg hl]
        have hlt : sc h i < sc h j := by
          rw [Less_eq_false] at hl; omega
        have hil : i < h.length := by omega
        have hjl : j < h.length := by omega
        apply ih (Swap h i j) j (by omega) hjn (by rw [length_Swap]; exact hn) (by omega)
        · intro k hk1 hk2 hkj
          by_cases hki : k = i
          · subst hki
            constructor
            · intro hc
              rw [sc_Swap h k j _ hil hjl, sc_Swap h k j _ hil hjl]
              by_cases hcj : 2 * k + 1 = j
              · simp [hcj, hkj]; omega
              · have : ¬ 2 * k + 1 = k := by omega
                simp [hcj, this, hkj]; exact hgl
            · intro hc
              rw [sc_Swap h k j _ hil hjl, sc_Swap h k j _ hil hjl]
              by_cases hcj : 2 * k + 2 = j
              · simp [hcj, hkj]; omega
              · have : ¬ 2 * k + 2 = k := by omega
                simp [hcj, this, hkj]; exact hgr hc
          · have hk := H1 k hk1 hk2 hki
            constructor
            · intro hc
              rw [sc_Swap h i j _ hil hjl, sc_Swap h i j _ hil hjl]
              have hcj : ¬ 2 * k + 1 = j := by omega
              by_cases hci : 2 * k + 1 = i
              · have hij : ¬ i = j := by omega
                simp only [hcj, hci, hkj, hki, hij, if_false, if_true]
                exact H2 k hk1 (Or.inl hci.symm) j (by omega) hjn
              · simp only [hcj, hci, hkj, hki, if_false]
                exact hk.1 hc
            · intro hc
              rw [sc_Swap h i j _ hil hjl, sc_Swap h i j _ hil hjl]
              have hcj : ¬ 2 * k + 2 = j := by omega
              by_cases hci : 2 * k + 2 = i
              · have hij : ¬ i = j := by omega
                simp only [hcj, hci, hkj, hki, hij, if_false, if_true]
                exact H2 k hk1 (Or.inr hci.symm) j (by omega) hjn
              · simp only [hcj, hci, hkj, hki, if_false]
                exact hk.2 hc
        · intro p hp1 hp2 c hc1 hc2
          have hpi : p = i := by omega
          subst hpi
          rw [sc_Swap h p j _ hil hjl, sc_Swap h p j _ hil hjl]
          have h1 : ¬ c = j := by omega
          have h2 : ¬ c = p := by omega
          have h3 : ¬ p = j := by omega
          simp only [h1, h2, h3, if_false, if_true]
          have hj := H1 j (by omega) hjn (by omega)
          rcases hc1 with hc1 | hc1
          · subst hc1; exact hj.1 hc2
          · subst hc1; exact hj.2 hc2

theorem down_heap (h : HotKeyEntries) (i n : Nat) (hn : n ≤ h.length)
    (H : HeapFrom h (i + 1) n) : HeapFrom (down h i n) i n := by
  unfold down
  by_cases hi : i < n
  · apply downLoop_heap n h i i n (by omega) hi hn (Nat.le_refl _)
    · intro k hk1 hk2 hki
      exact H k (by omega) hk2
    · intro p hp1 hp2
      omega
  · intro k hk1 hk2
    omega

theorem initLoop_heap (n c : Nat) (h : HotKeyEntries) (hn : n ≤ h.length)
    (H : HeapFrom h c n) : HeapFrom (initLoop n c h) 0 n := by
  induction c generalizing h with
  | zero => simpa [initLoop] using H
  | succ c ih =>
    unfold initLoop
    exact ih _ (by rw [down_length]; exact hn) (down_heap h c n hn H)

theorem heapInit_heap (h : HotKeyEntries) : HeapFrom (heapInit h) 0 h.length := by
  apply initLoop_heap _ _ _ (Nat.le_refl _)
  intro k hk1 hk2
  exact ⟨fun hc => by omega, fun hc => by omega⟩

theorem heapInit_length (h : HotKeyEntries) : (heapInit h).length = h.length :=
  (heapInit_perm h).length_eq

theorem HeapFrom_root (h : HotKeyEntries) (n : Nat) (H : HeapFrom h 0 n) (k : Nat) (hk : k < n) :
    sc h k ≤ sc h 0 := by
  induction k using Nat.strong_induction_on with
  | _ k ih =>
    by_cases h0 : k = 0
    · subst h0; exact Nat.le_refl _
    · have hp : (k - 1) / 2 < k := by omega
      have hpn : (k - 1) / 2 < n := by omega
      have hat := H ((k - 1) / 2) (Nat.zero_le _) hpn
      have hroot := ih _ hp hpn
      rcases Nat.even_or_odd k with he | ho
      · obtain ⟨m, hm⟩ := he
        have hk2 : 2 * ((k - 1) / 2) + 2 = k := by omega
        have := hat.2 (by omega)
        rw [hk2] at this
        exact Nat.le_trans this hroot
      · obtain ⟨m, hm⟩ := ho
        have hk1 : 2 * ((k - 1) / 2) + 1 = k := by omega
        have := hat.1 (by omega)
        rw [hk1] at this
        exact Nat.le_trans this hroot

theorem downLoop_getD_ge (fuel : Nat) (h : HotKeyEntries) (i n k : Nat) (d : HotKeyEntry)
    (hi : i < n) (hn : n ≤ h.length) (hk : n ≤ k) :
    (downLoop fuel h i n).getD k d = h.getD k d := by
  induction fuel generalizing h i with
  | zero => simp [downLoop]
  | succ fuel ih =>
    rw [downLoop_succ]
    by_cases hj1 : 2 * i + 1 ≥ n
    · rw [if_pos hj1]
    · rw [if_neg hj1]
      have hjn := downChild_lt h i n (by omega)
      by_cases hl : Less h (downChild h i n) i = false
      · rw [if_pos hl]
      · rw [if_neg hl, ih _ _ hjn (by rw [length_Swap]; exact hn),
          getD_Swap h _ _ _ _ (by omega) (by omega)]
        have h1 : ¬ k = downChild h i n := by omega
        have h2 : ¬ k = i := by omega
        simp only [h1, h2, if_false]

theorem down_getD_ge (h : HotKeyEntries) (i n k : Nat) (d : HotKeyEntry)
    (hn : n ≤ h.length) (hk : n ≤ k) : (down h i n).getD k d = h.getD k d := by
  unfold down
  by_cases hi : i < n
  · exact downLoop_getD_ge n h i n k d hi hn hk
  · cases n with
    | zero => simp [downLoop]
    | succ n =>
      have : 2 * i + 1 ≥ n + 1 := by omega
      rw [downLoop_succ, if_pos this]

theorem sc_le_of_mem (h : HotKeyEntries) (n : Nat) (hn : n = h.length) (H : HeapFrom h 0 n)
    (x : HotKeyEntry) (hx : x ∈ h) : x.Score ≤ sc h 0 := by
  obtain ⟨k, hk, rfl⟩ := List.getElem_of_mem hx
  have := HeapFrom_root h n H k (by omega)
  unfold sc at this
  rw [List.getD_eq_getElem _ _ hk] at this
  exact this

/-- What `heap.Pop` does on a heap: the entry removed has the largest score, and the
entries that remain form a heap again. -/
theorem heapPop_heap (h : HotKeyEntries) (e : HotKeyEntry) (h' : HotKeyEntries)
    (H : HeapFrom h 0 h.length) (hp : heapPop h = some (e, h')) :
    HeapFrom h' 0 h'.length ∧ ∀ x ∈ h, x.Score ≤ e.Score := by
  have hlen' := heapPop_length h e h' hp
  unfold heapPop at hp
  split at hp
  · simp at hp
  · rename_i hlen
    simp only [Option.some.injEq, Prod.mk.injEq] at hp
    obtain ⟨he, hh⟩ := hp
    have h0 : 0 < h.length := by omega
    have hnl : h.length - 1 < h.length := by omega
    have hsl : (Swap h 0 (h.length - 1)).length = h.length := length_Swap _ _ _
    have hheap : HeapFrom (down (Swap h 0 (h.length - 1)) 0 (h.length - 1)) 0 (h.length - 1) := by
      apply down_heap _ _ _ (by rw [hsl]; omega)
      intro k hk1 hk2
      have hk := H k (Nat.zero_le _) (by omega)
      constructor
      · intro hc
        unfold sc
        rw [getD_Swap h _ _ _ _ h0 hnl, getD_Swap h _ _ _ _ h0 hnl]
        have a1 : ¬ 2 * k + 1 = h.length - 1 := by omega
        have a2 : ¬ 2 * k + 1 = 0 := by omega
        have a3 : ¬ k = h.length - 1 := by omega
        have a4 : ¬ k = 0 := by omega
        simp only [a1, a2, a3, a4, if_false]
        exact hk.1 (by omega)
      · intro hc
        unfold sc
        rw [getD_Swap h _ _ _ _ h0 hnl, getD_Swap h _ _ _ _ h0 hnl]
        have a1 : ¬ 2 * k + 2 = h.length - 1 := by omega
        have a2 : ¬ 2 * k + 2 = 0 := by omega
        have a3 : ¬ k = h.length - 1 := by omega
        have a4 : ¬ k = 0 := by omega
        simp only [a1, a2, a3, a4, if_false]
        exact hk.2 (by omega)
    have hedef : e = h.getD 0 default := by
      rw [← he, down_getD_ge _ _ _ _ _ (by rw [hsl]; omega) (Nat.le_refl _),
        getD_Swap h _ _ _ _ h0 hnl]
      simp
    constructor
    · have hl' : h'.length = h.length - 1 := by omega
      rw [hl']
      intro k hk1 hk2
      have hk := hheap k hk1 hk2
      have hget : ∀ m, m < h.length - 1 →
          sc h' m = sc (down (Swap h 0 (h.length - 1)) 0 (h.length - 1)) m := by
        intro m hm
        unfold sc
        rw [← hh]
        have hm1 : m < (List.take (h.length - 1)
            (down (Swap h 0 (h.length - 1)) 0 (h.length - 1))).length := by
          rw [List.length_take, down_length, hsl]; omega
        have hm2 : m < (down (Swap h 0 (h.length - 1)) 0 (h.length - 1)).length := by
          rw [down_length, hsl]; omega
        rw [List.getD_eq_getElem _ _ hm1, List.getD_eq_getElem _ _ hm2, List.getElem_take]
      constructor
      · intro hc
        rw [hget _ hc, hget _ hk2]
        exact hk.1 hc
      · intro hc
        rw [hget _ hc, hget _ hk2]
        exact hk.2 hc
    · intro x hx
      rw [hedef]
      exact sc_le_of_mem h h.length rfl H x hx

end HotKeyEntries

/-! ## `topN`: what the two loops compute -/

theorem ofEntry_toEntry (x : String × Nat) : ofEntry (toEntry x) = x := rfl

theorem toEntry_ofEntry (e : HotKeyEntry) : toEntry (ofEntry e) = e := rfl

theorem map_ofEntry_map_toEntry (m : CountMap) : (m.map toEntry).map ofEntry = m := by
  simp [List.map_map, Function.comp_def, ofEntry_toEntry]

theorem topNPops_spec (t : Nat) (h : HotKeyEntries) (tops : CountMap)
    (H : HotKeyEntries.HeapFrom h 0 h.length) (ht : t ≤ h.length)
    (hnd : (CountMap.keys tops ++ h.map HotKeyEntry.Key).Nodup)
    (hdom : ∀ x ∈ tops, ∀ y ∈ h, y.Score ≤ x.2) :
    ∃ r rest, topNPops t h tops = some r ∧ (r.map toEntry ++ rest).Perm (tops.map toEntry ++ h)
      ∧ r.length = tops.length + t ∧ ∀ x ∈ r, ∀ y ∈ rest, y.Score ≤ x.2 := by
  induction t generalizing h tops with
  | zero => exact ⟨tops, h, rfl, List.Perm.refl _, rfl, hdom⟩
  | succ t ih =>
    obtain ⟨e, h', hp⟩ := HotKeyEntries.heapPop_isSome h (by omega)
    have hperm := HotKeyEntries.heapPop_perm h e h' hp
    have hlen := HotKeyEntries.heapPop_length h e h' hp
    obtain ⟨hheap, hmax⟩ := HotKeyEntries.heapPop_heap h e h' H hp
    have heh : e ∈ h := hperm.symm.subset (by simp)
    have hsub : ∀ y ∈ h', y ∈ h := fun y hy => hperm.symm.subset (by simp [hy])
    have hek : e.Key ∉ CountMap.keys tops := by
      intro hmem
      rw [List.nodup_append] at hnd
      exact hnd.2.2 hmem (List.mem_map_of_mem _ heh)
    have hput : tops.put e.Key e.Score = tops ++ [(e.Key, e.Score)] :=
      CountMap.put_of_not_mem tops _ _ hek
    have hnd' : (CountMap.keys (tops ++ [(e.Key, e.Score)]) ++ h'.map HotKeyEntry.Key).Nodup := by
      have hp2 : (CountMap.keys (tops ++ [(e.Key, e.Score)]) ++ h'.map HotKeyEntry.Key).Perm
          (CountMap.keys tops ++ h.map HotKeyEntry.Key) := by
        simp only [CountMap.keys, List.map_append, List.map_cons, List.map_nil,
          List.append_assoc]
        apply List.Perm.append_left
        have := (hperm.map HotKeyEntry.Key).symm
        simp only [List.map_append, List.map_cons, List.map_nil] at this
        exact List.perm_append_comm.trans this
      exact hp2.nodup_iff.mpr hnd
    have hdom' : ∀ x ∈ tops ++ [(e.Key, e.Score)], ∀ y ∈ h', y.Score ≤ x.2 := by
      intro x hx y hy
      rw [List.mem_append] at hx
      rcases hx with hx | hx
      · exact hdom x hx y (hsub y hy)
      · simp only [List.mem_singleton] at hx
        subst hx
        exact hmax y (hsub y hy)
    obtain ⟨r, rest, hr, hrp, hrl, hrd⟩ := ih h' (tops ++ [(e.Key, e.Score)]) hheap (by omega)
      hnd' hdom'
    refine ⟨r, rest, ?_, ?_, ?_, hrd⟩
    · simp only [topNPops, hp, hput]
      exact hr
    · refine hrp.trans ?_
      simp only [List.map_append, List.map_cons, List.map_nil, List.append_assoc]
      apply List.Perm.append_left
      have : toEntry (e.Key, e.Score) = e := rfl
      rw [this]
      exact List.perm_append_comm.trans hperm.symm
    · rw [hrl]; simp; omega

/-- What `topN` computes on a map with distinct keys: it leaves in its input the
scored survivors, and returns entries `r` that, together with some left-out entries
`rest`, are the scored survivors; `r` has `min n (number of survivors)` entries, each
of them with a score no smaller than that of any left-out entry. -/
theorem topNRun_spec (GetScore : String → Nat) (all : CountMap) (n : Int) (threshold : Nat)
    (hnd : (CountMap.keys all).Nodup) :
    ∃ r rest, topNRun GetScore all n threshold = some (scored GetScore all threshold, r)
      ∧ (r ++ rest).Perm (scored GetScore all threshold)
      ∧ r.length = min n.toNat (scored GetScore all threshold).length
      ∧ (∀ x ∈ r, ∀ y ∈ rest, y.2 ≤ x.2)
      ∧ (((scored GetScore all threshold).length : Int) ≤ n →
          r = scored GetScore all threshold) := by
  unfold topNRun
  rw [topNScan_eq GetScore threshold all hnd]
  simp only []
  by_cases hle : ((scored GetScore all threshold).length : Int) ≤ n
  · rw [if_pos hle]
    refine ⟨scored GetScore all threshold, [], rfl, by simp, ?_, by simp, fun _ => rfl⟩
    have : (scored GetScore all threshold).length ≤ n.toNat := by omega
    omega
  · rw [if_neg hle]
    have hkn : (CountMap.keys (scored GetScore all threshold)).Nodup := by
      rw [keys_scored]; exact nodup_keys_survivors all threshold hnd
    have hlen : n.toNat ≤ (HotKeyEntries.heapInit
        ((scored GetScore all threshold).map toEntry)).length := by
      rw [HotKeyEntries.heapInit_length, List.length_map]; omega
    have hheap := HotKeyEntries.heapInit_heap ((scored GetScore all threshold).map toEntry)
    rw [← HotKeyEntries.heapInit_length] at hheap
    have hperm := HotKeyEntries.heapInit_perm ((scored GetScore all threshold).map toEntry)
    have hnd0 : (CountMap.keys ([] : CountMap) ++ (HotKeyEntries.heapInit
        ((scored GetScore all threshold).map toEntry)).map HotKeyEntry.Key).Nodup := by
      simp only [CountMap.keys, List.map_nil, List.nil_append]
      refine (hperm.map HotKeyEntry.Key).nodup_iff.mpr ?_
      simpa [CountMap.keys, List.map_map, Function.comp_def, toEntry] using hkn
    obtain ⟨r, rest, hr, hrp, hrl, hrd⟩ := topNPops_spec n.toNat _ [] hheap hlen hnd0
      (by simp)
    refine ⟨r, rest.map ofEntry, ?_, ?_, ?_, ?_, fun h => absurd h hle⟩
    · rw [hr]
    · have := (hrp.trans (by simpa using hperm)).map ofEntry
      rw [List.map_append, map_ofEntry_map_toEntry, map_ofEntry_map_toEntry] at this
      exact this
    · simp at hrl; omega
    · intro x hx y hy
      obtain ⟨e, he, rfl⟩ := List.mem_map.mp hy
      exact hrd x hx e he

theorem mem_scored (GetScore : String → Nat) (all : CountMap) (threshold : Nat) (k : String)
    (v : Nat) :
    (k, v) ∈ scored GetScore all threshold
      ↔ ∃ c, (k, c) ∈ all ∧ threshold ≤ c ∧ v = c * GetScore k % 2 ^ 64 := by
  unfold scored survivors
  simp only [List.mem_map, List.mem_filter, decide_eq_true_eq, Prod.mk.injEq, Prod.exists]
  constructor
  · rintro ⟨a, b, ⟨hm, hb⟩, rfl, rfl⟩
    exact ⟨b, hm, hb, rfl⟩
  · rintro ⟨c, hm, hc, rfl⟩
    exact ⟨k, c, ⟨hm, hc⟩, rfl, rfl⟩

theorem value_unique (m : CountMap) (h : (CountMap.keys m).Nodup) (k : String) (c c' : Nat)
    (h1 : (k, c) ∈ m) (h2 : (k, c') ∈ m) : c = c' := by
  induction m with
  | nil => simp at h1
  | cons e m ih =>
    simp only [CountMap.keys, List.map_cons, List.nodup_cons] at h
    rcases List.mem_cons.mp h1 with h1 | h1 <;> rcases List.mem_cons.mp h2 with h2 | h2
    · rw [← h1] at h2; exact (Prod.mk.inj h2).2.symm
    · have he : e.1 = k := by rw [← h1]
      exact absurd (List.mem_map_of_mem Prod.fst h2) (he ▸ h.1)
    · have he : e.1 = k := by rw [← h2]
      exact absurd (List.mem_map_of_mem Prod.fst h1) (he ▸ h.1)
    · exact ih h.2 h1 h2

theorem nodup_keys_scored (GetScore : String → Nat) (all : CountMap) (threshold : Nat)
    (h : (CountMap.keys all).Nodup) : (CountMap.keys (scored GetScore all threshold)).Nodup := by
  rw [keys_scored]; exact nodup_keys_survivors all threshold h

/-- C1: for every scorer, count map (distinct keys, in any iteration order), `N ≥ 0` and
threshold `T`, `topN` returns a map with exactly `min(N, |{k : all[k] ≥ T}|)` entries. -/
theorem topN_size (GetScore : String → Nat) (all : CountMap) (n : Int) (threshold : Nat)
    (hnd : (CountMap.keys all).Nodup) (hn : 0 ≤ n) :
    ∃ r, topN GetScore all n threshold = some r ∧ (CountMap.keys r).Nodup
      ∧ (r.length : Int)
          = min n ((all.filter (fun e => decide (threshold ≤ e.2))).length : Int) := by
  obtain ⟨r, rest, hrun, hperm, hlen, _, _⟩ := topNRun_spec GetScore all n threshold hnd
  refine ⟨r, by simp [topN, hrun], ?_, ?_⟩
  · have hk := nodup_keys_scored GetScore all threshold hnd
    have hp := (hperm.map Prod.fst).nodup_iff.mpr hk
    rw [List.map_append] at hp
    exact (List.nodup_append.mp hp).1
  · rw [length_scored] at hlen
    unfold survivors at hlen
    omega

/-- C1, on the second case of `TestTopN`: one entry out of two that reach the
threshold. -/
theorem topN_size_witness :
    (CountMap.keys [("some_key", 100), ("some_hot_key", 1000), ("another_hot_key", 1001)]).Nodup
      ∧ (0 : Int) ≤ 1
      ∧ ∃ r, topN (fun _ => 1)
            [("some_key", 100), ("some_hot_key", 1000), ("another_hot_key", 1001)] 1 101 = some r
          ∧ (CountMap.keys r).Nodup
          ∧ (r.length : Int) = min 1
              ((([("some_key", 100), ("some_hot_key", 1000), ("another_hot_key", 1001)] :
                  CountMap).filter (fun e => decide (101 ≤ e.2))).length : Int) :=
  ⟨by decide, by decide,
    topN_size (fun _ => 1) [("some_key", 100), ("some_hot_key", 1000), ("another_hot_key", 1001)]
      1 101 (by decide) (by decide)⟩

/-- C2: for every scorer, count map (distinct keys), `N ≥ 0` and threshold `T`, the
final score `count * GetScore(key) mod 2^64` of every key in the result of `topN` is
greater than or equal to the final score of every key that reached the threshold and is
not in the result. -/
theorem topN_dominates (GetScore : String → Nat) (all : CountMap) (n : Int) (threshold : Nat)
    (hnd : (CountMap.keys all).Nodup) (_hn : 0 ≤ n) :
    ∃ r, topN GetScore all n threshold = some r
      ∧ ∀ k c, (k, c) ∈ all → k ∈ CountMap.keys r →
          ∀ k' c', (k', c') ∈ all → threshold ≤ c' → k' ∉ CountMap.keys r →
            c' * GetScore k' % 2 ^ 64 ≤ c * GetScore k % 2 ^ 64 := by
  obtain ⟨r, rest, hrun, hperm, _, hdom, _⟩ := topNRun_spec GetScore all n threshold hnd
  refine ⟨r, by simp [topN, hrun], ?_⟩
  intro k c hkc hkr k' c' hkc' hc' hk'r
  obtain ⟨⟨k₀, v⟩, hx, hk₀⟩ := List.mem_map.mp hkr
  simp only at hk₀
  subst hk₀
  have hxs : (k₀, v) ∈ scored GetScore all threshold := hperm.subset (by simp [hx])
  obtain ⟨c₀, hc₀, _, hv⟩ := (mem_scored GetScore all threshold k₀ v).mp hxs
  have hcc : c₀ = c := value_unique all hnd k₀ c₀ c hc₀ hkc
  subst hcc
  have hys : (k', c' * GetScore k' % 2 ^ 64) ∈ scored GetScore all threshold :=
    (mem_scored GetScore all threshold k' _).mpr ⟨c', hkc', hc', rfl⟩
  have hy : (k', c' * GetScore k' % 2 ^ 64) ∈ r ++ rest := hperm.symm.subset hys
  rcases List.mem_append.mp hy with hy | hy
  · exact absurd (List.mem_map_of_mem Prod.fst hy) hk'r
  · have := hdom _ hx _ hy
    rw [hv] at this
    exact this

/-- C2, on the second case of `TestTopN`. -/
theorem topN_dominates_witness :
    (CountMap.keys [("some_key", 100), ("some_hot_key", 1000), ("another_hot_key", 1001)]).Nodup
      ∧ (0 : Int) ≤ 1
      ∧ ∃ r, topN (fun _ => 1)
            [("some_key", 100), ("some_hot_key", 1000), ("another_hot_key", 1001)] 1 101 = some r
          ∧ ∀ k c, (k, c) ∈ ([("some_key", 100), ("some_hot_key", 1000),
                ("another_hot_key", 1001)] : CountMap) → k ∈ CountMap.keys r →
              ∀ k' c', (k', c') ∈ ([("some_key", 100), ("some_hot_key", 1000),
                  ("another_hot_key", 1001)] : CountMap) → 101 ≤ c' → k' ∉ CountMap.keys r →
                c' * (fun _ => 1) k' % 2 ^ 64 ≤ c * (fun _ => 1) k % 2 ^ 64 :=
  ⟨by decide, by decide,
    topN_dominates (fun _ => 1)
      [("some_key", 100), ("some_hot_key", 1000), ("another_hot_key", 1001)] 1 101
      (by decide) (by decide)⟩

/-- C3: for every scorer, count map (distinct keys), `N` and threshold `T`, every key of
the result of `topN` was in the input with a count `≥ T` (the threshold is compared with
the count) and is mapped to `count * GetScore(key) mod 2^64`; when at most `N` keys reach
the threshold the result holds exactly all of them; and the first case of `TestTopN`
gives `{some_hot_key: 1000, another_hot_key: 1001}`. -/
theorem topN_entries (GetScore : String → Nat) (all : CountMap) (n : Int) (threshold : Nat)
    (hnd : (CountMap.keys all).Nodup) :
    (∃ r, topN GetScore all n threshold = some r
      ∧ (∀ k v, (k, v) ∈ r → ∃ c, (k, c) ∈ all ∧ threshold ≤ c ∧ v = c * GetScore k % 2 ^ 64)
      ∧ (((all.filter (fun e => decide (threshold ≤ e.2))).length : Int) ≤ n →
          ∀ k v, (k, v) ∈ r ↔ ∃ c, (k, c) ∈ all ∧ threshold ≤ c ∧ v = c * GetScore k % 2 ^ 64))
    ∧ topN (fun _ => 1) [("some_key", 100), ("some_hot_key", 1000), ("another_hot_key", 1001)]
          3 101 = some [("some_hot_key", 1000), ("another_hot_key", 1001)] := by
  refine ⟨?_, by decide⟩
  obtain ⟨r, rest, hrun, hperm, _, _, hall⟩ := topNRun_spec GetScore all n threshold hnd
  refine ⟨r, by simp [topN, hrun], ?_, ?_⟩
  · intro k v hkv
    exact (mem_scored GetScore all threshold k v).mp (hperm.subset (by simp [hkv]))
  · intro hle k v
    rw [hall (by rw [length_scored]; exact hle)]
    exact mem_scored GetScore all threshold k v

/-- C3, on a scorer that overflows: `3 * 2^63` is stored as `2^63`. -/
theorem topN_entries_witness :
    (CountMap.keys [("a", 3), ("b", 1)]).Nodup
      ∧ ((∃ r, topN (fun _ => 2 ^ 63) [("a", 3), ("b", 1)] 5 2 = some r
          ∧ (∀ k v, (k, v) ∈ r → ∃ c, (k, c) ∈ ([("a", 3), ("b", 1)] : CountMap) ∧ 2 ≤ c
              ∧ v = c * (fun _ => 2 ^ 63) k % 2 ^ 64)
          ∧ ((((([("a", 3), ("b", 1)] : CountMap).filter
                (fun e => decide (2 ≤ e.2))).length : Nat) : Int) ≤ 5 →
              ∀ k v, (k, v) ∈ r ↔ ∃ c, (k, c) ∈ ([("a", 3), ("b", 1)] : CountMap) ∧ 2 ≤ c
                ∧ v = c * (fun _ => 2 ^ 63) k % 2 ^ 64))
        ∧ topN (fun _ => 1)
            [("some_key", 100), ("some_hot_key", 1000), ("another_hot_key", 1001)] 3 101
          = some [("some_hot_key", 1000), ("another_hot_key", 1001)]) :=
  ⟨by decide, topN_entries (fun _ => 2 ^ 63) [("a", 3), ("b", 1)] 5 2 (by decide)⟩

/-! ## Counters -/

namespace CountMap

theorem get_eq (m : CountMap) (k : String) : get m k = (find? m k).getD 0 := rfl

theorem find?_add (m : CountMap) (k : String) (c : Nat) (k' : String) :
    find? (add m k c) k' = if k = k' then some ((get m k + c) % 2 ^ 64) else find? m k' := by
  unfold add
  exact find?_put m k _ k'

theorem nodup_keys_add (m : CountMap) (k : String) (c : Nat) (h : (keys m).Nodup) :
    (keys (add m k c)).Nodup := nodup_keys_put m k _ h

theorem addAll_cons (dst : CountMap) (e : String × Nat) (src : CountMap) :
    addAll dst (e :: src) = addAll (add dst e.1 e.2) src := rfl

theorem nodup_keys_addAll (dst src : CountMap) (h : (keys dst).Nodup) :
    (keys (addAll dst src)).Nodup := by
  induction src generalizing dst with
  | nil => exact h
  | cons e src ih =>
    rw [addAll_cons]
    exact ih _ (nodup_keys_add dst e.1 e.2 h)

theorem find?_addAll (dst src : CountMap) (k : String) :
    find? (addAll dst src) k
      = if k ∈ keys src then some ((get dst k + deltaSum src k) % 2 ^ 64) else find? dst k := by
  induction src generalizing dst with
  | nil => simp [addAll, keys]
  | cons e src ih =>
    obtain ⟨k₀, c₀⟩ := e
    rw [addAll_cons, ih]
    simp only [keys, List.map_cons, List.mem_cons]
    by_cases hk : k₀ = k
    · subst hk
      have hg : get (add dst k₀ c₀) k₀ = (get dst k₀ + c₀) % 2 ^ 64 := by
        rw [get_eq, find?_add]; simp
      have hd : deltaSum ((k₀, c₀) :: src) k₀ = c₀ + deltaSum src k₀ := by
        simp [deltaSum, List.filter_cons]
      by_cases hm : k₀ ∈ List.map Prod.fst src
      · simp only [hm, if_true, true_or, hg, hd]
        congr 1
        rw [Nat.add_mod, Nat.mod_mod, ← Nat.add_mod, Nat.add_assoc]
      · have hz : deltaSum src k₀ = 0 := by
          unfold deltaSum
          have : src.filter (fun e => decide (e.1 = k₀)) = [] := by
            rw [List.filter_eq_nil_iff]
            intro a ha hh
            simp only [decide_eq_true_eq] at hh
            exact hm (hh ▸ List.mem_map_of_mem Prod.fst ha)
          rw [this]; rfl
        simp only [hm, if_false, true_or, if_true, hd, hz, find?_add, Nat.add_zero]
    · have hk' : ¬ k = k₀ := fun hh => hk hh.symm
      have hg : get (add dst k₀ c₀) k = get dst k := by
        rw [get_eq, find?_add, if_neg hk]; rfl
      have hd : deltaSum ((k₀, c₀) :: src) k = deltaSum src k := by
        simp [deltaSum, List.filter_cons, hk]
      simp only [hk', false_or, hg, hd, find?_add, if_neg hk]

theorem value_lt_addAll (dst src : CountMap) (h : ∀ k v, find? dst k = some v → v < 2 ^ 64)
    (k : String) (v : Nat) (hv : find? (addAll dst src) k = some v) : v < 2 ^ 64 := by
  rw [find?_addAll] at hv
  split at hv
  · simp only [Option.some.injEq] at hv
    rw [← hv]
    exact Nat.mod_lt _ (by decide)
  · exact h k v hv

theorem find?_foldl_put (m acc : CountMap) (h : (keys m).Nodup) (k : String) :
    find? (m.foldl (fun readOnly e => put readOnly e.1 e.2) acc) k
      = (find? m k).orElse (fun _ => find? acc k) := by
  induction m generalizing acc with
  | nil => simp [find?]
  | cons e m ih =>
    obtain ⟨k₀, v₀⟩ := e
    simp only [keys, List.map_cons, List.nodup_cons] at h
    rw [List.foldl_cons, ih _ h.2]
    by_cases hk : k₀ = k
    · subst hk
      have : find? m k₀ = none := (find?_eq_none_iff m k₀).mpr h.1
      simp [this, find?, find?_put]
    · simp only [find?, hk, if_false, find?_put]

theorem nodup_keys_foldl_put (m acc : CountMap) (h : (keys acc).Nodup) :
    (keys (m.foldl (fun readOnly e => put readOnly e.1 e.2) acc)).Nodup := by
  induction m generalizing acc with
  | nil => exact h
  | cons e m ih =>
    rw [List.foldl_cons]
    exact ih _ (nodup_keys_put acc e.1 e.2 h)

end CountMap

theorem SimpleGetKeyCounter.IncrementAll_counts (c : SimpleGetKeyCounter)
    (incs : List (String × Nat)) : (c.IncrementAll incs).counts = CountMap.addAll c.counts incs := by
  induction incs generalizing c with
  | nil => rfl
  | cons e incs ih =>
    show ((c.Increment e.1 e.2).IncrementAll incs).counts = _
    rw [ih]
    rfl

theorem SimpleGetKeyCounter.find?_Snapshot (c : SimpleGetKeyCounter)
    (h : (CountMap.keys c.counts).Nodup) (k : String) :
    CountMap.find? c.Snapshot k = CountMap.find? c.counts k := by
  unfold SimpleGetKeyCounter.Snapshot
  rw [CountMap.find?_foldl_put _ _ h]
  cases CountMap.find? c.counts k <;> simp [CountMap.find?]

theorem SimpleGetKeyCounter.nodup_keys_Snapshot (c : SimpleGetKeyCounter) :
    (CountMap.keys c.Snapshot).Nodup :=
  CountMap.nodup_keys_foldl_put _ _ (by simp [CountMap.keys])

theorem BucketsHold_new (hashing : String → Nat) (B : Nat) (hB : 1 ≤ B) :
    BucketsHold (NewBucketing (fun _ => NewSimpleGetKeyCounter) hashing B)
      NewSimpleGetKeyCounter := by
  refine ⟨hB, by simp [NewBucketing], ?_, ?_⟩
  · intro k v hv
    simp [NewSimpleGetKeyCounter, CountMap.find?] at hv
  · intro j hj
    simp [NewBucketing, NewSimpleGetKeyCounter, CountMap.find?, CountMap.keys]

theorem BucketGetKeyCounter.Increment_eq (c : BucketGetKeyCounter) (key : String)
    (delta : Nat) (hf : c.freeze = 0) (hB : c.bucketing.buckets ≠ 0)
    (hidx : (c.bucketing.hashing key % 2 ^ 32) % c.bucketing.buckets
      < c.bucketing.instances.length) :
    c.Increment key delta = some { c with bucketing :=
      { c.bucketing with instances := (c.bucketing.instances.set
          ((c.bucketing.hashing key % 2 ^ 32) % c.bucketing.buckets)
          ((c.bucketing.instances.get ⟨_, hidx⟩).Increment key delta)) } } := by
  unfold BucketGetKeyCounter.Increment Bucketing.PickIndex
  rw [if_pos hf, if_neg hB]
  simp only [List.getElem?_eq_getElem hidx, List.get_eq_getElem]

theorem BucketsHold_Increment (c : BucketGetKeyCounter) (s : SimpleGetKeyCounter)
    (key : String) (delta : Nat) (hf : c.freeze = 0) (H : BucketsHold c.bucketing s) :
    ∃ c', c.Increment key delta = some c' ∧ c'.freeze = 0
      ∧ BucketsHold c'.bucketing (s.Increment key delta) := by
  obtain ⟨hB, hlen, hval, hall⟩ := H
  have hB0 : c.bucketing.buckets ≠ 0 := by omega
  have hidx : (c.bucketing.hashing key % 2 ^ 32) % c.bucketing.buckets
      < c.bucketing.instances.length := by
    rw [hlen]; exact Nat.mod_lt _ (by omega)
  refine ⟨_, BucketGetKeyCounter.Increment_eq c key delta hf hB0 hidx, hf, ?_⟩
  generalize hi : (c.bucketing.hashing key % 2 ^ 32) % c.bucketing.buckets = i at hidx
  refine ⟨hB, by simp [hlen], ?_, ?_⟩
  · intro k v hv
    simp only [SimpleGetKeyCounter.Increment] at hv
    rw [CountMap.find?_add] at hv
    split at hv
    · simp only [Option.some.injEq] at hv
      rw [← hv]; exact Nat.mod_lt _ (by decide)
    · exact hval k v hv
  · intro j hj
    have hj' : j < c.bucketing.instances.length := by simpa using hj
    obtain ⟨hnd, hfind⟩ := hall j hj'
    simp only [List.get_eq_getElem, List.getElem_set]
    by_cases hij : i = j
    · subst hij
      simp only [if_true]
      refine ⟨CountMap.nodup_keys_add _ _ _ hnd, ?_⟩
      intro k
      simp only [SimpleGetKeyCounter.Increment, CountMap.find?_add]
      have hfk := hfind key
      rw [hi, if_pos rfl] at hfk
      have hgk : CountMap.get (c.bucketing.instances.get ⟨i, hidx⟩).counts key
          = CountMap.get s.counts key := by
        rw [CountMap.get_eq, CountMap.get_eq, hfk]
      by_cases hk : key = k
      · subst hk
        simp only [if_true, hi]
        rw [← hgk]; rfl
      · rw [if_neg hk, if_neg hk]
        exact hfind k
    · simp only [hij, if_false]
      refine ⟨hnd, ?_⟩
      intro k
      simp only [SimpleGetKeyCounter.Increment, CountMap.find?_add]
      by_cases hk : key = k
      · subst hk
        have := hfind key
        rw [hi, if_neg hij] at this
        simp only [List.get_eq_getElem] at this
        rw [this, hi, if_neg hij]
      · rw [if_neg hk]
        exact hfind k

theorem deltaSum_of_nodup (m : CountMap) (h : (CountMap.keys m).Nodup) (k : String) :
    deltaSum m k = CountMap.get m k := by
  induction m with
  | nil => rfl
  | cons e m ih =>
    obtain ⟨k₀, v₀⟩ := e
    simp only [CountMap.keys, List.map_cons, List.nodup_cons] at h
    by_cases hk : k₀ = k
    · subst hk
      have hz : deltaSum m k₀ = 0 := by
        rw [ih h.2, CountMap.get_eq, (CountMap.find?_eq_none_iff m k₀).mpr h.1]; rfl
      unfold deltaSum at hz ⊢
      simp [List.filter_cons, hz, CountMap.get_eq, CountMap.find?]
    · have := ih h.2
      unfold deltaSum at this ⊢
      simp [List.filter_cons, hk, this, CountMap.get_eq, CountMap.find?]

theorem foldl_Snapshot_find? (L : List SimpleGetKeyCounter) (f : String → Option Nat)
    (owner : String → Nat) (hval : ∀ k v, f k = some v → v < 2 ^ 64)
    (hall : ∀ j (hj : j < L.length),
      (CountMap.keys (L.get ⟨j, hj⟩).counts).Nodup
        ∧ ∀ k, CountMap.find? (L.get ⟨j, hj⟩).counts k = if owner k = j then f k else none)
    (k : String) :
    CountMap.find? (L.foldl (fun aggregate counter =>
        CountMap.addAll aggregate counter.Snapshot) []) k
      = if owner k < L.length then f k else none := by
  induction L using List.reverseRecOn with
  | nil => simp [CountMap.find?]
  | append_singleton L c ih =>
    have hall' : ∀ j (hj : j < L.length),
        (CountMap.keys (L.get ⟨j, hj⟩).counts).Nodup
          ∧ ∀ k, CountMap.find? (L.get ⟨j, hj⟩).counts k
              = if owner k = j then f k else none := by
      intro j hj
      have := hall j (by simp; omega)
      simpa [List.getElem_append_left hj] using this
    have hc := hall L.length (by simp)
    simp only [List.get_eq_getElem, List.getElem_concat_length] at hc
    rw [List.foldl_append, List.foldl_cons, List.foldl_nil, CountMap.find?_addAll]
    have hih := ih hall'
    have hsnap := SimpleGetKeyCounter.find?_Snapshot c hc.1 k
    have hmem : k ∈ CountMap.keys c.Snapshot ↔ (CountMap.find? c.counts k).isSome := by
      rw [← CountMap.find?_isSome_iff, hsnap]
    have hds : deltaSum c.Snapshot k = CountMap.get c.counts k := by
      rw [deltaSum_of_nodup _ (SimpleGetKeyCounter.nodup_keys_Snapshot c), CountMap.get_eq,
        CountMap.get_eq, hsnap]
    have hck := hc.2 k
    rw [hds, CountMap.get_eq, CountMap.get_eq, hih, List.length_append,
      List.length_singleton]
    by_cases ho : owner k = L.length
    · have h1 : ¬ owner k < L.length := by omega
      have h2 : owner k < L.length + 1 := by omega
      rw [if_pos ho] at hck
      rw [if_neg h1, if_pos h2]
      cases hf : f k with
      | none =>
        rw [hf] at hck
        have : k ∉ CountMap.keys c.Snapshot := by
          rw [hmem, hck]; simp
        rw [if_neg this]
      | some v =>
        rw [hf] at hck
        have : k ∈ CountMap.keys c.Snapshot := by
          rw [hmem, hck]; simp
        rw [if_pos this, hck]
        have hv := hval k v hf
        simp only [Option.getD_none, Option.getD_some, Nat.zero_add, Nat.mod_eq_of_lt hv]
    · rw [if_neg ho] at hck
      have : k ∉ CountMap.keys c.Snapshot := by
        rw [hmem, hck]; simp
      rw [if_neg this]
      by_cases h1 : owner k < L.length
      · have h2 : owner k < L.length + 1 := by omega
        rw [if_pos h1, if_pos h2]
      · have h2 : ¬ owner k < L.length + 1 := by omega
        rw [if_neg h1, if_neg h2]

theorem BucketsHold_Snapshot (c : BucketGetKeyCounter) (s : SimpleGetKeyCounter)
    (hf : c.freeze = 0) (H : BucketsHold c.bucketing s) :
    (CountMap.keys (c.Snapshot).1).Nodup
      ∧ ∀ k, CountMap.find? (c.Snapshot).1 k = CountMap.find? s.counts k := by
  obtain ⟨hB, hlen, hval, hall⟩ := H
  unfold BucketGetKeyCounter.Snapshot
  rw [if_pos hf]
  simp only []
  constructor
  · generalize c.bucketing.instances = L
    have : ∀ acc : CountMap, (CountMap.keys acc).Nodup →
        (CountMap.keys (L.foldl (fun aggregate counter =>
          CountMap.addAll aggregate counter.Snapshot) acc)).Nodup := by
      induction L with
      | nil => intro acc h; exact h
      | cons x L ih =>
        intro acc h
        rw [List.foldl_cons]
        exact ih _ (CountMap.nodup_keys_addAll _ _ h)
    exact this [] (by simp [CountMap.keys])
  · intro k
    rw [foldl_Snapshot_find? c.bucketing.instances (fun k => CountMap.find? s.counts k)
      (fun k => (c.bucketing.hashing k % 2 ^ 32) % c.bucketing.buckets) hval hall k]
    have : (c.bucketing.hashing k % 2 ^ 32) % c.bucketing.buckets
        < c.bucketing.instances.length := by
      rw [hlen]; exact Nat.mod_lt _ (by omega)
    rw [if_pos this]

theorem BucketsHold_IncrementAll (c : BucketGetKeyCounter) (s : SimpleGetKeyCounter)
    (incs : List (String × Nat)) (hf : c.freeze = 0) (H : BucketsHold c.bucketing s) :
    ∃ c', c.IncrementAll incs = some c' ∧ c'.freeze = 0
      ∧ BucketsHold c'.bucketing (s.IncrementAll incs) := by
  induction incs generalizing c s with
  | nil => exact ⟨c, rfl, hf, H⟩
  | cons e incs ih =>
    obtain ⟨key, delta⟩ := e
    obtain ⟨c₁, h1, hf1, H1⟩ := BucketsHold_Increment c s key delta hf H
    obtain ⟨c', h2, hf2, H2⟩ := ih c₁ (s.Increment key delta) hf1 H1
    refine ⟨c', ?_, hf2, H2⟩
    simp only [BucketGetKeyCounter.IncrementAll, h1]
    exact h2

theorem BucketGetKeyCounter.Increment_frozen (c : BucketGetKeyCounter) (key : String)
    (delta : Nat) (hf : c.freeze ≠ 0) : c.Increment key delta = some c := by
  unfold BucketGetKeyCounter.Increment
  rw [if_neg hf]

theorem BucketGetKeyCounter.Snapshot_frozen (c : BucketGetKeyCounter) (hf : c.freeze ≠ 0) :
    c.Snapshot = (c.snapshotted, c) := by
  unfold BucketGetKeyCounter.Snapshot
  rw [if_neg hf]

theorem BucketGetKeyCounter.Snapshot_freezes (c : BucketGetKeyCounter) :
    (c.Snapshot).2.freeze ≠ 0 ∧ (c.Snapshot).2.snapshotted = (c.Snapshot).1 := by
  unfold BucketGetKeyCounter.Snapshot
  by_cases hf : c.freeze = 0
  · rw [if_pos hf]
    exact ⟨Int.one_ne_zero, rfl⟩
  · rw [if_neg hf]
    exact ⟨hf, rfl⟩

theorem BucketGetKeyCounter.run_frozen (c : BucketGetKeyCounter) (hf : c.freeze ≠ 0)
    (ops : List CounterOp) :
    c.run ops = some (List.replicate (ops.count CounterOp.snap) c.snapshotted, c) := by
  induction ops with
  | nil => rfl
  | cons op ops ih =>
    cases op with
    | inc key delta =>
      simp only [BucketGetKeyCounter.run, BucketGetKeyCounter.Increment_frozen c key delta hf, ih]
      simp [List.count_cons]
    | snap =>
      simp only [BucketGetKeyCounter.run, BucketGetKeyCounter.Snapshot_frozen c hf, ih]
      simp [List.count_cons, List.replicate_succ]

/-- C5: once `Snapshot` has been called on a `BucketGetKeyCounter` (in any state), every
sequence of later `Increment` and `Snapshot` calls runs without failure, each of its
`Snapshot` calls returns the map that the first one returned, and the counter stays as
the first `Snapshot` left it: the increments made after the snapshot are discarded. -/
theorem BucketGetKeyCounter.snapshot_is_final (c : BucketGetKeyCounter) (ops : List CounterOp) :
    (c.Snapshot).2.run ops
      = some (List.replicate (ops.count CounterOp.snap) (c.Snapshot).1, (c.Snapshot).2) := by
  obtain ⟨hf, hs⟩ := BucketGetKeyCounter.Snapshot_freezes c
  rw [BucketGetKeyCounter.run_frozen _ hf ops, hs]

theorem find?_IncrementAll_simple (incs : List (String × Nat)) (k : String) :
    CountMap.find? (NewSimpleGetKeyCounter.IncrementAll incs).counts k
      = if k ∈ incs.map Prod.fst then some (deltaSum incs k % 2 ^ 64) else none := by
  rw [SimpleGetKeyCounter.IncrementAll_counts, CountMap.find?_addAll]
  simp [NewSimpleGetKeyCounter, CountMap.keys, CountMap.get_eq, CountMap.find?]

theorem nodup_keys_IncrementAll_simple (incs : List (String × Nat)) :
    (CountMap.keys (NewSimpleGetKeyCounter.IncrementAll incs).counts).Nodup := by
  rw [SimpleGetKeyCounter.IncrementAll_counts]
  exact CountMap.nodup_keys_addAll _ _ (by simp [NewSimpleGetKeyCounter, CountMap.keys])

/-- C6: on a fresh `BucketGetKeyCounter` that has at least one bucket, every sequence of
`Increment(key, delta)` calls runs without failure, and the first `Snapshot` then maps
each incremented key to the sum of its deltas modulo `2^64` and holds no other key; this
is the map that a single `SimpleGetKeyCounter` returns after the same calls, whatever
the number of buckets and the shard `fnv1a32(key) mod B` of each key. -/
theorem BucketGetKeyCounter.snapshot_sums (buckets : Int) (incs : List (String × Nat))
    (hB : 1 ≤ (NewBucketGetKeyCounter buckets).bucketing.buckets) :
    ∃ c, (NewBucketGetKeyCounter buckets).IncrementAll incs = some c
      ∧ (CountMap.keys (c.Snapshot).1).Nodup
      ∧ (∀ k, CountMap.find? (c.Snapshot).1 k
            = if k ∈ incs.map Prod.fst then some (deltaSum incs k % 2 ^ 64) else none)
      ∧ CountMap.Same (c.Snapshot).1 (NewSimpleGetKeyCounter.IncrementAll incs).Snapshot := by
  have H0 : BucketsHold (NewBucketGetKeyCounter buckets).bucketing NewSimpleGetKeyCounter :=
    BucketsHold_new fnv1a32 _ hB
  obtain ⟨c, hc, hf, H⟩ := BucketsHold_IncrementAll (NewBucketGetKeyCounter buckets)
    NewSimpleGetKeyCounter incs rfl H0
  obtain ⟨hnd, hfind⟩ := BucketsHold_Snapshot c _ hf H
  refine ⟨c, hc, hnd, ?_, ?_⟩
  · intro k
    rw [hfind, find?_IncrementAll_simple]
  · intro k
    rw [hfind, SimpleGetKeyCounter.find?_Snapshot _ (nodup_keys_IncrementAll_simple incs)]

/-- C6, on the calls of `TestBucketGetKeyCounter`. -/
theorem BucketGetKeyCounter.snapshot_sums_witness :
    1 ≤ (NewBucketGetKeyCounter 1).bucketing.buckets
      ∧ ∃ c, (NewBucketGetKeyCounter 1).IncrementAll
            [("some_key", 1), ("some_key", 1), ("another_key", 1)] = some c
          ∧ (CountMap.keys (c.Snapshot).1).Nodup
          ∧ (∀ k, CountMap.find? (c.Snapshot).1 k
                = if k ∈ ([("some_key", 1), ("some_key", 1), ("another_key", 1)] :
                      List (String × Nat)).map Prod.fst
                  then some (deltaSum [("some_key", 1), ("some_key", 1), ("another_key", 1)] k
                    % 2 ^ 64)
                  else none)
          ∧ CountMap.Same (c.Snapshot).1 (NewSimpleGetKeyCounter.IncrementAll
              [("some_key", 1), ("some_key", 1), ("another_key", 1)]).Snapshot :=
  ⟨by decide, BucketGetKeyCounter.snapshot_sums 1
    [("some_key", 1), ("some_key", 1), ("another_key", 1)] (by decide)⟩

/-- C7, evaluated: a `SimpleGetKeyCounter` is not frozen by `Snapshot`. After
`Increment("some_key", 1)` the snapshot is `{some_key: 1}`; a further
`Increment("some_key", 1)` makes the next snapshot `{some_key: 2}`. -/
theorem SimpleGetKeyCounter.snapshot_not_final :
    (NewSimpleGetKeyCounter.Increment "some_key" 1).Snapshot = [("some_key", 1)]
      ∧ ((NewSimpleGetKeyCounter.Increment "some_key" 1).Increment "some_key" 1).Snapshot
          = [("some_key", 2)] := by
  decide

/-- The bucket count is `uint32(buckets)`: with `buckets = 2^32` the counter has no
bucket at all and `Increment` fails in `Pick` on the remainder by zero. -/
theorem BucketGetKeyCounter.no_bucket :
    (NewBucketGetKeyCounter (2 ^ 32)).bucketing.buckets = 0
      ∧ (NewBucketGetKeyCounter (2 ^ 32)).Increment "some_key" 1 = none :=
  ⟨rfl, rfl⟩

/-! ## The ring: the loop of `Roll` -/

theorem mod_of_lt_two_mul (x n : Nat) (h : x < 2 * n) :
    x % n = if x < n then x else x - n := by
  split
  · rename_i hx; exact Nat.mod_eq_of_lt hx
  · rename_i hx
    rw [Nat.mod_eq_sub_mod (by omega), Nat.mod_eq_of_lt (by omega)]

namespace SimpleRollingWindows

theorem rollLoop_eq (rf n : Nat) (hrf : rf < n) (r : Nat) :
    ∀ (fuel i : Nat) (windows : List GetKeyCounter) (aggregate : CountMap),
      r ≤ fuel → 1 ≤ i → i + r = n → windows.length = n →
      rollLoop rf n fuel ((rf + i) % n) windows aggregate
        = some (visit ((List.range' i r).map (fun j => (rf + j) % n)) windows aggregate) := by
  induction r with
  | zero =>
    intro fuel i windows aggregate _ _ hir _
    have hs : (rf + i) % n = rf := by
      have : i = n := by omega
      subst this
      rw [Nat.add_mod_right, Nat.mod_eq_of_lt hrf]
    cases fuel with
    | zero => simp [rollLoop, hs, visit]
    | succ fuel => simp [rollLoop, hs, visit]
  | succ r ih =>
    intro fuel i windows aggregate hfuel hi hir hlen
    have hs : (rf + i) % n ≠ rf := by
      rw [mod_of_lt_two_mul _ _ (by omega)]
      split <;> omega
    have hlt : (rf + i) % n < windows.length := by
      rw [hlen]; exact Nat.mod_lt _ (by omega)
    cases fuel with
    | zero => omega
    | succ fuel =>
      have hnext : ((rf + i) % n + 1) % n = (rf + (i + 1)) % n := by
        rw [Nat.mod_add_mod, Nat.add_assoc]
      simp only [rollLoop, hs, if_false, List.getElem?_eq_getElem hlt, List.range'_succ,
        List.map_cons, visit]
      rw [hnext]
      exact ih fuel (i + 1) _ _ (by omega) (by omega) (by omega) (by simp [hlen])

theorem visit_length (ps : List Nat) (windows : List GetKeyCounter) (aggregate : CountMap) :
    (visit ps windows aggregate).1.length = windows.length := by
  induction ps generalizing windows aggregate with
  | nil => rfl
  | cons p ps ih =>
    unfold visit
    cases h : windows[p]? with
    | none => rfl
    | some c => simp only [ih, List.length_set]

theorem visit_nodup (ps : List Nat) (windows : List GetKeyCounter) (aggregate : CountMap)
    (h : (CountMap.keys aggregate).Nodup) :
    (CountMap.keys (visit ps windows aggregate).2).Nodup := by
  induction ps generalizing windows aggregate with
  | nil => exact h
  | cons p ps ih =>
    unfold visit
    cases hp : windows[p]? with
    | none => exact h
    | some c => exact ih _ _ (CountMap.nodup_keys_addAll _ _ h)

theorem visit_frame (ps : List Nat) (windows : List GetKeyCounter) (aggregate : CountMap)
    (q : Nat) (hq : q ∉ ps) : (visit ps windows aggregate).1[q]? = windows[q]? := by
  induction ps generalizing windows aggregate with
  | nil => rfl
  | cons p ps ih =>
    have hqp : p ≠ q := fun hh => hq (hh ▸ List.mem_cons_self _ _)
    have hq' : q ∉ ps := fun hh => hq (List.mem_cons_of_mem _ hh)
    unfold visit
    cases hp : windows[p]? with
    | none => rfl
    | some c =>
      simp only []
      rw [ih _ _ hq', List.getElem?_set_ne hqp]

end SimpleRollingWindows

theorem topN_isSome (GetScore : String → Nat) (all : CountMap) (n : Int) (threshold : Nat)
    (hnd : (CountMap.keys all).Nodup) : ∃ tops, topN GetScore all n threshold = some tops := by
  obtain ⟨r, _, hrun, _⟩ := topNRun_spec GetScore all n threshold hnd
  exact ⟨r, by simp [topN, hrun]⟩

namespace SimpleRollingWindows

theorem Roll_inv {σ : Type} (GetScore : σ → String → Nat) (w w' : SimpleRollingWindows σ)
    (tops : CountMap) (h : w.Roll GetScore = some (tops, w')) :
    ∃ windows' aggregate,
      rollLoop w.readFrom (w.width + 1) (w.width + 1) ((w.readFrom + 1) % (w.width + 1))
          (w.windows.set w.readFrom (GetKeyCounter.bucket (NewBucketGetKeyCounter 32))) []
        = some (windows', aggregate)
      ∧ McHotkeys.topN (GetScore w.scorer) aggregate w.topN w.threshold = some tops
      ∧ w' = rolled w windows' := by
  unfold Roll at h
  split at h
  · simp at h
  · simp only [] at h
    split at h
    · simp at h
    · rename_i windows' aggregate hloop
      split at h
      · simp at h
      · rename_i tops' htop
        simp only [Option.some.injEq, Prod.mk.injEq] at h
        refine ⟨windows', aggregate, hloop, ?_, ?_⟩
        · rw [htop, h.1]
        · rw [← h.2]; rfl

theorem Roll_indices {σ : Type} (GetScore : σ → String → Nat) (w w' : SimpleRollingWindows σ)
    (tops : CountMap) (h : w.Roll GetScore = some (tops, w')) :
    w'.readTo = (w.current : Int) ∧ w'.current = w.readFrom
      ∧ w'.readFrom = (w.readFrom + 1) % (w.width + 1) ∧ w'.width = w.width := by
  obtain ⟨windows', aggregate, _, _, hw⟩ := Roll_inv GetScore w w' tops h
  subst hw
  exact ⟨rfl, rfl, rfl, rfl⟩

theorem Roll_eq {σ : Type} (GetScore : σ → String → Nat) (w : SimpleRollingWindows σ)
    (hlen : w.windows.length = w.width + 1) (hrf : w.readFrom < w.width + 1) :
    ∃ tops,
      McHotkeys.topN (GetScore w.scorer)
          (visit ((List.range' 1 w.width).map (slot w))
            (w.windows.set w.readFrom (GetKeyCounter.bucket (NewBucketGetKeyCounter 32))) []).2
          w.topN w.threshold = some tops
      ∧ w.Roll GetScore = some (tops, rolled w
          (visit ((List.range' 1 w.width).map (slot w))
            (w.windows.set w.readFrom (GetKeyCounter.bucket (NewBucketGetKeyCounter 32))) []).1) := by
  have hloop := rollLoop_eq w.readFrom (w.width + 1) hrf w.width (w.width + 1) 1
    (w.windows.set w.readFrom (GetKeyCounter.bucket (NewBucketGetKeyCounter 32))) []
    (by omega) (by omega) (by omega) (by simp [hlen])
  have hnd := visit_nodup ((List.range' 1 w.width).map (slot w))
    (w.windows.set w.readFrom (GetKeyCounter.bucket (NewBucketGetKeyCounter 32))) []
    (by simp [CountMap.keys])
  obtain ⟨tops, htop⟩ := topN_isSome (GetScore w.scorer) _ w.topN w.threshold hnd
  refine ⟨tops, htop, ?_⟩
  unfold Roll
  have hnot : ¬ w.windows.length ≤ w.readFrom := by omega
  rw [if_neg hnot]
  simp only []
  have hslot : (fun j => (w.readFrom + j) % (w.width + 1)) = slot w := rfl
  rw [hslot] at hloop
  rw [hloop]
  simp only []
  rw [htop]
  rfl

theorem Increment_indices {σ : Type} (w w' : SimpleRollingWindows σ) (key : String) (delta : Nat)
    (h : w.Increment key delta = some w') :
    w'.readTo = w.readTo ∧ w'.current = w.current ∧ w'.readFrom = w.readFrom
      ∧ w'.width = w.width ∧ w'.windows.length = w.windows.length := by
  unfold Increment at h
  split at h
  · simp at h
  · split at h
    · simp at h
    · simp only [Option.some.injEq] at h
      subst h
      simp

theorem Roll_length {σ : Type} (GetScore : σ → String → Nat) (w w' : SimpleRollingWindows σ)
    (tops : CountMap) (hlen : w.windows.length = w.width + 1) (hrf : w.readFrom < w.width + 1)
    (h : w.Roll GetScore = some (tops, w')) : w'.windows.length = w'.width + 1 := by
  obtain ⟨tops', _, heq⟩ := Roll_eq GetScore w hlen hrf
  rw [heq] at h
  simp only [Option.some.injEq, Prod.mk.injEq] at h
  rw [← h.2]
  simp [rolled, visit_length, hlen]

end SimpleRollingWindows

theorem emod_eq_of_eq (x n r q : Int) (h : x = r + q * n) (h0 : 0 ≤ r) (h1 : r < n) :
    x % n = r := by
  subst h
  rw [Int.add_mul_emod_self, Int.emod_eq_of_lt h0 h1]

namespace SimpleRollingWindows

theorem IdxAt_new {σ : Type} (scorer : σ) (gen : Unit → GetKeyCounter) (W : Nat) (N : Int)
    (T : Nat) : IdxAt W 0 (NewSimpleRollingWindows scorer gen W N T) := by
  refine ⟨rfl, by simp [NewSimpleRollingWindows], by simp [NewSimpleRollingWindows], ?_, ?_⟩
  · simp [NewSimpleRollingWindows]
  · by_cases hW : W = 0
    · subst hW; simp [NewSimpleRollingWindows]
    · have h1 : (0 % (W + 1) + (W - 1)) % (W + 1) = W - 1 := by
        rw [Nat.zero_mod, Nat.zero_add, Nat.mod_eq_of_lt (by omega)]
      simp only [NewSimpleRollingWindows, hW, false_and, if_false, h1]
      omega

theorem IdxAt_Roll {σ : Type} (GetScore : σ → String → Nat) (W k : Nat)
    (w w' : SimpleRollingWindows σ) (tops : CountMap) (H : IdxAt W k w)
    (h : w.Roll GetScore = some (tops, w')) : IdxAt W (k + 1) w' := by
  obtain ⟨hw, hlen, hrf, hcur, _⟩ := H
  obtain ⟨h1, h2, h3, h4⟩ := Roll_indices GetScore w w' tops h
  have hl := Roll_length GetScore w w' tops (by rw [hlen, hw]) (by rw [hrf, hw]; exact Nat.mod_lt _ (by omega)) h
  have hrf' : (k + 1) % (W + 1) = (k % (W + 1) + 1) % (W + 1) := by
    rw [Nat.mod_add_mod]
  refine ⟨by rw [h4, hw], by rw [hl, h4, hw], by rw [h3, hrf, hw, hrf'], ?_, ?_⟩
  · rw [h2, hrf, hrf', Nat.mod_add_mod, Nat.add_assoc, Nat.add_comm 1 W, Nat.add_mod_right,
      Nat.mod_mod]
  · have hne : ¬ (W = 0 ∧ k + 1 = 0) := by omega
    rw [h1, hcur, if_neg hne, hrf']
    by_cases hW : W = 0
    · subst hW; simp [Nat.mod_one]
    · have e1 : ((k % (W + 1) + 1) % (W + 1) + (W - 1)) % (W + 1)
          = (k % (W + 1) + 1 + (W - 1)) % (W + 1) := Nat.mod_add_mod _ _ _
      have : k % (W + 1) + 1 + (W - 1) = k % (W + 1) + W := by omega
      rw [e1, this]

theorem IdxAt_Increment {σ : Type} (W k : Nat) (w w' : SimpleRollingWindows σ) (key : String)
    (delta : Nat) (H : IdxAt W k w) (h : w.Increment key delta = some w') : IdxAt W k w' := by
  obtain ⟨hw, hlen, hrf, hcur, hrt⟩ := H
  obtain ⟨h1, h2, h3, h4, h5⟩ := Increment_indices w w' key delta h
  exact ⟨by rw [h4, hw], by rw [h5, hlen], by rw [h3, hrf], by rw [h2, hcur], by rw [h1, hrt]⟩

theorem IdxAt_of_reachable {σ : Type} (GetScore : σ → String → Nat) (scorer : σ)
    (gen : Unit → GetKeyCounter) (W : Nat) (N : Int) (T : Nat) (k : Nat)
    (w : SimpleRollingWindows σ)
    (h : ReachableIn GetScore (NewSimpleRollingWindows scorer gen W N T) k w) : IdxAt W k w := by
  induction h with
  | init => exact IdxAt_new scorer gen W N T
  | roll _ hr ih => exact IdxAt_Roll GetScore W _ _ _ _ ih hr
  | increment _ hi ih => exact IdxAt_Increment W _ _ _ _ _ ih hi

theorem reachable_exists {σ : Type} (GetScore : σ → String → Nat) (scorer : σ)
    (gen : Unit → GetKeyCounter) (W : Nat) (N : Int) (T : Nat) (k : Nat) :
    ∃ w, ReachableIn GetScore (NewSimpleRollingWindows scorer gen W N T) k w := by
  induction k with
  | zero => exact ⟨_, ReachableIn.init⟩
  | succ k ih =>
    obtain ⟨w, hw⟩ := ih
    obtain ⟨hwd, hlen, hrf, _, _⟩ := IdxAt_of_reachable GetScore scorer gen W N T k w hw
    obtain ⟨tops, _, hroll⟩ := Roll_eq GetScore w (by rw [hlen, hwd])
      (by rw [hrf, hwd]; exact Nat.mod_lt _ (by omega))
    exact ⟨_, ReachableIn.roll hw hroll⟩

/-- The relations between the three indices of a ring of width `W ≥ 1`, or of any
width after at least one `Roll`. -/
theorem IdxAt_relations {σ : Type} (W k : Nat) (w : SimpleRollingWindows σ) (H : IdxAt W k w)
    (hWk : 1 ≤ W ∨ 1 ≤ k) :
    w.current ≤ W ∧ w.readFrom ≤ W ∧ 0 ≤ w.readTo ∧ w.readTo ≤ W
      ∧ w.current = (W + k) % (W + 1)
      ∧ w.readTo = ((w.current : Int) - 1) % ((W : Int) + 1)
      ∧ (w.readFrom : Int) = (w.readTo - ((W : Int) - 1)) % ((W : Int) + 1) := by
  obtain ⟨_, _, hrf, hcur, hrt⟩ := H
  have hne : ¬ (W = 0 ∧ k = 0) := by omega
  rw [if_neg hne] at hrt
  have hck : w.current = (W + k) % (W + 1) := by
    rw [hcur, Nat.mod_add_mod, Nat.add_comm]
  have hlt : k % (W + 1) < W + 1 := Nat.mod_lt _ (by omega)
  generalize k % (W + 1) = rf at hrf hcur hrt hlt
  rw [mod_of_lt_two_mul (rf + W) (W + 1) (by omega)] at hcur
  rw [mod_of_lt_two_mul (rf + (W - 1)) (W + 1) (by omega)] at hrt
  refine ⟨?_, ?_, ?_, ?_, hck, ?_, ?_⟩
  · rw [hcur]; split <;> omega
  · omega
  · rw [hrt]; omega
  · rw [hrt]; split <;> omega
  · rw [hrt, hcur]
    symm
    by_cases h1 : rf + W < W + 1
    · have hrf0 : rf = 0 := by omega
      subst hrf0
      by_cases hW : W = 0
      · subst hW
        simp
      · have h2 : 0 + (W - 1) < W + 1 := by omega
        rw [if_pos h1, if_pos h2]
        apply emod_eq_of_eq _ _ _ 0 <;> omega
    · have h2 : ¬ rf + (W - 1) < W + 1 ∨ rf + (W - 1) < W + 1 := by omega
      rw [if_neg h1]
      rcases h2 with h2 | h2
      · rw [if_neg h2]
        apply emod_eq_of_eq _ _ _ 0 <;> omega
      · rw [if_pos h2]
        apply emod_eq_of_eq _ _ _ (-1) <;> omega
  · rw [hrt, hrf]
    symm
    by_cases h2 : rf + (W - 1) < W + 1
    · rw [if_pos h2]
      by_cases hW : W = 0
      · subst hW
        have : rf = 0 := by omega
        subst this
        simp
      · apply emod_eq_of_eq _ _ _ 0 <;> omega
    · rw [if_neg h2]
      apply emod_eq_of_eq _ _ _ (-1) <;> omega

theorem ReachableIn.rolled {σ : Type} (GetScore : σ → String → Nat) (scorer : σ)
    (gen : Unit → GetKeyCounter) (W : Nat) (N : Int) (T : Nat) (k : Nat)
    (w : SimpleRollingWindows σ)
    (h : ReachableIn GetScore (NewSimpleRollingWindows scorer gen W N T) k w) :
    ReachableIn GetScore (NewSimpleRollingWindows scorer gen W N T) (k + 1)
      (rolled w (visit ((List.range' 1 w.width).map (slot w))
        (w.windows.set w.readFrom (GetKeyCounter.bucket (NewBucketGetKeyCounter 32))) []).1) := by
  obtain ⟨hwd, hlen, hrf, _, _⟩ := IdxAt_of_reachable GetScore scorer gen W N T k w h
  obtain ⟨tops, _, hroll⟩ := Roll_eq GetScore w (by rw [hlen, hwd])
    (by rw [hrf, hwd]; exact Nat.mod_lt _ (by omega))
  exact ReachableIn.roll h hroll

end SimpleRollingWindows

open SimpleRollingWindows

/-- C8: in every state that a ring of width `W ≥ 1` reaches from
`NewSimpleRollingWindows` by any sequence of `Roll` and `Increment` calls, the three
indices lie in `[0, W]`, `readTo = (current - 1) mod (W + 1)` and
`readFrom = (readTo - (W - 1)) mod (W + 1)`. -/
theorem ring_indices_invariant {σ : Type} (GetScore : σ → String → Nat) (scorer : σ)
    (gen : Unit → GetKeyCounter) (W : Nat) (N : Int) (T : Nat) (hW : 1 ≤ W) (k : Nat)
    (w : SimpleRollingWindows σ)
    (h : ReachableIn GetScore (NewSimpleRollingWindows scorer gen W N T) k w) :
    w.current ≤ W ∧ w.readFrom ≤ W ∧ 0 ≤ w.readTo ∧ w.readTo ≤ W
      ∧ w.readTo = ((w.current : Int) - 1) % ((W : Int) + 1)
      ∧ (w.readFrom : Int) = (w.readTo - ((W : Int) - 1)) % ((W : Int) + 1) := by
  obtain ⟨h1, h2, h3, h4, _, h5, h6⟩ := IdxAt_relations W k w
    (IdxAt_of_reachable GetScore scorer gen W N T k w h) (Or.inl hW)
  exact ⟨h1, h2, h3, h4, h5, h6⟩

/-- C8, on the ring of `TestSimpleRollingWindows` after its first `Roll`. -/
theorem ring_indices_invariant_witness :
    1 ≤ 4
      ∧ ReachableIn dumbKeyScorer.GetScore testRing 1
          (rolled testRing (visit ((List.range' 1 testRing.width).map (slot testRing))
            (testRing.windows.set testRing.readFrom
              (GetKeyCounter.bucket (NewBucketGetKeyCounter 32))) []).1)
      ∧ (rolled testRing (visit ((List.range' 1 testRing.width).map (slot testRing))
            (testRing.windows.set testRing.readFrom
              (GetKeyCounter.bucket (NewBucketGetKeyCounter 32))) []).1).readTo
          = (((rolled testRing (visit ((List.range' 1 testRing.width).map (slot testRing))
              (testRing.windows.set testRing.readFrom
                (GetKeyCounter.bucket (NewBucketGetKeyCounter 32))) []).1).current : Int) - 1)
            % ((4 : Int) + 1) :=
  ⟨by decide,
    ReachableIn.rolled dumbKeyScorer.GetScore () _ 4 3 1 0 testRing ReachableIn.init,
    (ring_indices_invariant dumbKeyScorer.GetScore () _ 4 3 1 (by decide) 1 _
      (ReachableIn.rolled dumbKeyScorer.GetScore () _ 4 3 1 0 testRing
        ReachableIn.init)).2.2.2.2.1⟩

/-- C9 as stated fails: after the first `Roll` of the ring of
`TestSimpleRollingWindows` (`W = 4`, `k = 1`) `current` is `0`, as the test checks, and
not `(W - k) mod (W + 1) = 3`; and a new ring of width `0` (`k = 0`) has
`readTo = -1`, not `(current - 1) mod 1 = 0`. -/
theorem ring_indices_after_rolls_counterexample :
    (∃ w, ReachableIn dumbKeyScorer.GetScore testRing 1 w
        ∧ w.current = 0 ∧ (w.current : Int) ≠ ((4 : Int) - 1) % ((4 : Int) + 1))
      ∧ (NewSimpleRollingWindows () (fun _ => GetKeyCounter.bucket (NewBucketGetKeyCounter 1))
            0 3 1).readTo
          ≠ (((NewSimpleRollingWindows ()
                (fun _ => GetKeyCounter.bucket (NewBucketGetKeyCounter 1)) 0 3 1).current : Int)
              - 1) % ((0 : Int) + 1) := by
  constructor
  · obtain ⟨w, hw⟩ := reachable_exists dumbKeyScorer.GetScore ()
      (fun _ => GetKeyCounter.bucket (NewBucketGetKeyCounter 1)) 4 3 1 1
    obtain ⟨_, _, _, hcur, _⟩ := IdxAt_of_reachable _ _ _ _ _ _ _ _ hw
    refine ⟨w, hw, hcur, ?_⟩
    rw [hcur]
    decide
  · decide

/-- C9, amended: after `k` calls of `Roll` (and any calls of `Increment`) from the
initial state of a ring of width `W`, with `W ≥ 1` or `k ≥ 1`, the indices are
`current = (W + k) mod (W + 1)`, `readTo = (current - 1) mod (W + 1)` and
`readFrom = (readTo - (W - 1)) mod (W + 1)`; and the ring does reach such a state. -/
theorem ring_indices_after_rolls {σ : Type} (GetScore : σ → String → Nat) (scorer : σ)
    (gen : Unit → GetKeyCounter) (W : Nat) (N : Int) (T : Nat) (k : Nat) (hWk : 1 ≤ W ∨ 1 ≤ k) :
    (∃ w, ReachableIn GetScore (NewSimpleRollingWindows scorer gen W N T) k w)
      ∧ ∀ w, ReachableIn GetScore (NewSimpleRollingWindows scorer gen W N T) k w →
          w.current = (W + k) % (W + 1)
            ∧ w.readTo = ((w.current : Int) - 1) % ((W : Int) + 1)
            ∧ (w.readFrom : Int) = (w.readTo - ((W : Int) - 1)) % ((W : Int) + 1) := by
  refine ⟨reachable_exists GetScore scorer gen W N T k, ?_⟩
  intro w h
  obtain ⟨_, _, _, _, h5, h6, h7⟩ := IdxAt_relations W k w
    (IdxAt_of_reachable GetScore scorer gen W N T k w h) hWk
  exact ⟨h5, h6, h7⟩

/-- C9, amended, on the ring of `TestSimpleRollingWindows` after two `Roll`s. -/
theorem ring_indices_after_rolls_witness :
    ((1 : Nat) ≤ 4 ∨ 1 ≤ 2)
      ∧ (∃ w, ReachableIn dumbKeyScorer.GetScore testRing 2 w)
      ∧ ∀ w, ReachableIn dumbKeyScorer.GetScore testRing 2 w →
          w.current = (4 + 2) % (4 + 1)
            ∧ w.readTo = ((w.current : Int) - 1) % (((4 : Nat) : Int) + 1)
            ∧ (w.readFrom : Int) = (w.readTo - (((4 : Nat) : Int) - 1)) % (((4 : Nat) : Int) + 1) :=
  ⟨Or.inl (by decide),
    ring_indices_after_rolls dumbKeyScorer.GetScore ()
      (fun _ => GetKeyCounter.bucket (NewBucketGetKeyCounter 1)) 4 3 1 2 (Or.inl (by decide))⟩

/-- C10 as stated fails at width `0`: the initial indices are `(0, -1, 0)`, and after
`W + 1 = 1` call of `Roll` `readTo` is `0`, not the initial `-1`. -/
theorem roll_shifts_counterexample :
    (NewSimpleRollingWindows () (fun _ => GetKeyCounter.bucket (NewBucketGetKeyCounter 1))
        0 3 1).readTo = -1
      ∧ ∃ w, ReachableIn dumbKeyScorer.GetScore
            (NewSimpleRollingWindows () (fun _ => GetKeyCounter.bucket (NewBucketGetKeyCounter 1))
              0 3 1) (0 + 1) w
          ∧ w.readTo = 0 := by
  refine ⟨rfl, ?_⟩
  obtain ⟨w, hw⟩ := reachable_exists dumbKeyScorer.GetScore ()
    (fun _ => GetKeyCounter.bucket (NewBucketGetKeyCounter 1)) 0 3 1 (0 + 1)
  obtain ⟨_, _, _, _, hrt⟩ := IdxAt_of_reachable _ _ _ _ _ _ _ _ hw
  exact ⟨w, hw, hrt⟩

/-- C10, amended: each `Roll` shifts the indices by one position to the right modulo
`W + 1` (new `readTo` = old `current`, new `current` = old `readFrom`, new `readFrom` =
(old `readFrom` + 1) mod (W + 1)); after `k` calls of `Roll`, which the ring can always
make, `readFrom = k mod (W + 1)`; for `W ≥ 1` the indices are back at their initial
values `(0, W - 1, W)` after `W + 1` calls; and for `W = 4` the triples
`(readFrom, readTo, current)` after 1 to 5 calls are `(1,4,0)`, `(2,0,1)`, `(3,1,2)`,
`(4,2,3)`, `(0,3,4)`. -/
theorem roll_shifts {σ : Type} (GetScore : σ → String → Nat) (scorer : σ)
    (gen : Unit → GetKeyCounter) (W : Nat) (N : Int) (T : Nat) :
    (∀ (w w' : SimpleRollingWindows σ) (tops : CountMap),
        w.Roll GetScore = some (tops, w') →
          w'.readTo = (w.current : Int) ∧ w'.current = w.readFrom
            ∧ w'.readFrom = (w.readFrom + 1) % (w.width + 1))
      ∧ (∀ k, (∃ w, ReachableIn GetScore (NewSimpleRollingWindows scorer gen W N T) k w)
          ∧ ∀ w, ReachableIn GetScore (NewSimpleRollingWindows scorer gen W N T) k w →
              w.readFrom = k % (W + 1))
      ∧ (1 ≤ W → ∀ w, ReachableIn GetScore (NewSimpleRollingWindows scorer gen W N T) (W + 1) w →
          w.readFrom = 0 ∧ w.readTo = (W : Int) - 1 ∧ w.current = W)
      ∧ (∀ w, ReachableIn GetScore (NewSimpleRollingWindows scorer gen 4 N T) 1 w →
          w.readFrom = 1 ∧ w.readTo = 4 ∧ w.current = 0)
      ∧ (∀ w, ReachableIn GetScore (NewSimpleRollingWindows scorer gen 4 N T) 2 w →
          w.readFrom = 2 ∧ w.readTo = 0 ∧ w.current = 1)
      ∧ (∀ w, ReachableIn GetScore (NewSimpleRollingWindows scorer gen 4 N T) 3 w →
          w.readFrom = 3 ∧ w.readTo = 1 ∧ w.current = 2)
      ∧ (∀ w, ReachableIn GetScore (NewSimpleRollingWindows scorer gen 4 N T) 4 w →
          w.readFrom = 4 ∧ w.readTo = 2 ∧ w.current = 3)
      ∧ (∀ w, ReachableIn GetScore (NewSimpleRollingWindows scorer gen 4 N T) 5 w →
          w.readFrom = 0 ∧ w.readTo = 3 ∧ w.current = 4) := by
  refine ⟨?_, ?_, ?_, ?_, ?_, ?_, ?_, ?_⟩
  · intro w w' tops h
    obtain ⟨h1, h2, h3, _⟩ := Roll_indices GetScore w w' tops h
    exact ⟨h1, h2, h3⟩
  · intro k
    refine ⟨reachable_exists GetScore scorer gen W N T k, ?_⟩
    intro w h
    exact (IdxAt_of_reachable GetScore scorer gen W N T k w h).2.2.1
  · intro hW w h
    obtain ⟨_, _, hrf, hcur, hrt⟩ := IdxAt_of_reachable GetScore scorer gen W N T (W + 1) w h
    have hne : ¬ (W = 0 ∧ W + 1 = 0) := by omega
    rw [Nat.mod_self] at hrf hcur hrt
    rw [Nat.zero_add, Nat.mod_eq_of_lt (by omega)] at hcur
    rw [if_neg hne, Nat.zero_add, Nat.mod_eq_of_lt (by omega)] at hrt
    refine ⟨hrf, ?_, hcur⟩
    rw [hrt]; omega
  · intro w h
    obtain ⟨_, _, hrf, hcur, hrt⟩ := IdxAt_of_reachable GetScore scorer gen 4 N T 1 w h
    exact ⟨hrf, hrt, hcur⟩
  · intro w h
    obtain ⟨_, _, hrf, hcur, hrt⟩ := IdxAt_of_reachable GetScore scorer gen 4 N T 2 w h
    exact ⟨hrf, hrt, hcur⟩
  · intro w h
    obtain ⟨_, _, hrf, hcur, hrt⟩ := IdxAt_of_reachable GetScore scorer gen 4 N T 3 w h
    exact ⟨hrf, hrt, hcur⟩
  · intro w h
    obtain ⟨_, _, hrf, hcur, hrt⟩ := IdxAt_of_reachable GetScore scorer gen 4 N T 4 w h
    exact ⟨hrf, hrt, hcur⟩
  · intro w h
    obtain ⟨_, _, hrf, hcur, hrt⟩ := IdxAt_of_reachable GetScore scorer gen 4 N T 5 w h
    exact ⟨hrf, hrt, hcur⟩

/-- C10, amended, on the ring of `TestSimpleRollingWindows`: it can make five calls of
`Roll`, after which the indices are back at `(0, 3, 4)`. -/
theorem roll_shifts_witness :
    1 ≤ 4
      ∧ (∃ w, ReachableIn dumbKeyScorer.GetScore testRing 5 w)
      ∧ ∀ w, ReachableIn dumbKeyScorer.GetScore testRing (4 + 1) w →
          w.readFrom = 0 ∧ w.readTo = ((4 : Nat) : Int) - 1 ∧ w.current = 4 :=
  ⟨by decide,
    ((roll_shifts dumbKeyScorer.GetScore ()
      (fun _ => GetKeyCounter.bucket (NewBucketGetKeyCounter 1)) 4 3 1).2.1 5).1,
    (roll_shifts dumbKeyScorer.GetScore ()
      (fun _ => GetKeyCounter.bucket (NewBucketGetKeyCounter 1)) 4 3 1).2.2.1 (by decide)⟩

/-! ## The ring: what the windows hold -/

theorem deltaSum_append (a b : List (String × Nat)) (k : String) :
    deltaSum (a ++ b) k = deltaSum a k + deltaSum b k := by
  simp [deltaSum, List.filter_append]

theorem deltaSum_eq_zero (a : List (String × Nat)) (k : String) (h : k ∉ a.map Prod.fst) :
    deltaSum a k = 0 := by
  unfold deltaSum
  have : a.filter (fun e => decide (e.1 = k)) = [] := by
    rw [List.filter_eq_nil_iff]
    intro e he hh
    simp only [decide_eq_true_eq] at hh
    exact h (hh ▸ List.mem_map_of_mem Prod.fst he)
  rw [this]; rfl

theorem Tallies_nil : Tallies [] [] := by
  refine ⟨by simp [CountMap.keys], ?_⟩
  intro k
  simp [CountMap.find?]

theorem Tallies_addAll (m snap : CountMap) (a l : List (String × Nat)) (hm : Tallies m a)
    (hs : Tallies snap l) : Tallies (CountMap.addAll m snap) (a ++ l) := by
  refine ⟨CountMap.nodup_keys_addAll _ _ hm.1, ?_⟩
  intro k
  have hks : k ∈ CountMap.keys snap ↔ k ∈ l.map Prod.fst := by
    rw [← CountMap.find?_isSome_iff, hs.2 k]
    split <;> simp [*]
  have hds : deltaSum snap k = CountMap.get snap k := deltaSum_of_nodup snap hs.1 k
  rw [CountMap.find?_addAll, hds, CountMap.get_eq, CountMap.get_eq, hm.2 k, hs.2 k,
    deltaSum_append, List.map_append]
  by_cases hl : k ∈ l.map Prod.fst
  · have hk : k ∈ CountMap.keys snap := hks.mpr hl
    have hmem : k ∈ a.map Prod.fst ++ l.map Prod.fst := List.mem_append_right _ hl
    rw [if_pos hk, if_pos hl, if_pos hmem]
    by_cases ha : k ∈ a.map Prod.fst
    · rw [if_pos ha]
      simp only [Option.getD_some]
      rw [← Nat.add_mod]
    · rw [if_neg ha, deltaSum_eq_zero a k ha]
      simp only [Option.getD_some, Option.getD_none, Nat.zero_add, Nat.mod_mod]
  · have hk : k ∉ CountMap.keys snap := fun hh => hl (hks.mp hh)
    rw [if_neg hk, deltaSum_eq_zero l k hl, Nat.add_zero]
    by_cases ha : k ∈ a.map Prod.fst
    · have hmem : k ∈ a.map Prod.fst ++ l.map Prod.fst := List.mem_append_left _ ha
      rw [if_pos ha, if_pos hmem]
    · have hmem : k ∉ a.map Prod.fst ++ l.map Prod.fst := by
        intro hh
        rcases List.mem_append.mp hh with hh | hh
        · exact ha hh
        · exact hl hh
      rw [if_neg ha, if_neg hmem]

theorem GetKeyCounter.Snapshot_idem (c : GetKeyCounter) :
    ((c.Snapshot).2).Snapshot = ((c.Snapshot).1, (c.Snapshot).2) := by
  cases c with
  | empty c => rfl
  | simple c => rfl
  | bucket c =>
    obtain ⟨hf, hs⟩ := BucketGetKeyCounter.Snapshot_freezes c
    simp only [GetKeyCounter.Snapshot, BucketGetKeyCounter.Snapshot_frozen _ hf, hs]

theorem SnapshotIs_Snapshot (c : GetKeyCounter) (incs : List (String × Nat))
    (h : SnapshotIs c incs) : SnapshotIs (c.Snapshot).2 incs := by
  unfold SnapshotIs at *
  rw [GetKeyCounter.Snapshot_idem]
  exact h

theorem SnapshotIs_empty : SnapshotIs (GetKeyCounter.empty {}) [] := Tallies_nil

theorem SnapshotIs_bucket (c : BucketGetKeyCounter) (incs : List (String × Nat))
    (hf : c.freeze = 0) (H : BucketsHold c.bucketing (NewSimpleGetKeyCounter.IncrementAll incs)) :
    SnapshotIs (GetKeyCounter.bucket c) incs := by
  obtain ⟨hnd, hfind⟩ := BucketsHold_Snapshot c _ hf H
  refine ⟨hnd, ?_⟩
  intro k
  show CountMap.find? (c.Snapshot).1 k = _
  rw [hfind, find?_IncrementAll_simple]

theorem forall₂_imp_mem {α β : Type} {R S : α → β → Prop} {l₁ : List α} {l₂ : List β}
    (h : List.Forall₂ R l₁ l₂) (H : ∀ a b, a ∈ l₁ → R a b → S a b) : List.Forall₂ S l₁ l₂ := by
  induction h with
  | nil => exact List.Forall₂.nil
  | cons hab _ ih =>
    exact List.Forall₂.cons (H _ _ (List.mem_cons_self _ _) hab)
      (ih (fun a b ha => H a b (List.mem_cons_of_mem _ ha)))

namespace SimpleRollingWindows

theorem visit_tallies (ps : List Nat) (ls : List (List (String × Nat)))
    (windows : List GetKeyCounter) (aggregate : CountMap) (a : List (String × Nat))
    (hnd : ps.Nodup)
    (hall : List.Forall₂ (fun p l => ∃ c, windows[p]? = some c ∧ SnapshotIs c l) ps ls)
    (hagg : Tallies aggregate a) :
    Tallies (visit ps windows aggregate).2 (a ++ ls.flatten)
      ∧ List.Forall₂ (fun p l => ∃ c, (visit ps windows aggregate).1[p]? = some c
          ∧ SnapshotIs c l) ps ls := by
  induction ps generalizing ls windows aggregate a with
  | nil =>
    cases hall
    simpa [visit] using hagg
  | cons p ps ih =>
    cases hall with
    | @cons _ l _ ls hp hrest =>
      obtain ⟨c, hc, hsnap⟩ := hp
      have hpn : p ∉ ps := (List.nodup_cons.mp hnd).1
      have hplt : p < windows.length := by
        by_contra hh
        rw [List.getElem?_eq_none (by omega)] at hc
        simp at hc
      have hrest' : List.Forall₂ (fun q l => ∃ c', (windows.set p (c.Snapshot).2)[q]? = some c'
          ∧ SnapshotIs c' l) ps ls := by
        refine forall₂_imp_mem hrest ?_
        intro q l' hq hR
        have hne : p ≠ q := fun hh => hpn (hh ▸ hq)
        rw [List.getElem?_set_ne hne]
        exact hR
      obtain ⟨h1, h2⟩ := ih ls (windows.set p (c.Snapshot).2)
        (CountMap.addAll aggregate (c.Snapshot).1) (a ++ l) (List.nodup_cons.mp hnd).2 hrest'
        (Tallies_addAll _ _ _ _ hagg hsnap)
      have hv : visit (p :: ps) windows aggregate
          = visit ps (windows.set p (c.Snapshot).2) (CountMap.addAll aggregate (c.Snapshot).1) := by
        simp only [visit, hc]
      rw [hv]
      refine ⟨by simpa [List.append_assoc] using h1, List.Forall₂.cons ?_ h2⟩
      refine ⟨(c.Snapshot).2, ?_, SnapshotIs_Snapshot c l hsnap⟩
      rw [visit_frame _ _ _ _ hpn, List.getElem?_set_eq_of_lt _ (by simpa using hplt)]

end SimpleRollingWindows

theorem slot_ne (rf n i j : Nat) (hrf : rf < n) (hi : i < n) (hj : j < n) (hij : i ≠ j) :
    (rf + i) % n ≠ (rf + j) % n := by
  rw [mod_of_lt_two_mul _ _ (by omega), mod_of_lt_two_mul _ _ (by omega)]
  split <;> split <;> omega

theorem forall₂_of_getD {α β : Type} {R : α → β → Prop} (l₁ : List α) (l₂ : List β) (d₁ : α)
    (d₂ : β) (hlen : l₁.length = l₂.length)
    (h : ∀ i, i < l₁.length → R (l₁.getD i d₁) (l₂.getD i d₂)) : List.Forall₂ R l₁ l₂ := by
  apply List.forall₂_of_length_eq_of_get hlen
  intro i h₁ h₂
  have := h i h₁
  rw [List.getD_eq_getElem _ _ h₁, List.getD_eq_getElem _ _ h₂] at this
  exact this

theorem forall₂_getD {α β : Type} {R : α → β → Prop} (l₁ : List α) (l₂ : List β) (d₁ : α)
    (d₂ : β) (h : List.Forall₂ R l₁ l₂) (i : Nat) (hi : i < l₁.length) :
    R (l₁.getD i d₁) (l₂.getD i d₂) := by
  have hi₂ : i < l₂.length := by rw [← h.length_eq]; exact hi
  have := h.get hi hi₂
  rw [List.getD_eq_getElem _ _ hi, List.getD_eq_getElem _ _ hi₂]
  exact this

theorem getD_tail_append {α : Type} (l : List α) (x d : α) (i : Nat) (hl : l ≠ []) :
    (l.tail ++ [x]).getD i d
      = if i + 1 < l.length then l.getD (i + 1) d else if i + 1 = l.length then x else d := by
  cases l with
  | nil => exact absurd rfl hl
  | cons y t =>
    simp only [List.tail_cons, List.length_cons]
    by_cases h1 : i < t.length
    · have : i + 1 < t.length + 1 := by omega
      rw [if_pos this, List.getD_append _ _ _ _ h1, List.getD_cons_succ]
    · have h2 : ¬ i + 1 < t.length + 1 := by omega
      rw [if_neg h2, List.getD_append_right _ _ _ _ (by omega)]
      by_cases h3 : i = t.length
      · have : i + 1 = t.length + 1 := by omega
        rw [if_pos this, h3, Nat.sub_self]; rfl
      · have : ¬ i + 1 = t.length + 1 := by omega
        rw [if_neg this]
        apply List.getD_eq_default
        simp; omega

theorem length_lastW (W : Nat) (l : List (List (String × Nat))) : (lastW W l).length = W := by
  simp [lastW]

theorem lastW_snoc (W : Nat) (hW : 1 ≤ W) (l : List (List (String × Nat)))
    (x : List (String × Nat)) : (lastW W l).tail ++ [x] = lastW W (l ++ [x]) := by
  unfold lastW
  have h1 : List.replicate W ([] : List (String × Nat)) ++ (l ++ [x])
      = (List.replicate W [] ++ l) ++ [x] := (List.append_assoc _ _ _).symm
  have h2 : l.length + 1 ≤ (List.replicate W ([] : List (String × Nat)) ++ l).length := by
    simp only [List.length_append, List.length_replicate]; omega
  rw [List.tail_drop, h1, List.length_append, List.length_singleton,
    List.drop_append_of_le_length h2]

theorem flatten_lastW (W : Nat) (l : List (List (String × Nat))) :
    (lastW W l).flatten = (l.drop (l.length - W)).flatten := by
  unfold lastW
  rw [List.drop_append_eq_append_drop, List.drop_replicate, List.length_replicate,
    List.flatten_append, List.flatten_replicate_nil, List.nil_append]

theorem SimpleGetKeyCounter.IncrementAll_append (s : SimpleGetKeyCounter)
    (a b : List (String × Nat)) : s.IncrementAll (a ++ b) = (s.IncrementAll a).IncrementAll b := by
  unfold SimpleGetKeyCounter.IncrementAll
  rw [List.foldl_append]

theorem RingInv_new {σ : Type} (scorer : σ) (buckets : Int) (W : Nat) (N : Int) (T : Nat)
    (hB : 1 ≤ (NewBucketGetKeyCounter buckets).bucketing.buckets) :
    RingInv W scorer N T
      (NewSimpleRollingWindows scorer
        (fun _ => GetKeyCounter.bucket (NewBucketGetKeyCounter buckets)) W N T)
      (lastW W []) [] := by
  refine ⟨rfl, rfl, rfl, rfl, by simp [NewSimpleRollingWindows], by simp [NewSimpleRollingWindows],
    ?_, length_lastW W [], ?_, ?_⟩
  · simp [NewSimpleRollingWindows]
  · intro i hi
    refine ⟨GetKeyCounter.empty {}, ?_, ?_⟩
    · have h1 : (0 + i) % (W + 1) = i := by rw [Nat.zero_add, Nat.mod_eq_of_lt (by omega)]
      have hne : W ≠ i := by omega
      simp only [NewSimpleRollingWindows, h1, List.getElem?_set_ne hne]
      rw [List.getElem?_eq_getElem (by simp; omega)]
      simp
    · have : (lastW W []).getD i [] = [] := by
        simp [lastW, List.getD_eq_getElem?_getD, List.getElem?_replicate, hi]
      rw [this]
      exact SnapshotIs_empty
  · refine ⟨NewBucketGetKeyCounter buckets, ?_, rfl, BucketsHold_new fnv1a32 _ hB⟩
    simp [NewSimpleRollingWindows]

theorem RingInv_Increment {σ : Type} (W : Nat) (scorer : σ) (N : Int) (T : Nat)
    (w : SimpleRollingWindows σ) (closed : List (List (String × Nat)))
    (cur : List (String × Nat)) (key : String) (delta : Nat)
    (H : RingInv W scorer N T w closed cur) :
    ∃ w', w.Increment key delta = some w'
      ∧ RingInv W scorer N T w' closed (cur ++ [(key, delta)]) := by
  obtain ⟨hwd, hsc, hN, hT, hlen, hrf, hcur, hcl, hclosed, c, hc, hf, hB⟩ := H
  obtain ⟨c', hinc, hf', hB'⟩ := BucketsHold_Increment c _ key delta hf hB
  refine ⟨{ w with windows := w.windows.set w.current (GetKeyCounter.bucket c') }, ?_, ?_⟩
  · simp only [SimpleRollingWindows.Increment, SimpleRollingWindows.last, hc,
      GetKeyCounter.Increment, hinc, Option.map_some']
  · refine ⟨hwd, hsc, hN, hT, by simpa using hlen, hrf, hcur, hcl, ?_, ?_⟩
    · intro i hi
      obtain ⟨d, hd, hsd⟩ := hclosed i hi
      refine ⟨d, ?_, hsd⟩
      have hne : w.current ≠ (w.readFrom + i) % (W + 1) := by
        rw [hcur]
        exact slot_ne w.readFrom (W + 1) W i hrf (by omega) (by omega) (by omega)
      simp only [List.getElem?_set_ne hne]
      exact hd
    · refine ⟨c', ?_, hf', ?_⟩
      · have hlt : w.current < w.windows.length := by
          rw [hcur, hlen]; exact Nat.mod_lt _ (by omega)
        simp only [List.getElem?_set_eq_of_lt _ hlt]
      · rw [SimpleGetKeyCounter.IncrementAll_append]
        exact hB'

theorem RingInv_IncrementAll {σ : Type} (W : Nat) (scorer : σ) (N : Int) (T : Nat)
    (w : SimpleRollingWindows σ) (closed : List (List (String × Nat)))
    (cur incs : List (String × Nat)) (H : RingInv W scorer N T w closed cur) :
    ∃ w', w.IncrementAll incs = some w' ∧ RingInv W scorer N T w' closed (cur ++ incs) := by
  induction incs generalizing w cur with
  | nil => exact ⟨w, rfl, by simpa using H⟩
  | cons e incs ih =>
    obtain ⟨key, delta⟩ := e
    obtain ⟨w₁, h1, H1⟩ := RingInv_Increment W scorer N T w closed cur key delta H
    obtain ⟨w', h2, H2⟩ := ih w₁ (cur ++ [(key, delta)]) H1
    refine ⟨w', ?_, by simpa using H2⟩
    simp only [SimpleRollingWindows.IncrementAll, h1]
    exact h2

theorem RingInv_Roll {σ : Type} (GetScore : σ → String → Nat) (W : Nat) (hW : 1 ≤ W)
    (scorer : σ) (N : Int) (T : Nat) (w : SimpleRollingWindows σ)
    (closed : List (List (String × Nat))) (cur : List (String × Nat))
    (H : RingInv W scorer N T w closed cur) :
    ∃ tops w' aggregate, w.Roll GetScore = some (tops, w')
      ∧ Tallies aggregate (closed.tail ++ [cur]).flatten
      ∧ topN (GetScore scorer) aggregate N T = some tops
      ∧ RingInv W scorer N T w' (closed.tail ++ [cur]) [] := by
  obtain ⟨hwd, hsc, hN, hT, hlen, hrf, hcur, hcl, hclosed, c, hc, hf, hB⟩ := H
  subst hwd
  obtain ⟨tops, htop, hroll⟩ := Roll_eq GetScore w hlen hrf
  have hne : closed ≠ [] := by
    intro hh; rw [hh] at hcl; simp at hcl; omega
  have hlslen : (closed.tail ++ [cur]).length = w.width := by
    simp only [List.length_append, List.length_tail, List.length_singleton, hcl]; omega
  generalize hps : (List.range' 1 w.width).map (slot w) = ps at htop hroll
  generalize hws0 : w.windows.set w.readFrom (GetKeyCounter.bucket (NewBucketGetKeyCounter 32))
    = ws0 at htop hroll
  have hpslen : ps.length = w.width := by rw [← hps]; simp
  have hpsget : ∀ i, i < w.width → ps.getD i 0 = (w.readFrom + (1 + i)) % (w.width + 1) := by
    intro i hi
    rw [← hps, List.getD_eq_getElem _ _ (by simpa using hi)]
    simp [slot]
  have hpsmem : ∀ p ∈ ps, ∃ i, i < w.width ∧ p = (w.readFrom + (1 + i)) % (w.width + 1) := by
    intro p hp
    obtain ⟨i, hi, rfl⟩ := List.getElem_of_mem hp
    refine ⟨i, by omega, ?_⟩
    rw [← hpsget i (by omega), List.getD_eq_getElem _ _ hi]
  have hrfps : w.readFrom ∉ ps := by
    intro hp
    obtain ⟨i, hi, heq⟩ := hpsmem _ hp
    have := slot_ne w.readFrom (w.width + 1) 0 (1 + i) hrf (by omega) (by omega) (by omega)
    rw [Nat.add_zero, Nat.mod_eq_of_lt hrf] at this
    exact this heq
  have hpsnd : ps.Nodup := by
    rw [← hps]
    apply List.Nodup.map_on _ (List.nodup_range' 1 w.width)
    intro x hx y hy hxy
    rw [List.mem_range'_1] at hx hy
    by_contra hne'
    exact slot_ne w.readFrom (w.width + 1) x y hrf (by omega) (by omega) hne' hxy
  have hall : List.Forall₂ (fun p l => ∃ c, ws0[p]? = some c ∧ SnapshotIs c l) ps
      (closed.tail ++ [cur]) := by
    apply forall₂_of_getD ps (closed.tail ++ [cur]) 0 [] (by rw [hpslen, hlslen])
    intro i hi
    rw [hpslen] at hi
    rw [hpsget i hi, getD_tail_append closed cur [] i hne, hcl]
    have hfr : ws0[(w.readFrom + (1 + i)) % (w.width + 1)]?
        = w.windows[(w.readFrom + (1 + i)) % (w.width + 1)]? := by
      rw [← hws0]
      apply List.getElem?_set_ne
      have := slot_ne w.readFrom (w.width + 1) 0 (1 + i) hrf (by omega) (by omega) (by omega)
      rw [Nat.add_zero, Nat.mod_eq_of_lt hrf] at this
      exact this
    rw [hfr]
    by_cases hi1 : i + 1 < w.width
    · rw [if_pos hi1]
      have := hclosed (i + 1) hi1
      rw [Nat.add_comm 1 i]
      exact this
    · have hi2 : i + 1 = w.width := by omega
      rw [if_neg hi1, if_pos hi2]
      have : 1 + i = w.width := by omega
      rw [this, ← hcur]
      exact ⟨GetKeyCounter.bucket c, hc, SnapshotIs_bucket c cur hf hB⟩
  obtain ⟨htal, hpost⟩ := visit_tallies ps (closed.tail ++ [cur]) ws0 [] [] hpsnd hall Tallies_nil
  rw [List.nil_append] at htal
  refine ⟨tops, _, _, hroll, htal, ?_, ?_⟩
  · rw [← hsc, ← hN, ← hT]; exact htop
  · refine ⟨rfl, hsc, hN, hT, ?_, ?_, ?_, hlslen, ?_, ?_⟩
    · simp only [rolled, visit_length]
      rw [← hws0, List.length_set, hlen]
    · exact Nat.mod_lt _ (by omega)
    · show w.readFrom = ((w.readFrom + 1) % (w.width + 1) + w.width) % (w.width + 1)
      rw [Nat.mod_add_mod, Nat.add_assoc, Nat.add_comm 1 w.width, Nat.add_mod_right,
        Nat.mod_eq_of_lt hrf]
    · intro i hi
      show ∃ c, (visit ps ws0 []).1[((w.readFrom + 1) % (w.width + 1) + i) % (w.width + 1)]?
        = some c ∧ SnapshotIs c ((closed.tail ++ [cur]).getD i [])
      rw [Nat.mod_add_mod, Nat.add_assoc, ← hpsget i hi]
      exact forall₂_getD ps (closed.tail ++ [cur]) 0 [] hpost i (by rw [hpslen]; exact hi)
    · refine ⟨NewBucketGetKeyCounter 32, ?_, rfl, BucketsHold_new fnv1a32 32 (by decide)⟩
      show (visit ps ws0 []).1[w.readFrom]? = _
      rw [visit_frame _ _ _ _ hrfps, ← hws0,
        List.getElem?_set_eq_of_lt _ (by rw [hlen]; exact hrf)]

theorem run_spec {σ : Type} (GetScore : σ → String → Nat) (W : Nat) (hW : 1 ≤ W) (scorer : σ)
    (N : Int) (T : Nat) (trace : List (List (String × Nat))) :
    ∀ (pre : List (List (String × Nat))) (w : SimpleRollingWindows σ),
      RingInv W scorer N T w (lastW W pre) [] →
      ∃ rs w', run GetScore w trace = some (rs, w') ∧ rs.length = trace.length
        ∧ ∀ j, j < trace.length →
            ∃ aggregate, Tallies aggregate (lastW W (pre ++ trace.take (j + 1))).flatten
              ∧ topN (GetScore scorer) aggregate N T = rs[j]? := by
  induction trace with
  | nil =>
    intro pre w _
    exact ⟨[], w, rfl, rfl, fun j hj => absurd hj (by simp)⟩
  | cons incs rest ih =>
    intro pre w H
    obtain ⟨w₁, h1, H1⟩ := RingInv_IncrementAll W scorer N T w (lastW W pre) [] incs H
    rw [List.nil_append] at H1
    obtain ⟨tops, w₂, aggregate, h2, htal, htop, H2⟩ :=
      RingInv_Roll GetScore W hW scorer N T w₁ (lastW W pre) incs H1
    rw [lastW_snoc W hW] at htal H2
    obtain ⟨rs, w₃, h3, hlen, hall⟩ := ih (pre ++ [incs]) w₂ H2
    refine ⟨tops :: rs, w₃, ?_, by simp [hlen], ?_⟩
    · simp only [run, h1, h2, h3]
    · intro j hj
      cases j with
      | zero =>
        refine ⟨aggregate, ?_, by simpa using htop⟩
        simpa using htal
      | succ j =>
        obtain ⟨agg, ha, ht⟩ := hall j (by simpa using hj)
        refine ⟨agg, ?_, by simpa using ht⟩
        simpa [List.append_assoc] using ha

/-- C4: on a ring of width `W ≥ 1` whose first window is a fresh bucket counter (with at
least one bucket), every run of increments and `Roll`s succeeds, and the map that the
`j`-th `Roll` returns is `topN` applied to a map that holds, per key, the sum modulo
`2^64` of the deltas of all increments made during the `W` most recently closed windows,
the one closed by this `Roll` included (`trace[j + 1 - W .. j]`, counting from 0):
increments of older windows have aged out and later increments play no part. With
`W = 4`, increments made before the first `Roll` are in the results of the `Roll`s 1 to 4
and no longer in that of `Roll` 5. -/
theorem roll_returns_recent_windows {σ : Type} (GetScore : σ → String → Nat) (scorer : σ)
    (buckets : Int) (W : Nat) (N : Int) (T : Nat) (hW : 1 ≤ W)
    (hB : 1 ≤ (NewBucketGetKeyCounter buckets).bucketing.buckets)
    (trace : List (List (String × Nat))) :
    (∃ rs w,
      run GetScore
          (NewSimpleRollingWindows scorer
            (fun _ => GetKeyCounter.bucket (NewBucketGetKeyCounter buckets)) W N T) trace
        = some (rs, w)
      ∧ rs.length = trace.length
      ∧ ∀ j, j < trace.length →
          ∃ aggregate,
            Tallies aggregate ((trace.take (j + 1)).drop (j + 1 - W)).flatten
              ∧ topN (GetScore scorer) aggregate N T = rs[j]?)
    ∧ (run dumbKeyScorer.GetScore testRing
          [[("some_key", 1), ("some_key", 1), ("another_key", 1)], [], [], [], []]).map Prod.fst
        = some [[("some_key", 2), ("another_key", 1)], [("some_key", 2), ("another_key", 1)],
            [("some_key", 2), ("another_key", 1)], [("some_key", 2), ("another_key", 1)], []] := by
  refine ⟨?_, by decide⟩
  obtain ⟨rs, w, hrun, hlen, hall⟩ := run_spec GetScore W hW scorer N T trace [] _
    (RingInv_new scorer buckets W N T hB)
  refine ⟨rs, w, hrun, hlen, ?_⟩
  intro j hj
  obtain ⟨agg, ha, ht⟩ := hall j hj
  refine ⟨agg, ?_, ht⟩
  rw [List.nil_append, flatten_lastW, List.length_take, Nat.min_eq_left (by omega)] at ha
  exact ha

/-- C4, on the run of `TestSimpleRollingWindows`: three increments, a `Roll`, the same
increments, and four more `Roll`s. -/
theorem roll_returns_recent_windows_witness :
    1 ≤ 4 ∧ 1 ≤ (NewBucketGetKeyCounter 1).bucketing.buckets
      ∧ ∃ rs w,
          run dumbKeyScorer.GetScore
              (NewSimpleRollingWindows ()
                (fun _ => GetKeyCounter.bucket (NewBucketGetKeyCounter 1)) 4 3 1)
              [[("some_key", 1), ("some_key", 1), ("another_key", 1)],
                [("some_key", 1), ("some_key", 1), ("another_key", 1)], [], [], []]
            = some (rs, w)
          ∧ rs.length = ([[("some_key", 1), ("some_key", 1), ("another_key", 1)],
                [("some_key", 1), ("some_key", 1), ("another_key", 1)], [], [], []] :
                List (List (String × Nat))).length
          ∧ ∀ j, j < ([[("some_key", 1), ("some_key", 1), ("another_key", 1)],
                [("some_key", 1), ("some_key", 1), ("another_key", 1)], [], [], []] :
                List (List (String × Nat))).length →
              ∃ aggregate,
                Tallies aggregate
                    ((([[("some_key", 1), ("some_key", 1), ("another_key", 1)],
                      [("some_key", 1), ("some_key", 1), ("another_key", 1)], [], [], []] :
                      List (List (String × Nat))).take (j + 1)).drop (j + 1 - 4)).flatten
                  ∧ topN (dumbKeyScorer.GetScore ()) aggregate 3 1 = rs[j]? :=
  ⟨by decide, by decide,
    (roll_returns_recent_windows dumbKeyScorer.GetScore () 1 4 3 1 (by decide) (by decide)
      [[("some_key", 1), ("some_key", 1), ("another_key", 1)],
        [("some_key", 1), ("some_key", 1), ("another_key", 1)], [], [], []]).1⟩

/-- The run of `TestSimpleRollingWindows`, evaluated: the five `Roll`s return the maps
that the test expects of the first, second and fifth. -/
theorem testRing_run :
    (run dumbKeyScorer.GetScore testRing
        [[("some_key", 1), ("some_key", 1), ("another_key", 1)],
          [("some_key", 1), ("some_key", 1), ("another_key", 1)], [], [], []]).map Prod.fst
      = some [[("some_key", 2), ("another_key", 1)], [("some_key", 4), ("another_key", 2)],
          [("some_key", 4), ("another_key", 2)], [("some_key", 4), ("another_key", 2)],
          [("some_key", 2), ("another_key", 1)]] := by
  decide

/-! ## The key scorer -/

namespace RuneTrie

theorem Get_Put (t : RuneTrie) (key : String) (v : scoreEntry) (key' : String) :
    Get (Put t key v) key' = if key = key' then some v else Get t key' := by
  induction t with
  | nil => simp [Put, Get]
  | cons e t ih =>
    obtain ⟨k₀, v₀⟩ := e
    by_cases h : k₀ = key
    · subst h
      by_cases h' : k₀ = key' <;> simp [Put, Get, h']
    · by_cases h' : k₀ = key'
      · subst h'
        have : ¬ key = k₀ := fun hh => h hh.symm
        simp [Put, Get, h, this]
      · simp [Put, Get, h, h', ih]

theorem Get_Delete (t : RuneTrie) (key key' : String) :
    Get (Delete t key) key' = if key = key' then none else Get t key' := by
  induction t with
  | nil => simp [Delete, Get]
  | cons e t ih =>
    obtain ⟨k₀, v₀⟩ := e
    unfold Delete at ih ⊢
    by_cases h : k₀ = key
    · subst h
      by_cases h' : k₀ = key'
      · subst h'
        simpa [List.filter_cons, Get] using ih
      · simp [List.filter_cons, Get, h', ih]
    · by_cases h' : k₀ = key'
      · subst h'
        have : ¬ key = k₀ := fun hh => h hh.symm
        simp [List.filter_cons, Get, h, this]
      · simp [List.filter_cons, Get, h, h', ih]

theorem Get_foldl_Delete (keys : List String) (t : RuneTrie) (key' : String) :
    Get (keys.foldl (fun t k => Delete t k) t) key'
      = if key' ∈ keys then none else Get t key' := by
  induction keys generalizing t with
  | nil => simp
  | cons k keys ih =>
    rw [List.foldl_cons, ih, Get_Delete]
    by_cases h1 : key' ∈ keys
    · simp [h1]
    · by_cases h2 : k = key'
      · subst h2; simp
      · have : ¬ key' = k := fun hh => h2 hh.symm
        simp [h1, h2, this]

end RuneTrie

namespace SimpleKeyScorer

theorem GetScore_SetScore (s : SimpleKeyScorer) (key : String) (bytes : Nat) (exptime now : Int)
    (key' : String) :
    (s.SetScore key bytes exptime).GetScore now key'
      = if key = key' then (if exptime = 0 ∨ exptime > now then bytes else s.minBytes)
        else s.GetScore now key' := by
  unfold GetScore SetScore
  simp only [RuneTrie.Get_Put]
  by_cases h : key = key'
  · simp [h]
  · simp [h]

theorem GetScore_DelScore (s : SimpleKeyScorer) (keys : List String) (now : Int)
    (key' : String) :
    (s.DelScore keys).GetScore now key'
      = if key' ∈ keys then s.minBytes else s.GetScore now key' := by
  unfold GetScore DelScore
  simp only [RuneTrie.Get_foldl_Delete]
  by_cases h : key' ∈ keys
  · simp [h]
  · simp [h]

theorem mem_sweep (s : SimpleKeyScorer) (now : Int) (key : String) :
    key ∈ s.sweep now ↔ ∃ e, (key, e) ∈ s.trie ∧ e.exptime > 0 ∧ e.exptime ≤ now := by
  unfold sweep
  simp only [List.mem_map, List.mem_filter, decide_eq_true_eq, Prod.exists]
  constructor
  · rintro ⟨k, e, ⟨hm, he⟩, rfl⟩
    exact ⟨e, hm, he⟩
  · rintro ⟨e, hm, he⟩
    exact ⟨key, e, ⟨hm, he⟩, rfl⟩

end SimpleKeyScorer

/-- C12: for a `SimpleKeyScorer` with floor `minBytes`: a new scorer gives `minBytes`
for every key, and so does any scorer for a key that has no entry; after
`SetScore(k, b, 0)` `GetScore(k)` is `b` at every time; a second `SetScore(k, b2, 0)`
makes it `b2`; after `DelScore` of `k` it is `minBytes` again; and `SetScore` and
`DelScore` leave `GetScore` of every other key, and the floor, as they were. -/
theorem SimpleKeyScorer.score_table (s : SimpleKeyScorer) (k : String) (b b2 : Nat) :
    (∀ minBytes now key, (NewSimpleKeyScorer minBytes).GetScore now key = minBytes)
      ∧ (∀ now, s.trie.Get k = none → s.GetScore now k = s.minBytes)
      ∧ (∀ now, (s.SetScore k b 0).GetScore now k = b)
      ∧ (∀ now, ((s.SetScore k b 0).SetScore k b2 0).GetScore now k = b2)
      ∧ (∀ now keys, k ∈ keys → (s.DelScore keys).GetScore now k = s.minBytes)
      ∧ (∀ now exptime k', k' ≠ k →
          (s.SetScore k b exptime).GetScore now k' = s.GetScore now k')
      ∧ (∀ now keys k', k' ∉ keys → (s.DelScore keys).GetScore now k' = s.GetScore now k')
      ∧ (∀ exptime, (s.SetScore k b exptime).minBytes = s.minBytes)
      ∧ (∀ keys, (s.DelScore keys).minBytes = s.minBytes) := by
  refine ⟨?_, ?_, ?_, ?_, ?_, ?_, ?_, ?_, ?_⟩
  · intro minBytes now key
    rfl
  · intro now h
    simp [SimpleKeyScorer.GetScore, h]
  · intro now
    rw [SimpleKeyScorer.GetScore_SetScore]
    simp
  · intro now
    rw [SimpleKeyScorer.GetScore_SetScore]
    simp
  · intro now keys hk
    rw [SimpleKeyScorer.GetScore_DelScore, if_pos hk]
  · intro now exptime k' hk
    rw [SimpleKeyScorer.GetScore_SetScore, if_neg (fun h => hk h.symm)]
  · intro now keys k' hk
    rw [SimpleKeyScorer.GetScore_DelScore, if_neg hk]
  · intro exptime
    rfl
  · intro keys
    rfl

/-- C12, on the calls of `TestSimpleKeyScorer`, with the floor 96 and the scores 500 and
1000. -/
theorem SimpleKeyScorer.score_table_witness :
    (NewSimpleKeyScorer 96).GetScore 1700000000 "anything" = 96
      ∧ ((NewSimpleKeyScorer 96).SetScore "some_key" 500 0).GetScore 1700000000 "some_key" = 500
      ∧ (((NewSimpleKeyScorer 96).SetScore "some_key" 500 0).SetScore "some_key" 1000 0).GetScore
          1700000000 "some_key" = 1000
      ∧ ((((NewSimpleKeyScorer 96).SetScore "some_key" 500 0).SetScore "some_key" 1000
          0).DelScore ["some_key"]).GetScore 1700000000 "some_key" = 96 :=
  ⟨(SimpleKeyScorer.score_table (NewSimpleKeyScorer 96) "some_key" 500 1000).1 96 _ _,
    (SimpleKeyScorer.score_table (NewSimpleKeyScorer 96) "some_key" 500 1000).2.2.1 _,
    (SimpleKeyScorer.score_table (NewSimpleKeyScorer 96) "some_key" 500 1000).2.2.2.1 _,
    (SimpleKeyScorer.score_table
      (((NewSimpleKeyScorer 96).SetScore "some_key" 500 0).SetScore "some_key" 1000 0)
      "some_key" 500 1000).2.2.2.2.1 _ ["some_key"] (by decide)⟩

/-- C13: after `SetScore(k, b, exp)` with `exp ≠ 0`, `GetScore(k)` at clock time `now`
is `b` when `exp > now` and `minBytes` when `exp ≤ now`. -/
theorem SimpleKeyScorer.score_expiry (s : SimpleKeyScorer) (k : String) (b : Nat)
    (exp now : Int) (hexp : exp ≠ 0) :
    (exp > now → (s.SetScore k b exp).GetScore now k = b)
      ∧ (exp ≤ now → (s.SetScore k b exp).GetScore now k = s.minBytes) := by
  rw [SimpleKeyScorer.GetScore_SetScore]
  constructor
  · intro h
    simp [h]
  · intro h
    have : ¬ exp > now := by omega
    simp [hexp, this]

/-- C13, on the scenario of the specification: an entry that expires at `now + 1` is
there at `now` and gone at `now + 1` and at `now + 2`. -/
theorem SimpleKeyScorer.score_expiry_witness :
    ((1700000001 : Int) ≠ 0)
      ∧ ((NewSimpleKeyScorer 96).SetScore "k" 1000 1700000001).GetScore 1700000000 "k" = 1000
      ∧ ((NewSimpleKeyScorer 96).SetScore "k" 1000 1700000001).GetScore 1700000001 "k" = 96
      ∧ ((NewSimpleKeyScorer 96).SetScore "k" 1000 1700000001).GetScore 1700000002 "k" = 96 :=
  ⟨by decide,
    (SimpleKeyScorer.score_expiry (NewSimpleKeyScorer 96) "k" 1000 1700000001 1700000000
      (by decide)).1 (by decide),
    (SimpleKeyScorer.score_expiry (NewSimpleKeyScorer 96) "k" 1000 1700000001 1700000001
      (by decide)).2 (by decide),
    (SimpleKeyScorer.score_expiry (NewSimpleKeyScorer 96) "k" 1000 1700000001 1700000002
      (by decide)).2 (by decide)⟩

/-! ## The codec: `parseStore` and `OnCommand` -/

theorem wrapInt64_of_range (x : Int) (h0 : -2 ^ 63 ≤ x) (h1 : x < 2 ^ 63) : wrapInt64 x = x := by
  unfold wrapInt64
  rw [Int.emod_eq_of_lt (by omega) (by omega)]
  omega

theorem parseStore_eq (now : Int) (args : List String) (bytes exptime : Int)
    (hlen : 4 ≤ args.length) (hbytes : Atoi (TrimSpace (args.getD 3 "")) = some bytes)
    (hexp : ParseInt (args.getD 2 "") = some exptime) :
    parseStore now args
      = Except.ok (args.getD 0 "", bytes,
          if exptime > 0 ∧ exptime ≤ MAX_EXPIRE_SECONDS then wrapInt64 (now + exptime)
          else exptime) := by
  have hl : ¬ args.length < 4 := by omega
  simp only [parseStore, hl, if_false, hbytes, hexp]

theorem parseStore_error (now : Int) (args : List String)
    (h : args.length < 4 ∨ Atoi (TrimSpace (args.getD 3 "")) = none
      ∨ ParseInt (args.getD 2 "") = none) :
    parseStore now args = Except.error Error.ErrParse := by
  unfold parseStore
  by_cases hl : args.length < 4
  · rw [if_pos hl]
  · rw [if_neg hl]
    cases hb : Atoi (TrimSpace (args.getD 3 "")) with
    | none => rfl
    | some b =>
      cases he : ParseInt (args.getD 2 "") with
      | none => rfl
      | some e =>
        rcases h with h | h | h
        · exact absurd h hl
        · rw [hb] at h; exact absurd h (by simp)
        · rw [he] at h; exact absurd h (by simp)

/-- C15: at clock time `now` (an `int64` more than 30 days before the end of its range),
on a header with at least 4 arguments whose `bytes` and `exptime` fields are numbers,
`parseStore` returns the key `args[0]`, the integer of `args[3]`, and an expiry that is
the `exptime` of the header when it is 0 or greater than 2592000, and `now + exptime`
when `0 < exptime ≤ 2592000`. -/
theorem parseStore_ok (now : Int) (args : List String) (bytes exptime : Int)
    (hlen : 4 ≤ args.length) (hbytes : Atoi (TrimSpace (args.getD 3 "")) = some bytes)
    (hexp : ParseInt (args.getD 2 "") = some exptime)
    (hnow : -2 ^ 63 ≤ now) (hnow' : now + 2592000 < 2 ^ 63) :
    (exptime = 0 ∨ exptime > 2592000 →
        parseStore now args = Except.ok (args.getD 0 "", bytes, exptime))
      ∧ (0 < exptime ∧ exptime ≤ 2592000 →
        parseStore now args = Except.ok (args.getD 0 "", bytes, now + exptime)) := by
  rw [parseStore_eq now args bytes exptime hlen hbytes hexp]
  constructor
  · intro h
    have hc : ¬ (exptime > 0 ∧ exptime ≤ MAX_EXPIRE_SECONDS) := by
      unfold MAX_EXPIRE_SECONDS; omega
    rw [if_neg hc]
  · intro h
    have hc : exptime > 0 ∧ exptime ≤ MAX_EXPIRE_SECONDS := by
      unfold MAX_EXPIRE_SECONDS; omega
    rw [if_pos hc, wrapInt64_of_range _ (by omega) (by omega)]

/-- C15, on the headers `k 0 0 4`, `k 0 100 4` and `k 0 2592001 4` at the clock time
1700000000. -/
theorem parseStore_ok_witness :
    parseStore 1700000000 ["k", "0", "0", "4"] = Except.ok ("k", 4, 0)
      ∧ parseStore 1700000000 ["k", "0", "100", "4"] = Except.ok ("k", 4, 1700000000 + 100)
      ∧ parseStore 1700000000 ["k", "0", "2592001", "4"] = Except.ok ("k", 4, 2592001) :=
  ⟨(parseStore_ok 1700000000 ["k", "0", "0", "4"] 4 0 (by decide) (by decide) (by decide)
      (by decide) (by decide)).1 (Or.inl rfl),
    (parseStore_ok 1700000000 ["k", "0", "100", "4"] 4 100 (by decide) (by decide) (by decide)
      (by decide) (by decide)).2 (by decide),
    (parseStore_ok 1700000000 ["k", "0", "2592001", "4"] 4 2592001 (by decide) (by decide)
      (by decide) (by decide) (by decide)).1 (Or.inr (by decide))⟩

/-- C16: whatever the arguments, the scanner and the state, and whether or not a store
header parses, `OnCommand` gives the fixed reply of the command with no error, provided
that the function of the eavesdropper that the command calls, if it calls one, returns
on this call: `END\r\n` for GET, GETS, GAT, GATS and STATS, `NOT_STORED\r\n` for SET,
ADD, REPLACE and CAS, `NOT_FOUND\r\n` for DELETE, APPEND, PREPEND, INCR, DECR and
TOUCH, `mc_guardian 0.1\r\n` for VERSION,
`CLIENT_ERROR <ignore eavesdropping error>\r\n` for UNKNOWN; for QUIT it gives no reply
and the error `ErrQuit`. -/
theorem OnCommand_reply {σ : Type} (eavesdropper : AbstractMcrouterEavesdropper σ)
    (now : Int) (args : List String) (scanner : Scanner) (state : σ)
    (hFetch : (eavesdropper.OnFetch args state).isSome)
    (hStore : ∀ key len exptime, parseStore now args = Except.ok (key, len, exptime) →
      (eavesdropper.OnStore key len exptime state).isSome)
    (hDelete : ∀ key rest, args = key :: rest → (eavesdropper.OnDelete key state).isSome) :
    (∀ c ∈ [Command.GET, Command.GETS, Command.GAT, Command.GATS, Command.STATS],
        ∃ r, eavesdropper.OnCommand now c args scanner state = some r
          ∧ r.resp = some "END\r\n" ∧ r.err = none)
      ∧ (∀ c ∈ [Command.SET, Command.ADD, Command.REPLACE, Command.CAS],
        ∃ r, eavesdropper.OnCommand now c args scanner state = some r
          ∧ r.resp = some "NOT_STORED\r\n" ∧ r.err = none)
      ∧ (∀ c ∈ [Command.DELETE, Command.APPEND, Command.PREPEND, Command.INCR, Command.DECR,
            Command.TOUCH],
        ∃ r, eavesdropper.OnCommand now c args scanner state = some r
          ∧ r.resp = some "NOT_FOUND\r\n" ∧ r.err = none)
      ∧ (∃ r, eavesdropper.OnCommand now Command.VERSION args scanner state = some r
          ∧ r.resp = some "mc_guardian 0.1\r\n" ∧ r.err = none)
      ∧ (∃ r, eavesdropper.OnCommand now Command.UNKNOWN args scanner state = some r
          ∧ r.resp = some "CLIENT_ERROR <ignore eavesdropping error>\r\n" ∧ r.err = none)
      ∧ (∃ r, eavesdropper.OnCommand now Command.QUIT args scanner state = some r
          ∧ r.resp = none ∧ r.err = some Error.ErrQuit) := by
  have fetch : ∀ c, (c = Command.GET ∨ c = Command.GETS ∨ c = Command.GAT ∨ c = Command.GATS) →
      ∃ r, eavesdropper.OnCommand now c args scanner state = some r
        ∧ r.resp = some "END\r\n" ∧ r.err = none := by
    intro c hc
    obtain ⟨s', hs'⟩ := Option.isSome_iff_exists.mp hFetch
    rcases hc with rfl | rfl | rfl | rfl <;>
      exact ⟨⟨some End, none, scanner, s'⟩,
        by simp only [AbstractMcrouterEavesdropper.OnCommand, hs'], rfl, rfl⟩
  have store : ∀ c, (c = Command.SET ∨ c = Command.ADD ∨ c = Command.REPLACE ∨ c = Command.CAS) →
      ∃ r, eavesdropper.OnCommand now c args scanner state = some r
        ∧ r.resp = some "NOT_STORED\r\n" ∧ r.err = none := by
    intro c hc
    cases hp : parseStore now args with
    | error e =>
      rcases hc with rfl | rfl | rfl | rfl <;>
        exact ⟨⟨some NotStored, none, scanner, state⟩,
          by simp only [AbstractMcrouterEavesdropper.OnCommand, hp], rfl, rfl⟩
    | ok v =>
      obtain ⟨key, bytes, exptime⟩ := v
      obtain ⟨s', hs'⟩ := Option.isSome_iff_exists.mp (hStore key bytes exptime hp)
      rcases hc with rfl | rfl | rfl | rfl <;>
        exact ⟨⟨some NotStored, none, (skipN scanner (wrapInt64 (bytes + 2))).2, s'⟩,
          by simp only [AbstractMcrouterEavesdropper.OnCommand, hp, hs'], rfl, rfl⟩
  have delete : ∃ r, eavesdropper.OnCommand now Command.DELETE args scanner state = some r
      ∧ r.resp = some "NOT_FOUND\r\n" ∧ r.err = none := by
    cases args with
    | nil => exact ⟨_, rfl, rfl, rfl⟩
    | cons key rest =>
      obtain ⟨s', hs'⟩ := Option.isSome_iff_exists.mp (hDelete key rest rfl)
      exact ⟨⟨some NotFound, none, scanner, s'⟩,
        by simp only [AbstractMcrouterEavesdropper.OnCommand, hs'], rfl, rfl⟩
  refine ⟨?_, ?_, ?_, ⟨_, rfl, rfl, rfl⟩, ⟨_, rfl, rfl, rfl⟩, ⟨_, rfl, rfl, rfl⟩⟩
  · intro c hc
    simp only [List.mem_cons, List.mem_singleton, List.not_mem_nil, or_false] at hc
    rcases hc with h | h | h | h | h
    · exact fetch c (Or.inl h)
    · exact fetch c (Or.inr (Or.inl h))
    · exact fetch c (Or.inr (Or.inr (Or.inl h)))
    · exact fetch c (Or.inr (Or.inr (Or.inr h)))
    · subst h; exact ⟨_, rfl, rfl, rfl⟩
  · intro c hc
    simp only [List.mem_cons, List.mem_singleton, List.not_mem_nil, or_false] at hc
    exact store c hc
  · intro c hc
    simp only [List.mem_cons, List.mem_singleton, List.not_mem_nil, or_false] at hc
    rcases hc with h | h | h | h | h | h
    · subst h; exact delete
    all_goals subst h; exact ⟨_, rfl, rfl, rfl⟩

/-! ## The codec: `parseCommand` -/

theorem splitSpaces_ne_nil (l cur : List Char) : splitSpaces l cur ≠ [] := by
  induction l generalizing cur with
  | nil => simp [splitSpaces]
  | cons c rest ih =>
    unfold splitSpaces
    split
    · simp
    · exact ih _

theorem intercalate_cons_of_ne_nil (sep a : List Char) (l : List (List Char)) (h : l ≠ []) :
    List.intercalate sep (a :: l) = a ++ sep ++ List.intercalate sep l := by
  cases l with
  | nil => exact absurd rfl h
  | cons b l => simp [List.intercalate, List.intersperse]

theorem intercalate_splitSpaces (l cur : List Char) :
    List.intercalate [' '] ((splitSpaces l cur).map String.data) = cur.reverse ++ l := by
  induction l generalizing cur with
  | nil => simp [splitSpaces, List.intercalate]
  | cons c rest ih =>
    unfold splitSpaces
    split
    · rename_i hc
      rw [List.map_cons, intercalate_cons_of_ne_nil _ _ _
        (by simpa using splitSpaces_ne_nil rest []), ih]
      simp [hc]
    · rw [ih]
      simp

theorem splitSpaces_no_space (l cur : List Char) (hcur : ' ' ∉ cur) :
    ∀ t ∈ splitSpaces l cur, ' ' ∉ t.data := by
  induction l generalizing cur with
  | nil =>
    intro t ht
    simp only [splitSpaces, List.mem_singleton] at ht
    subst ht
    simpa using hcur
  | cons c rest ih =>
    intro t ht
    unfold splitSpaces at ht
    split at ht
    · rcases List.mem_cons.mp ht with h | h
      · subst h; simpa using hcur
      · exact ih [] (by simp) t h
    · rename_i hc
      refine ih (c :: cur) ?_ t ht
      intro hm
      rcases List.mem_cons.mp hm with h | h
      · exact hc h.symm
      · exact hcur h

theorem getD_zero_of_head? (l : List String) (x : String) (h : l.head? = some x) :
    l.getD 0 "" = x := by
  cases l with
  | nil => simp at h
  | cons a l =>
    simp only [List.head?_cons, Option.some.injEq] at h
    simp [h]

/-- C17 as stated fails: for `version`, `quit` and an unknown first token the argument
list is empty, not the remaining tokens. -/
theorem parseCommand_counterexample :
    parseCommand "version 1.0" = some (Command.VERSION, [], none)
      ∧ parseCommand "flush_all 0" = some (Command.UNKNOWN, [], none)
      ∧ (Split "version 1.0").drop 1 = ["1.0"] ∧ (Split "flush_all 0").drop 1 = ["0"] := by
  decide

/-- C17, amended: `parseCommand` splits the line on single spaces (the sections hold no
space and, joined by single spaces, give the line back); when the first section is
`get`, `gets`, `set`, `add`, `replace`, `delete`, `cas`, `append`, `prepend`, `incr`,
`decr`, `touch` or `stats` it returns the command of that name with the
remaining sections as arguments; for `gat` and `gats` followed by at least one section,
the command with the sections after the first argument (the exptime); for `version` and
`quit` the command with no argument; and for every other first section `UNKNOWN` with no
argument; each with no error. -/
theorem parseCommand_spec (line : String) :
    List.intercalate [' '] ((Split line).map String.data) = line.data
      ∧ (∀ t ∈ Split line, ' ' ∉ t.data)
      ∧ (∀ p ∈ [("get", Command.GET), ("gets", Command.GETS), ("set", Command.SET),
            ("add", Command.ADD), ("replace", Command.REPLACE), ("delete", Command.DELETE),
            ("cas", Command.CAS), ("append", Command.APPEND), ("prepend", Command.PREPEND),
            ("incr", Command.INCR), ("decr", Command.DECR), ("touch", Command.TOUCH),
            ("stats", Command.STATS)],
          (Split line).head? = some p.1 →
            parseCommand line = some (p.2, (Split line).drop 1, none))
      ∧ (∀ p ∈ [("gat", Command.GAT), ("gats", Command.GATS)],
          (Split line).head? = some p.1 → 2 ≤ (Split line).length →
            parseCommand line = some (p.2, (Split line).drop 2, none))
      ∧ (∀ p ∈ [("version", Command.VERSION), ("quit", Command.QUIT)],
          (Split line).head? = some p.1 → parseCommand line = some (p.2, [], none))
      ∧ (∀ first, (Split line).head? = some first →
          first ∉ ["get", "gets", "gat", "gats", "set", "add", "replace", "delete", "cas",
            "append", "prepend", "incr", "decr", "touch", "stats", "version", "quit"] →
          parseCommand line = some (Command.UNKNOWN, [], none)) := by
  have hne : ¬ (Split line).length < 1 := by
    have := splitSpaces_ne_nil line.data []
    unfold Split
    cases h : splitSpaces line.data [] with
    | nil => exact absurd h this
    | cons a l => simp
  refine ⟨?_, ?_, ?_, ?_, ?_, ?_⟩
  · simpa [Split] using intercalate_splitSpaces line.data []
  · exact splitSpaces_no_space line.data [] (by simp)
  · intro p hp hh
    have h0 := getD_zero_of_head? _ _ hh
    simp only [List.mem_cons, List.mem_singleton, List.not_mem_nil, or_false] at hp
    rcases hp with rfl | rfl | rfl | rfl | rfl | rfl | rfl | rfl | rfl | rfl | rfl | rfl | rfl <;>
      (simp only [parseCommand, hne, if_false]; rw [h0]; rfl)
  · intro p hp hh h2
    have h0 := getD_zero_of_head? _ _ hh
    have h2' : ¬ (Split line).length < 2 := by omega
    simp only [List.mem_cons, List.mem_singleton, List.not_mem_nil, or_false] at hp
    rcases hp with rfl | rfl <;>
      (simp only [parseCommand, hne, if_false, h2']; rw [h0]; rfl)
  · intro p hp hh
    have h0 := getD_zero_of_head? _ _ hh
    simp only [List.mem_cons, List.mem_singleton, List.not_mem_nil, or_false] at hp
    rcases hp with rfl | rfl <;>
      (simp only [parseCommand, hne, if_false]; rw [h0]; rfl)
  · intro first hh hnot
    have h0 := getD_zero_of_head? _ _ hh
    simp only [List.mem_cons, List.mem_singleton, List.not_mem_nil, or_false, not_or] at hnot
    obtain ⟨a1, a2, a3, a4, a5, a6, a7, a8, a9, a10, a11, a12, a13, a14, a15, a16, a17⟩ := hnot
    simp only [parseCommand, hne, if_false]
    rw [h0]
    simp only [a1, a2, a3, a4, a5, a6, a7, a8, a9, a10, a11, a12, a13, a14, a15, a16, a17,
      if_false]

/-- C17, amended, on the lines `gat 10 a b` and `get a b`. -/
theorem parseCommand_spec_witness :
    (Split "gat 10 a b").head? = some "gat" ∧ 2 ≤ (Split "gat 10 a b").length
      ∧ parseCommand "gat 10 a b" = some (Command.GAT, ["a", "b"], none)
      ∧ parseCommand "get a b" = some (Command.GET, ["a", "b"], none) :=
  ⟨by decide, by decide,
    (parseCommand_spec "gat 10 a b").2.2.2.1 ("gat", Command.GAT) (by decide) (by decide)
      (by decide),
    (parseCommand_spec "get a b").2.2.1 ("get", Command.GET) (by decide) (by decide)⟩

/-! ## The codec: the rolling-window eavesdropper and the payload of a store command -/

theorem Increment_scorer {σ : Type} (w w' : SimpleRollingWindows σ) (key : String) (delta : Nat)
    (h : w.Increment key delta = some w') : w'.scorer = w.scorer := by
  unfold SimpleRollingWindows.Increment at h
  split at h
  · simp at h
  · split at h
    · simp at h
    · simp only [Option.some.injEq] at h
      subst h
      rfl

theorem IncrementAll_scorer {σ : Type} (incs : List (String × Nat))
    (w w' : SimpleRollingWindows σ) (h : w.IncrementAll incs = some w') :
    w'.scorer = w.scorer := by
  induction incs generalizing w with
  | nil =>
    simp only [SimpleRollingWindows.IncrementAll, Option.some.injEq] at h
    rw [← h]
  | cons e incs ih =>
    obtain ⟨key, delta⟩ := e
    simp only [SimpleRollingWindows.IncrementAll] at h
    cases h1 : w.Increment key delta with
    | none => rw [h1] at h; simp at h
    | some w₁ =>
      rw [h1] at h
      rw [ih w₁ h, Increment_scorer w w₁ key delta h1]

theorem RollingWindowsMcrouterEavesdropper.OnFetch_eq {σ : Type} (keys : List String)
    (eavesdropper : RollingWindowsMcrouterEavesdropper σ) :
    eavesdropper.OnFetch keys
      = (eavesdropper.rollingWindows.IncrementAll (keys.map (fun k => (k, 1)))).map
          (fun w => { eavesdropper with rollingWindows := w }) := by
  induction keys generalizing eavesdropper with
  | nil => rfl
  | cons key rest ih =>
    simp only [RollingWindowsMcrouterEavesdropper.OnFetch, List.map_cons,
      SimpleRollingWindows.IncrementAll]
    cases h : eavesdropper.rollingWindows.Increment key 1 with
    | none => rfl
    | some w =>
      simp only []
      rw [ih]

/-- C18: through the rolling-window eavesdropper, a fetch command (GET, GETS, GAT, GATS)
with the keys `args` makes the calls `Increment(key, 1)` of the ring, one for each key
listed and in their order, each of which goes to the window at `current`, and leaves the
scorer as it is; a store command whose header parses calls
`SetScore(key, uint64(bytes), exptime)` and leaves the windows as they are; DELETE calls
`DelScore` on its first argument and leaves the windows as they are; and every other
command, like a store command whose header does not parse and a DELETE without argument,
leaves the whole state as it is. -/
theorem eavesdropper_effects {σ : Type} (eavesdropper : RollingWindowsMcrouterEavesdropper σ)
    (now : Int) (args : List String) (scanner : Scanner) :
    (∀ c ∈ [Command.GET, Command.GETS, Command.GAT, Command.GATS],
        (NewRollingWindowsMcrouterEavesdropper σ).OnCommand now c args scanner eavesdropper
          = (eavesdropper.rollingWindows.IncrementAll (args.map (fun k => (k, 1)))).map
              (fun w => ⟨some End, none, scanner, { eavesdropper with rollingWindows := w }⟩))
      ∧ (∀ incs w, eavesdropper.rollingWindows.IncrementAll incs = some w →
          w.scorer = eavesdropper.rollingWindows.scorer)
      ∧ (∀ c ∈ [Command.SET, Command.ADD, Command.REPLACE, Command.CAS],
          ∀ key bytes exptime, parseStore now args = Except.ok (key, bytes, exptime) →
            (NewRollingWindowsMcrouterEavesdropper σ).OnCommand now c args scanner eavesdropper
              = (eavesdropper.keyScorer.SetScore eavesdropper.rollingWindows.scorer key
                  (toUint64 bytes) exptime).map
                  (fun s => ⟨some NotStored, none, (skipN scanner (wrapInt64 (bytes + 2))).2,
                    { eavesdropper with
                      rollingWindows := { eavesdropper.rollingWindows with scorer := s } }⟩))
      ∧ (∀ key rest, args = key :: rest →
          (NewRollingWindowsMcrouterEavesdropper σ).OnCommand now Command.DELETE args scanner
              eavesdropper
            = (eavesdropper.keyScorer.DelScore eavesdropper.rollingWindows.scorer [key]).map
                (fun s => ⟨some NotFound, none, scanner,
                  { eavesdropper with
                    rollingWindows := { eavesdropper.rollingWindows with scorer := s } }⟩))
      ∧ (∀ c ∈ [Command.APPEND, Command.PREPEND, Command.INCR, Command.DECR, Command.TOUCH,
            Command.VERSION, Command.STATS, Command.QUIT, Command.UNKNOWN],
          ∃ r, (NewRollingWindowsMcrouterEavesdropper σ).OnCommand now c args scanner eavesdropper
              = some r ∧ r.state = eavesdropper ∧ r.scanner = scanner)
      ∧ (∀ c ∈ [Command.SET, Command.ADD, Command.REPLACE, Command.CAS],
          ∀ e, parseStore now args = Except.error e →
            ∃ r, (NewRollingWindowsMcrouterEavesdropper σ).OnCommand now c args scanner
                eavesdropper = some r ∧ r.state = eavesdropper ∧ r.scanner = scanner)
      ∧ (args = [] →
          ∃ r, (NewRollingWindowsMcrouterEavesdropper σ).OnCommand now Command.DELETE args scanner
              eavesdropper = some r ∧ r.state = eavesdropper ∧ r.scanner = scanner) := by
  refine ⟨?_, ?_, ?_, ?_, ?_, ?_, ?_⟩
  · intro c hc
    simp only [List.mem_cons, List.mem_singleton, List.not_mem_nil, or_false] at hc
    have key : (NewRollingWindowsMcrouterEavesdropper σ).OnFetch args eavesdropper
        = (eavesdropper.rollingWindows.IncrementAll (args.map (fun k => (k, 1)))).map
          (fun w => { eavesdropper with rollingWindows := w }) :=
      RollingWindowsMcrouterEavesdropper.OnFetch_eq args eavesdropper
    rcases hc with rfl | rfl | rfl | rfl <;>
      (simp only [AbstractMcrouterEavesdropper.OnCommand, key]
       cases eavesdropper.rollingWindows.IncrementAll (args.map (fun k => (k, 1))) <;> rfl)
  · intro incs w h
    exact IncrementAll_scorer incs _ w h
  · intro c hc key bytes exptime hp
    simp only [List.mem_cons, List.mem_singleton, List.not_mem_nil, or_false] at hc
    have hs : (NewRollingWindowsMcrouterEavesdropper σ).OnStore key bytes exptime eavesdropper
        = eavesdropper.OnStore key bytes exptime := rfl
    rcases hc with rfl | rfl | rfl | rfl <;>
      (simp only [AbstractMcrouterEavesdropper.OnCommand, hp, hs,
         RollingWindowsMcrouterEavesdropper.OnStore]
       cases eavesdropper.keyScorer.SetScore eavesdropper.rollingWindows.scorer key
         (toUint64 bytes) exptime <;> rfl)
  · intro key rest hargs
    subst hargs
    have hd : (NewRollingWindowsMcrouterEavesdropper σ).OnDelete key eavesdropper
        = eavesdropper.OnDelete key := rfl
    simp only [AbstractMcrouterEavesdropper.OnCommand, hd,
      RollingWindowsMcrouterEavesdropper.OnDelete]
    cases eavesdropper.keyScorer.DelScore eavesdropper.rollingWindows.scorer [key] <;> rfl
  · intro c hc
    simp only [List.mem_cons, List.mem_singleton, List.not_mem_nil, or_false] at hc
    rcases hc with rfl | rfl | rfl | rfl | rfl | rfl | rfl | rfl | rfl <;>
      exact ⟨_, rfl, rfl, rfl⟩
  · intro c hc e hp
    simp only [List.mem_cons, List.mem_singleton, List.not_mem_nil, or_false] at hc
    rcases hc with rfl | rfl | rfl | rfl <;>
      exact ⟨⟨some NotStored, none, scanner, eavesdropper⟩,
        by simp only [AbstractMcrouterEavesdropper.OnCommand, hp], rfl, rfl⟩
  · intro hargs
    subst hargs
    exact ⟨_, rfl, rfl, rfl⟩

/-! ## The codec: the payload of a store command -/

theorem bytesOf_CRLF : bytesOf CRLF = [13, 10] := by decide

theorem IndexAny_append (payload rest : List UInt8) (b : UInt8) (chars : List UInt8)
    (h : ∀ x ∈ payload, x ∉ chars) (hb : b ∈ chars) :
    IndexAny (payload ++ b :: rest) chars = some payload.length := by
  induction payload with
  | nil => simp [IndexAny, hb]
  | cons x xs ih =>
    have hx : x ∉ chars := h x (List.mem_cons_self _ _)
    have hxs : ∀ y ∈ xs, y ∉ chars := fun y hy => h y (List.mem_cons_of_mem _ hy)
    simp [IndexAny, hx, ih hxs]

theorem Scan_line (payload rest : List UInt8) (token : List UInt8)
    (h : ∀ x ∈ payload, x ≠ 13 ∧ x ≠ 10) :
    Scanner.Scan { buf := payload ++ 13 :: 10 :: rest, token := token, done := false, err := none }
      = (true, { buf := rest, token := payload, done := false, err := none }) := by
  have hidx : IndexAny (payload ++ 13 :: 10 :: rest) (bytesOf CRLF) = some payload.length := by
    apply IndexAny_append
    · intro x hx
      rw [bytesOf_CRLF]
      have := h x hx
      simp [this.1, this.2]
    · rw [bytesOf_CRLF]; simp
  have hlen : ¬ (payload ++ 13 :: 10 :: rest).length = 0 := by simp
  have hadv : ¬ payload.length + 2 > (payload ++ 13 :: 10 :: rest).length := by
    simp only [List.length_append, List.length_cons]; omega
  have hdrop : (payload ++ 13 :: 10 :: rest).drop (payload.length + 2) = rest := by
    rw [show payload ++ 13 :: 10 :: rest = (payload ++ [13, 10]) ++ rest by simp]
    rw [List.drop_append_of_le_length (by simp)]
    simp
  have htake : (payload ++ 13 :: 10 :: rest).take payload.length = payload := by
    rw [List.take_append_of_le_length (le_refl _)]
    simp
  simp only [Scanner.Scan, scanCRLF, hidx, hlen, and_false, if_false, hadv, hdrop, htake,
    Bool.false_eq_true]

/-- The payload of a store command that holds no CR and no LF byte is skipped as the
protocol wants: `skipN`, asked for the length of the payload and 2, takes the payload
and its CRLF and nothing else (on a scanner without a bound on the length of a
token). -/
theorem skipN_plain_payload (payload rest : List UInt8)
    (h : ∀ x ∈ payload, x ≠ 13 ∧ x ≠ 10) :
    skipN (Scanner.new (payload ++ 13 :: 10 :: rest)) ((payload.length : Int) + 2)
      = (none, { buf := rest, token := payload, done := false, err := none }) := by
  have hs := Scan_line payload rest [] h
  have hw : wrapInt64 ((payload.length : Int) + 2 - ((payload.length : Int) + 2)) = 0 := by
    rw [sub_self]; rfl
  simp only [skipN, skipNLoop, Scanner.new, hs, if_true, hw, lt_irrefl, if_false]

/-- C19, refuted by evaluation: the session receives `set k 0 0 4`, the 4 payload bytes
`abc` and LF, the CRLF that ends the payload, and the line `get x`. The header parses
with the byte count 4, so 6 further bytes are to be consumed; `skipN` takes 7 and
returns `ErrParse`, which `OnCommand` drops, and the next token is scanned from `et x`. -/
theorem store_payload_desync :
    (Scanner.new (bytesOf "set k 0 0 4\r\nabc\n\r\nget x\r\n")).Scan
        = (true, { buf := bytesOf "abc\n\r\nget x\r\n", token := bytesOf "set k 0 0 4",
                   done := false, err := none })
      ∧ parseCommand "set k 0 0 4" = some (Command.SET, ["k", "0", "0", "4"], none)
      ∧ parseStore 1700000000 ["k", "0", "0", "4"] = Except.ok ("k", 4, 0)
      ∧ skipN (Scanner.new (bytesOf "abc\n\r\nget x\r\n")) 6
        = (some Error.ErrParse,
            { buf := bytesOf "et x\r\n", token := [], done := false, err := none })
      ∧ (NewNoopMcrouterEavesdropper.OnCommand 1700000000 Command.SET ["k", "0", "0", "4"]
            (Scanner.new (bytesOf "abc\n\r\nget x\r\n")) ()).map
          (fun r => (r.resp, r.err, r.scanner.buf, (r.scanner.Scan).2.token))
        = some (some NotStored, none, bytesOf "et x\r\n", bytesOf "et x") := by
  refine ⟨by decide, by decide, rfl, by decide, by decide⟩

/-! ## The codec: a store command whose header does not parse -/

/-- C20, refuted by evaluation: on the store command `set k`, which has 1 argument,
`parseStore` returns `ErrParse`, and `OnCommand` returns the reply `NOT_STORED` and no
error. -/
theorem store_malformed_counterexample :
    parseStore 1700000000 ["k"] = Except.error Error.ErrParse
      ∧ (NewNoopMcrouterEavesdropper.OnCommand 1700000000 Command.SET ["k"]
            (Scanner.new (bytesOf "get x\r\n")) ()).map (fun r => (r.resp, r.err))
        = some (some NotStored, none) := by
  refine ⟨rfl, by decide⟩

/-- C20, amended: for a store command (SET, ADD, REPLACE, CAS) with fewer than 4
arguments or a bytes or exptime field that is not a number, `parseStore` returns
`ErrParse`, and `OnCommand` returns the reply `NOT_STORED` and no error, calls no
function of the eavesdropper, and reads nothing from the scanner. -/
theorem store_malformed {σ : Type} (eavesdropper : AbstractMcrouterEavesdropper σ) (now : Int)
    (args : List String) (scanner : Scanner) (state : σ)
    (h : args.length < 4 ∨ Atoi (TrimSpace (args.getD 3 "")) = none
      ∨ ParseInt (args.getD 2 "") = none) :
    parseStore now args = Except.error Error.ErrParse
      ∧ ∀ c ∈ [Command.SET, Command.ADD, Command.REPLACE, Command.CAS],
          eavesdropper.OnCommand now c args scanner state
            = some ⟨some NotStored, none, scanner, state⟩ := by
  have hp := parseStore_error now args h
  refine ⟨hp, ?_⟩
  intro c hc
  simp only [List.mem_cons, List.mem_singleton, List.not_mem_nil, or_false] at hc
  rcases hc with rfl | rfl | rfl | rfl <;>
    simp only [AbstractMcrouterEavesdropper.OnCommand, hp]

/-- C20, amended, on the headers `k 0 0` (3 arguments), `k 0 0 many` and `k 0 soon 4`. -/
theorem store_malformed_witness :
    ((["k", "0", "0"] : List String).length < 4
        ∨ Atoi (TrimSpace ((["k", "0", "0"] : List String).getD 3 "")) = none
        ∨ ParseInt ((["k", "0", "0"] : List String).getD 2 "") = none)
      ∧ (parseStore 1700000000 ["k", "0", "0"] = Except.error Error.ErrParse
        ∧ ∀ c ∈ [Command.SET, Command.ADD, Command.REPLACE, Command.CAS],
            NewNoopMcrouterEavesdropper.OnCommand 1700000000 c ["k", "0", "0"]
                (Scanner.new (bytesOf "get x\r\n")) ()
              = some ⟨some NotStored, none, Scanner.new (bytesOf "get x\r\n"), ()⟩)
      ∧ parseStore 1700000000 ["k", "0", "0", "many"] = Except.error Error.ErrParse
      ∧ parseStore 1700000000 ["k", "0", "soon", "4"] = Except.error Error.ErrParse :=
  ⟨by decide,
   store_malformed NewNoopMcrouterEavesdropper 1700000000 ["k", "0", "0"]
     (Scanner.new (bytesOf "get x\r\n")) () (by decide),
   (store_malformed NewNoopMcrouterEavesdropper 1700000000 ["k", "0", "0", "many"]
     (Scanner.new []) () (by decide)).1,
   (store_malformed NewNoopMcrouterEavesdropper 1700000000 ["k", "0", "soon", "4"]
     (Scanner.new []) () (by decide)).1⟩

/-! ## The scorer: the expiry that `SetScore` is given -/

/-- C14, refuted by evaluation: `SetScore("k", 1000, 60)` on a scorer with the floor 96
stores the expiry 60, and at the clock time 1700000000 of the call `GetScore("k")`
returns 96, not 1000. -/
theorem SimpleKeyScorer.SetScore_counterexample :
    ((NewSimpleKeyScorer 96).SetScore "k" 1000 60).trie.Get "k" = some ⟨1000, 60⟩
      ∧ ((NewSimpleKeyScorer 96).SetScore "k" 1000 60).GetScore 1700000000 "k" = 96 := by
  refine ⟨by decide, by decide⟩

/-- C14, amended: `SetScore` stores the expiry that it is given, and it is `parseStore`
that reads the expiry of a header as a duration. After a store command (SET, ADD,
REPLACE, CAS) received at clock time `now` whose header has the key `k`, the byte count
`bytes` and an expiry `exp` with `0 < exp ≤ 2592000`, the scorer holds for `k` the
entry `(uint64(bytes), now + exp)`, and `GetScore(k)` returns `uint64(bytes)` at every
time `t` with `now ≤ t < now + exp`; at every later time it returns the floor. -/
theorem store_relative_expiry (eavesdropper : RollingWindowsMcrouterEavesdropper SimpleKeyScorer)
    (hks : eavesdropper.keyScorer = SimpleKeyScorer.asKeyScorer)
    (now : Int) (args : List String) (scanner : Scanner) (bytes exp : Int)
    (hlen : 4 ≤ args.length) (hbytes : Atoi (TrimSpace (args.getD 3 "")) = some bytes)
    (hexp : ParseInt (args.getD 2 "") = some exp)
    (h0 : 0 < exp) (h1 : exp ≤ 2592000)
    (hnow : 0 ≤ now) (hnow' : now + 2592000 < 2 ^ 63) :
    (∀ (s : SimpleKeyScorer) (k : String) (b : Nat) (e : Int),
        (s.SetScore k b e).trie.Get k = some ⟨b, e⟩)
      ∧ ∀ c ∈ [Command.SET, Command.ADD, Command.REPLACE, Command.CAS],
          ∃ r, (NewRollingWindowsMcrouterEavesdropper SimpleKeyScorer).OnCommand now c args
                scanner eavesdropper = some r
            ∧ r.state.rollingWindows.scorer
                = eavesdropper.rollingWindows.scorer.SetScore (args.getD 0 "") (toUint64 bytes)
                    (now + exp)
            ∧ r.state.rollingWindows.scorer.trie.Get (args.getD 0 "")
                = some ⟨toUint64 bytes, now + exp⟩
            ∧ (∀ t, now ≤ t → t < now + exp →
                r.state.rollingWindows.scorer.GetScore t (args.getD 0 "") = toUint64 bytes)
            ∧ (∀ t, now + exp ≤ t →
                r.state.rollingWindows.scorer.GetScore t (args.getD 0 "")
                  = eavesdropper.rollingWindows.scorer.minBytes) := by
  have hget : ∀ (s : SimpleKeyScorer) (k : String) (b : Nat) (e : Int),
      (s.SetScore k b e).trie.Get k = some ⟨b, e⟩ := by
    intro s k b e
    simp only [SimpleKeyScorer.SetScore, RuneTrie.Get_Put, if_true]
  refine ⟨hget, ?_⟩
  intro c hc
  have hp : parseStore now args = Except.ok (args.getD 0 "", bytes, now + exp) := by
    rw [parseStore_eq now args bytes exp hlen hbytes hexp]
    have hcnd : exp > 0 ∧ exp ≤ MAX_EXPIRE_SECONDS := by
      unfold MAX_EXPIRE_SECONDS; omega
    rw [if_pos hcnd, wrapInt64_of_range _ (by omega) (by omega)]
  have hs : (NewRollingWindowsMcrouterEavesdropper SimpleKeyScorer).OnStore (args.getD 0 "")
      bytes (now + exp) eavesdropper
      = some { eavesdropper with
          rollingWindows := { eavesdropper.rollingWindows with
            scorer := eavesdropper.rollingWindows.scorer.SetScore (args.getD 0 "")
              (toUint64 bytes) (now + exp) } } := by
    show eavesdropper.OnStore (args.getD 0 "") bytes (now + exp) = _
    simp only [RollingWindowsMcrouterEavesdropper.OnStore, hks, SimpleKeyScorer.asKeyScorer]
  refine ⟨⟨some NotStored, none, (skipN scanner (wrapInt64 (bytes + 2))).2,
    { eavesdropper with
      rollingWindows := { eavesdropper.rollingWindows with
        scorer := eavesdropper.rollingWindows.scorer.SetScore (args.getD 0 "")
          (toUint64 bytes) (now + exp) } }⟩, ?_, rfl, ?_, ?_, ?_⟩
  · simp only [List.mem_cons, List.mem_singleton, List.not_mem_nil, or_false] at hc
    rcases hc with rfl | rfl | rfl | rfl <;>
      simp only [AbstractMcrouterEavesdropper.OnCommand, hp, hs]
  · exact hget _ _ _ _
  · intro t ht ht'
    show (eavesdropper.rollingWindows.scorer.SetScore (args.getD 0 "") (toUint64 bytes)
      (now + exp)).GetScore t (args.getD 0 "") = toUint64 bytes
    rw [SimpleKeyScorer.GetScore_SetScore]
    have : now + exp = 0 ∨ now + exp > t := Or.inr ht'
    simp only [if_true, this]
  · intro t ht
    show (eavesdropper.rollingWindows.scorer.SetScore (args.getD 0 "") (toUint64 bytes)
      (now + exp)).GetScore t (args.getD 0 "") = _
    rw [SimpleKeyScorer.GetScore_SetScore]
    have hnz : ¬ (now + exp = 0 ∨ now + exp > t) := by
      intro h
      rcases h with h | h
      · omega
      · omega
    simp only [if_true, hnz, if_false]

/-- C14, amended, on the command `set k 0 60 1000` received at the clock time
1700000000: the score of `k` is 1000 up to the time 1700000059, and the floor 96 from
the time 1700000060 on. -/
theorem store_relative_expiry_witness :
    ∃ r, (NewRollingWindowsMcrouterEavesdropper SimpleKeyScorer).OnCommand 1700000000
          Command.SET ["k", "0", "60", "1000"] (Scanner.new [])
          ⟨NewSimpleRollingWindows (NewSimpleKeyScorer 96)
            (fun _ => GetKeyCounter.empty {}) 1 5 0, SimpleKeyScorer.asKeyScorer⟩ = some r
      ∧ r.state.rollingWindows.scorer.GetScore 1700000000 "k" = 1000
      ∧ r.state.rollingWindows.scorer.GetScore 1700000059 "k" = 1000
      ∧ r.state.rollingWindows.scorer.GetScore 1700000060 "k" = 96 := by
  obtain ⟨r, hr, _, _, hin, hout⟩ :=
    (store_relative_expiry
      ⟨NewSimpleRollingWindows (NewSimpleKeyScorer 96)
        (fun _ => GetKeyCounter.empty {}) 1 5 0, SimpleKeyScorer.asKeyScorer⟩ rfl
      1700000000 ["k", "0", "60", "1000"] (Scanner.new []) 1000 60
      (by decide) (by decide) (by decide) (by decide) (by decide) (by decide) (by decide)).2
      Command.SET (by decide)
  exact ⟨r, hr, hin 1700000000 (by decide) (by decide), hin 1700000059 (by decide) (by decide),
    hout 1700000060 (by decide)⟩

/-! ## The ring: one window takes the increments -/

theorem Writable_new (buckets : Int) (hB : 1 ≤ (buckets % 2 ^ 32).toNat) :
    Writable (GetKeyCounter.bucket (NewBucketGetKeyCounter buckets)) :=
  ⟨_, rfl, rfl, hB, by simp [NewBucketGetKeyCounter, NewBucketing]⟩

theorem Writable_not_Closed (c : GetKeyCounter) (h : Writable c) : ¬ Closed c := by
  obtain ⟨b, rfl, hf, _, _⟩ := h
  rintro (⟨e, he⟩ | ⟨b', hb', hf'⟩)
  · cases he
  · cases hb'
    exact hf' hf

theorem Closed_Increment (c : GetKeyCounter) (h : Closed c) (key : String) (delta : Nat) :
    c.Increment key delta = some c := by
  rcases h with ⟨e, rfl⟩ | ⟨b, rfl, hf⟩
  · rfl
  · simp only [GetKeyCounter.Increment, BucketGetKeyCounter.Increment_frozen b key delta hf,
      Option.map_some']

theorem Writable_Increment (b : BucketGetKeyCounter) (h : Writable (GetKeyCounter.bucket b))
    (key : String) (delta : Nat) :
    ∃ counter,
      b.bucketing.instances[(b.bucketing.hashing key % 2 ^ 32) % b.bucketing.buckets]?
          = some counter
      ∧ (GetKeyCounter.bucket b).Increment key delta
          = some (GetKeyCounter.bucket { b with bucketing :=
              { b.bucketing with instances := (b.bucketing.instances.set
                  ((b.bucketing.hashing key % 2 ^ 32) % b.bucketing.buckets)
                  (counter.Increment key delta)) } })
      ∧ Writable (GetKeyCounter.bucket { b with bucketing :=
              { b.bucketing with instances := (b.bucketing.instances.set
                  ((b.bucketing.hashing key % 2 ^ 32) % b.bucketing.buckets)
                  (counter.Increment key delta)) } }) := by
  obtain ⟨b', hb', hf, hB, hlen⟩ := h
  cases hb'
  have hidx : (b.bucketing.hashing key % 2 ^ 32) % b.bucketing.buckets
      < b.bucketing.instances.length := by
    rw [hlen]; exact Nat.mod_lt _ (by omega)
  refine ⟨b.bucketing.instances.get ⟨_, hidx⟩, ?_, ?_, ?_⟩
  · rw [List.getElem?_eq_getElem hidx]; rfl
  · simp only [GetKeyCounter.Increment,
      BucketGetKeyCounter.Increment_eq b key delta hf (by omega) hidx, Option.map_some']
  · exact ⟨_, rfl, hf, hB, by simp [hlen]⟩

theorem Closed_Snapshot (c : GetKeyCounter) (h : Writable c ∨ Closed c) :
    Closed (c.Snapshot).2 := by
  rcases h with ⟨b, rfl, _⟩ | ⟨e, rfl⟩ | ⟨b, rfl, _⟩
  · exact Or.inr ⟨_, rfl, (BucketGetKeyCounter.Snapshot_freezes b).1⟩
  · exact Or.inl ⟨e, rfl⟩
  · exact Or.inr ⟨_, rfl, (BucketGetKeyCounter.Snapshot_freezes b).1⟩

namespace SimpleRollingWindows

theorem visit_closed (ps : List Nat) (windows : List GetKeyCounter) (aggregate : CountMap)
    (hall : ∀ (j : Nat) (c : GetKeyCounter), windows[j]? = some c → Writable c ∨ Closed c)
    (hps : ∀ p ∈ ps, p < windows.length) (q : Nat) (hq : q ∈ ps) (c : GetKeyCounter)
    (hc : (visit ps windows aggregate).1[q]? = some c) : Closed c := by
  induction ps generalizing windows aggregate with
  | nil => simp at hq
  | cons p ps ih =>
    have hp : p < windows.length := hps p (List.mem_cons_self _ _)
    have hps' : ∀ x ∈ ps, x < windows.length := fun x hx => hps x (List.mem_cons_of_mem _ hx)
    have hcl : Closed (windows[p].Snapshot).2 :=
      Closed_Snapshot _ (hall p _ (List.getElem?_eq_getElem hp))
    simp only [visit, List.getElem?_eq_getElem hp] at hc
    by_cases hmem : q ∈ ps
    · refine ih _ _ ?_ ?_ hmem hc
      · intro j d hd
        by_cases hj : p = j
        · subst hj
          rw [List.getElem?_set_self hp] at hd
          cases hd
          exact Or.inr hcl
        · rw [List.getElem?_set_ne hj] at hd
          exact hall j d hd
      · intro x hx
        rw [List.length_set]
        exact hps' x hx
    · have hqp : q = p := by
        rcases List.mem_cons.1 hq with h | h
        · exact h
        · exact absurd h hmem
      subst hqp
      rw [visit_frame _ _ _ _ hmem, List.getElem?_set_self hp] at hc
      cases hc
      exact hcl

theorem mem_slots {σ : Type} (w : SimpleRollingWindows σ) (j : Nat) (hrf : w.readFrom < w.width + 1)
    (hj : j < w.width + 1) (hne : j ≠ w.readFrom) :
    j ∈ (List.range' 1 w.width).map (slot w) := by
  rw [List.mem_map]
  by_cases hlt : w.readFrom < j
  · refine ⟨j - w.readFrom, ?_, ?_⟩
    · rw [List.mem_range'_1]; omega
    · unfold slot
      rw [mod_of_lt_two_mul _ _ (by omega)]
      split <;> omega
  · refine ⟨j + (w.width + 1) - w.readFrom, ?_, ?_⟩
    · rw [List.mem_range'_1]; omega
    · unfold slot
      rw [mod_of_lt_two_mul _ _ (by omega)]
      split <;> omega

theorem readFrom_not_mem_slots {σ : Type} (w : SimpleRollingWindows σ)
    (hrf : w.readFrom < w.width + 1) :
    w.readFrom ∉ (List.range' 1 w.width).map (slot w) := by
  rw [List.mem_map]
  rintro ⟨i, hi, heq⟩
  rw [List.mem_range'_1] at hi
  have := slot_ne w.readFrom (w.width + 1) i 0 hrf (by omega) (by omega) (by omega)
  have h0 : (w.readFrom + 0) % (w.width + 1) = w.readFrom := by
    simp only [Nat.add_zero, Nat.mod_eq_of_lt hrf]
  exact this (heq.trans h0.symm)

theorem slots_lt {σ : Type} (w : SimpleRollingWindows σ) (p : Nat)
    (hp : p ∈ (List.range' 1 w.width).map (slot w)) : p < w.width + 1 := by
  rw [List.mem_map] at hp
  obtain ⟨i, _, rfl⟩ := hp
  exact Nat.mod_lt _ (by omega)

end SimpleRollingWindows

theorem OneWritable_new {σ : Type} (scorer : σ) (buckets : Int)
    (hB : 1 ≤ (buckets % 2 ^ 32).toNat) (W : Nat) (N : Int) (T : Nat) :
    OneWritable (NewSimpleRollingWindows scorer
      (fun _ => GetKeyCounter.bucket (NewBucketGetKeyCounter buckets)) W N T) := by
  refine ⟨by simp [NewSimpleRollingWindows], by simp [NewSimpleRollingWindows],
    by simp [NewSimpleRollingWindows], ?_⟩
  intro j c hc
  simp only [NewSimpleRollingWindows] at hc ⊢
  by_cases hj : j = W
  · subst hj
    rw [if_pos rfl]
    rw [List.getElem?_set_self (by simp)] at hc
    cases hc
    exact Writable_new buckets hB
  · rw [if_neg hj]
    rw [List.getElem?_set_ne (Ne.symm hj)] at hc
    rw [List.getElem?_replicate] at hc
    split at hc
    · cases hc
      exact Or.inl ⟨{}, rfl⟩
    · cases hc

theorem OneWritable_Increment {σ : Type} (w w' : SimpleRollingWindows σ) (key : String)
    (delta : Nat) (H : OneWritable w) (h : w.Increment key delta = some w') :
    OneWritable w' := by
  obtain ⟨hlen, hrf, hcur, hall⟩ := H
  unfold SimpleRollingWindows.Increment at h
  split at h
  · simp at h
  · rename_i c hlast
    split at h
    · simp at h
    · rename_i c' hinc
      simp only [Option.some.injEq] at h
      subst h
      refine ⟨by simp [hlen], hrf, hcur, ?_⟩
      intro j d hd
      simp only at hd ⊢
      have hw : Writable c := by
        have := hall w.current c hlast
        rwa [if_pos rfl] at this
      by_cases hj : j = w.current
      · subst hj
        rw [if_pos rfl]
        rw [List.getElem?_set_self (by rw [hlen]; exact hcur)] at hd
        cases hd
        obtain ⟨b, rfl, hb⟩ := hw
        obtain ⟨counter, _, heq, hwr⟩ :=
          Writable_Increment b ⟨b, rfl, hb⟩ key delta
        rw [heq] at hinc
        cases hinc
        exact hwr
      · rw [if_neg hj]
        rw [List.getElem?_set_ne (Ne.symm hj)] at hd
        have := hall j d hd
        rwa [if_neg hj] at this

theorem Roll_windows {σ : Type} (GetScore : σ → String → Nat) (w w' : SimpleRollingWindows σ)
    (tops : CountMap) (hlen : w.windows.length = w.width + 1) (hrf : w.readFrom < w.width + 1)
    (h : w.Roll GetScore = some (tops, w')) :
    w' = rolled w (visit ((List.range' 1 w.width).map (slot w))
      (w.windows.set w.readFrom (GetKeyCounter.bucket (NewBucketGetKeyCounter 32))) []).1 := by
  obtain ⟨tops', _, heq⟩ := Roll_eq GetScore w hlen hrf
  rw [heq] at h
  simp only [Option.some.injEq, Prod.mk.injEq] at h
  exact h.2.symm

theorem Roll_current {σ : Type} (GetScore : σ → String → Nat) (w w' : SimpleRollingWindows σ)
    (tops : CountMap) (hlen : w.windows.length = w.width + 1) (hrf : w.readFrom < w.width + 1)
    (h : w.Roll GetScore = some (tops, w')) :
    w'.windows[w'.current]? = some (GetKeyCounter.bucket (NewBucketGetKeyCounter 32)) := by
  rw [Roll_windows GetScore w w' tops hlen hrf h]
  show (visit _ _ _).1[w.readFrom]? = _
  rw [visit_frame _ _ _ _ (readFrom_not_mem_slots w hrf),
    List.getElem?_set_self (by rw [hlen]; exact hrf)]

theorem OneWritable_Roll {σ : Type} (GetScore : σ → String → Nat)
    (w w' : SimpleRollingWindows σ) (tops : CountMap) (H : OneWritable w)
    (h : w.Roll GetScore = some (tops, w')) : OneWritable w' := by
  obtain ⟨hlen, hrf, hcur, hall⟩ := H
  have hcurrent := Roll_current GetScore w w' tops hlen hrf h
  have hw' := Roll_windows GetScore w w' tops hlen hrf h
  have hl := Roll_length GetScore w w' tops hlen hrf h
  obtain ⟨_, h2, h3, h4⟩ := Roll_indices GetScore w w' tops h
  refine ⟨hl, by rw [h3, h4]; exact Nat.mod_lt _ (by omega), by rw [h2, h4]; exact hrf, ?_⟩
  intro j c hc
  by_cases hj : j = w'.current
  · rw [if_pos hj]
    subst hj
    rw [hcurrent] at hc
    cases hc
    exact Writable_new 32 (by decide)
  · rw [if_neg hj]
    have hjlt : j < w.width + 1 := by
      have : j < w'.windows.length := by
        by_contra hge
        rw [List.getElem?_eq_none (by omega)] at hc
        cases hc
      rw [hl, h4] at this
      exact this
    rw [h2] at hj
    rw [hw'] at hc
    refine visit_closed _ _ _ ?_ ?_ j (mem_slots w j hrf hjlt hj) c hc
    · intro i d hd
      by_cases hi : w.readFrom = i
      · subst hi
        rw [List.getElem?_set_self (by rw [hlen]; exact hrf)] at hd
        cases hd
        exact Or.inl (Writable_new 32 (by decide))
      · rw [List.getElem?_set_ne hi] at hd
        have := hall i d hd
        split at this
        · exact Or.inl this
        · exact Or.inr this
    · intro p hp
      rw [List.length_set, hlen]
      exact slots_lt w p hp

theorem OneWritable_of_reachable {σ : Type} (GetScore : σ → String → Nat) (scorer : σ)
    (buckets : Int) (hB : 1 ≤ (buckets % 2 ^ 32).toNat) (W : Nat) (N : Int) (T : Nat) (k : Nat)
    (w : SimpleRollingWindows σ)
    (h : ReachableIn GetScore (NewSimpleRollingWindows scorer
      (fun _ => GetKeyCounter.bucket (NewBucketGetKeyCounter buckets)) W N T) k w) :
    OneWritable w := by
  induction h with
  | init => exact OneWritable_new scorer buckets hB W N T
  | roll _ hr ih => exact OneWritable_Roll GetScore _ _ _ ih hr
  | increment _ hi ih => exact OneWritable_Increment _ _ _ _ ih hi

theorem Snapshot_new_32 : ((NewBucketGetKeyCounter 32).Snapshot).1 = [] := by decide

/-- C11: in every state that a ring whose generator makes `BucketGetKeyCounter`s of at
least one bucket reaches from `NewSimpleRollingWindows` by any sequence of `Roll` and
`Increment` calls, whatever its width, there is a window at `current`, and it is a
bucket counter that is not frozen, whose `Increment` reaches the bucket of the key;
every other window is an `EmptyGetKeyCounter` or a frozen bucket counter, whose
`Increment` leaves it as it is; and after a `Roll` the window at the new `current` is
the counter that `NewBucketGetKeyCounter(32)` returns, which is not frozen and whose
snapshot would be empty. -/
theorem one_writable_window {σ : Type} (GetScore : σ → String → Nat) (scorer : σ)
    (buckets : Int) (hB : 1 ≤ (buckets % 2 ^ 32).toNat) (W : Nat) (N : Int) (T : Nat) (k : Nat)
    (w : SimpleRollingWindows σ)
    (h : ReachableIn GetScore (NewSimpleRollingWindows scorer
      (fun _ => GetKeyCounter.bucket (NewBucketGetKeyCounter buckets)) W N T) k w) :
    (∃ b, w.windows[w.current]? = some (GetKeyCounter.bucket b) ∧ b.freeze = 0
        ∧ ∀ key delta, ∃ counter,
            b.bucketing.instances[(b.bucketing.hashing key % 2 ^ 32) % b.bucketing.buckets]?
                = some counter
            ∧ (GetKeyCounter.bucket b).Increment key delta
                = some (GetKeyCounter.bucket { b with bucketing :=
                    { b.bucketing with instances := (b.bucketing.instances.set
                        ((b.bucketing.hashing key % 2 ^ 32) % b.bucketing.buckets)
                        (counter.Increment key delta)) } }))
      ∧ (∀ j, j < W + 1 → j ≠ w.current →
          ∃ c, w.windows[j]? = some c ∧ Closed c ∧ ¬ Writable c
            ∧ ∀ key delta, c.Increment key delta = some c)
      ∧ (∀ tops w', w.Roll GetScore = some (tops, w') →
          w'.windows[w'.current]? = some (GetKeyCounter.bucket (NewBucketGetKeyCounter 32))
            ∧ (NewBucketGetKeyCounter 32).freeze = 0
            ∧ ((NewBucketGetKeyCounter 32).Snapshot).1 = []) := by
  have H := OneWritable_of_reachable GetScore scorer buckets hB W N T k w h
  have hW : w.width = W := (IdxAt_of_reachable GetScore scorer _ W N T k w h).1
  obtain ⟨hlen, hrf, hcur, hall⟩ := H
  refine ⟨?_, ?_, ?_⟩
  · have hlt : w.current < w.windows.length := by rw [hlen]; exact hcur
    have hw := hall w.current _ (List.getElem?_eq_getElem hlt)
    rw [if_pos rfl] at hw
    obtain ⟨b, hb, hf, hrest⟩ := hw
    refine ⟨b, by rw [List.getElem?_eq_getElem hlt, hb], hf, ?_⟩
    intro key delta
    obtain ⟨counter, h1, h2, _⟩ := Writable_Increment b ⟨b, rfl, hf, hrest⟩ key delta
    exact ⟨counter, h1, h2⟩
  · intro j hj hne
    have hlt : j < w.windows.length := by rw [hlen, hW]; exact hj
    have hc := hall j _ (List.getElem?_eq_getElem hlt)
    rw [if_neg hne] at hc
    exact ⟨_, List.getElem?_eq_getElem hlt, hc, fun hw => Writable_not_Closed _ hw hc,
      fun key delta => Closed_Increment _ hc key delta⟩
  · intro tops w' hroll
    exact ⟨Roll_current GetScore w w' tops hlen hrf hroll, rfl, Snapshot_new_32⟩

/-- C11, on the ring of `TestSimpleRollingWindows` after its first `Roll`: the window at
`current`, which is 0, is not frozen, and the window at 4, which took the increments
before the `Roll`, leaves an increment of the key `a` out. -/
theorem one_writable_window_witness :
    1 ≤ ((1 : Int) % 2 ^ 32).toNat
      ∧ ReachableIn dumbKeyScorer.GetScore testRing 1
          (rolled testRing (visit ((List.range' 1 testRing.width).map (slot testRing))
            (testRing.windows.set testRing.readFrom
              (GetKeyCounter.bucket (NewBucketGetKeyCounter 32))) []).1)
      ∧ ∃ c, (rolled testRing (visit ((List.range' 1 testRing.width).map (slot testRing))
            (testRing.windows.set testRing.readFrom
              (GetKeyCounter.bucket (NewBucketGetKeyCounter 32))) []).1).windows[4]? = some c
          ∧ c.Increment "a" 1 = some c :=
  ⟨by decide,
    ReachableIn.rolled dumbKeyScorer.GetScore () _ 4 3 1 0 testRing ReachableIn.init,
    (((one_writable_window dumbKeyScorer.GetScore () 1 (by decide) 4 3 1 1 _
      (ReachableIn.rolled dumbKeyScorer.GetScore () _ 4 3 1 0 testRing
        ReachableIn.init)).2.1 4 (by decide) (by decide)).imp
      (fun _ hc => ⟨hc.1, hc.2.2.2 "a" 1⟩))⟩

/-! ## The codec: where `scanCRLF` ends a token -/

theorem scanCRLF_of_IndexAny (data : List UInt8) (atEOF : Bool) (i : Nat)
    (h : IndexAny data (bytesOf CRLF) = some i) :
    scanCRLF data atEOF = (i + 2, some (data.take i), none) := by
  have hne : ¬ data.length = 0 := by
    intro h0
    rw [List.length_eq_zero] at h0
    subst h0
    simp [IndexAny] at h
  simp only [scanCRLF, hne, and_false, if_false, h]

/-- When no CR and no LF byte comes before the first CR LF of the data, `scanCRLF`
returns the bytes before that CR LF and the advance just past it. -/
theorem scanCRLF_line (line rest : List UInt8) (atEOF : Bool)
    (h : ∀ x ∈ line, x ≠ 13 ∧ x ≠ 10) :
    scanCRLF (line ++ 13 :: 10 :: rest) atEOF = (line.length + 2, some line, none) := by
  have hidx : IndexAny (line ++ 13 :: 10 :: rest) (bytesOf CRLF) = some line.length := by
    apply IndexAny_append
    · intro x hx
      rw [bytesOf_CRLF]
      have := h x hx
      simp [this.1, this.2]
    · rw [bytesOf_CRLF]; simp
  rw [scanCRLF_of_IndexAny _ _ _ hidx, List.take_append_of_le_length (le_refl _)]
  simp

/-- The token of `scanCRLF` ends at the first byte that is a CR or an LF, whatever
follows it, and the advance is 2 past that byte. -/
theorem scanCRLF_first_delimiter (line rest : List UInt8) (b : UInt8) (atEOF : Bool)
    (h : ∀ x ∈ line, x ≠ 13 ∧ x ≠ 10) (hb : b = 13 ∨ b = 10) :
    scanCRLF (line ++ b :: rest) atEOF = (line.length + 2, some line, none) := by
  have hidx : IndexAny (line ++ b :: rest) (bytesOf CRLF) = some line.length := by
    apply IndexAny_append
    · intro x hx
      rw [bytesOf_CRLF]
      have := h x hx
      simp [this.1, this.2]
    · rw [bytesOf_CRLF]
      rcases hb with rfl | rfl <;> simp
  rw [scanCRLF_of_IndexAny _ _ _ hidx, List.take_append_of_le_length (le_refl _)]
  simp

/-- C21, refuted by evaluation: on the data `a`, LF, `b`, CR, LF, `c`, whose first CR LF
is at index 3, `scanCRLF` returns the token `a` and the advance 3, not the token `a`,
LF, `b` and the advance 5: the lone LF ends the token, and the `b` after it is skipped
with it. A lone CR does the same. When the lone delimiter is the last byte of the data
the advance is beyond the data. -/
theorem scanCRLF_lone_delimiter :
    scanCRLF (bytesOf "a\nb\r\nc") false = (3, some (bytesOf "a"), none)
      ∧ scanCRLF (bytesOf "a\rb\r\nc") false = (3, some (bytesOf "a"), none)
      ∧ (bytesOf "a\nb\r\nc").take 3 = bytesOf "a\nb"
      ∧ (bytesOf "a\nb\r\nc").drop 3 = bytesOf "\r\nc"
      ∧ scanCRLF (bytesOf "ab\r") false = (4, some (bytesOf "ab"), none)
      ∧ (bytesOf "ab\r").length = 3
      ∧ scanCRLF (bytesOf "ab\r\nc") false = (4, some (bytesOf "ab"), none) := by
  decide

/-! ## The codec: the lines on which `parseCommand` fails -/

theorem Split_eq_singleton (line t : String) (h : Split line = [t]) : line = t := by
  have := intercalate_splitSpaces line.data []
  unfold Split at h
  rw [h] at this
  simp only [List.map_cons, List.map_nil, List.intercalate, List.intersperse, List.flatten,
    List.append_nil, List.reverse_nil, List.nil_append] at this
  exact (String.ext this).symm

theorem parseCommand_gat : parseCommand "gat" = none := by decide

theorem parseCommand_gats : parseCommand "gats" = none := by decide

theorem parseCommand_empty : parseCommand "" = some (Command.UNKNOWN, [], none) := by decide

theorem ite_some_eq_none {α : Type} {c : Prop} [Decidable c] {x : α} {y : Option α}
    (h : (if c then some x else y) = none) : y = none := by
  by_cases hc : c
  · rw [if_pos hc] at h; cases h
  · rw [if_neg hc] at h; exact h

theorem ite_ite_eq_none {α : Type} {c d : Prop} [Decidable c] [Decidable d] {x : α}
    {y : Option α} (h : (if c then (if d then none else some x) else y) = none) :
    (c ∧ d) ∨ y = none := by
  by_cases hc : c
  · rw [if_pos hc] at h
    by_cases hd : d
    · exact Or.inl ⟨hc, hd⟩
    · rw [if_neg hd] at h; cases h
  · rw [if_neg hc] at h; exact Or.inr h

theorem parseCommand_eq_none (line : String) (h : parseCommand line = none) :
    line = "gat" ∨ line = "gats" := by
  cases hs : Split line with
  | nil => exact absurd hs (splitSpaces_ne_nil line.data [])
  | cons a rest =>
    have hne : ¬ (Split line).length < 1 := by rw [hs]; simp
    have h0 : (Split line).getD 0 "" = a := by rw [hs]; rfl
    have hlen : (Split line).length < 2 → rest = [] := by
      rw [hs]
      intro hl
      cases rest with
      | nil => rfl
      | cons b r => simp only [List.length_cons] at hl; omega
    unfold parseCommand at h
    simp only [] at h
    rw [if_neg hne, h0] at h
    have h := ite_some_eq_none (ite_some_eq_none h)
    rcases ite_ite_eq_none h with ⟨hg, hl⟩ | h
    · have hrest := hlen hl
      subst hrest
      exact Or.inl (by rw [Split_eq_singleton line a hs, hg])
    · rcases ite_ite_eq_none h with ⟨hg, hl⟩ | h
      · have hrest := hlen hl
        subst hrest
        exact Or.inr (by rw [Split_eq_singleton line a hs, hg])
      · have h := ite_some_eq_none (ite_some_eq_none (ite_some_eq_none (ite_some_eq_none
          (ite_some_eq_none (ite_some_eq_none (ite_some_eq_none (ite_some_eq_none
          (ite_some_eq_none (ite_some_eq_none (ite_some_eq_none (ite_some_eq_none
          (ite_some_eq_none h))))))))))))
        cases h

/-- C30, refuted: `parseCommand` fails on the line `gat` and on the line `gats`, where
the slice expression `sections[2:]` is taken of a slice of length 1; on every other
line, the empty line included, it returns. -/
theorem parseCommand_not_total :
    parseCommand "gat" = none ∧ parseCommand "gats" = none
      ∧ parseCommand "" = some (Command.UNKNOWN, [], none)
      ∧ ∀ line, parseCommand line = none ↔ line = "gat" ∨ line = "gats" := by
  refine ⟨parseCommand_gat, parseCommand_gats, parseCommand_empty, ?_⟩
  intro line
  constructor
  · exact parseCommand_eq_none line
  · rintro (rfl | rfl)
    · exact parseCommand_gat
    · exact parseCommand_gats

/-! ## The scorer: what `sweep` collects -/

/-- The entry is one that `GetScore` at clock time `now` does not give the bytes of. -/
theorem GetScore_expired (s : SimpleKeyScorer) (now : Int) (key : String) (e : scoreEntry)
    (h : s.trie.Get key = some e) (hexp : e.exptime ≠ 0 ∧ e.exptime ≤ now) :
    s.GetScore now key = s.minBytes := by
  have : ¬ (e.exptime = 0 ∨ e.exptime > now) := by omega
  simp only [SimpleKeyScorer.GetScore, h, this, if_false]

/-- On entries whose expiry is not negative, `sweep` collects the keys of the entries
that are expired at `now`, and only those. -/
theorem sweep_of_nonneg (s : SimpleKeyScorer) (now : Int) (key : String)
    (hnn : ∀ p ∈ s.trie, 0 ≤ p.2.exptime) :
    key ∈ s.sweep now
      ↔ ∃ e, (key, e) ∈ s.trie ∧ ¬ (e.exptime = 0 ∨ e.exptime > now) := by
  rw [SimpleKeyScorer.mem_sweep]
  constructor
  · rintro ⟨e, hm, h1, h2⟩
    exact ⟨e, hm, by omega⟩
  · rintro ⟨e, hm, h⟩
    have := hnn _ hm
    exact ⟨e, hm, by simp only at this; omega, by omega⟩

/-- An entry with a negative expiry is never collected. -/
theorem sweep_negative (s : SimpleKeyScorer) (now : Int) (key : String)
    (hneg : ∀ e, (key, e) ∈ s.trie → e.exptime < 0) : key ∉ s.sweep now := by
  rw [SimpleKeyScorer.mem_sweep]
  rintro ⟨e, hm, h1, _⟩
  have := hneg e hm
  omega

/-- C28, refuted by evaluation: after `SetScore("k", 1000, -1)` on a new scorer with the
floor 96, which is what the store command `set k 0 -1 1000` makes, the entry of `k` is
expired at the clock time 1700000000, where `GetScore("k")` returns the floor and not
the 1000 bytes stored; `sweep` at that time returns no key, and after the tick of the
sweeper the entry is still in the trie. An entry with the expiry 1699999999 is
collected and deleted. -/
theorem SimpleKeyScorer.sweep_misses_negative :
    parseStore 1700000000 ["k", "0", "-1", "1000"] = Except.ok ("k", 1000, -1)
      ∧ ((NewSimpleKeyScorer 96).SetScore "k" 1000 (-1)).trie.Get "k" = some ⟨1000, -1⟩
      ∧ ((NewSimpleKeyScorer 96).SetScore "k" 1000 (-1)).GetScore 1700000000 "k" = 96
      ∧ ((NewSimpleKeyScorer 96).SetScore "k" 1000 (-1)).sweep 1700000000 = []
      ∧ (((NewSimpleKeyScorer 96).SetScore "k" 1000 (-1)).sweepTick 1700000000).trie.Get "k"
          = some ⟨1000, -1⟩
      ∧ ((NewSimpleKeyScorer 96).SetScore "k" 1000 1699999999).sweep 1700000000 = ["k"]
      ∧ (((NewSimpleKeyScorer 96).SetScore "k" 1000 1699999999).sweepTick 1700000000).trie.Get
          "k" = none := by
  refine ⟨rfl, by decide, by decide, by decide, by decide, by decide, by decide⟩

/-! ## `topN`: what it leaves in the map it is given -/

theorem find?_of_mem (m : CountMap) (h : (CountMap.keys m).Nodup) (k : String) (v : Nat)
    (hm : (k, v) ∈ m) : CountMap.find? m k = some v := by
  induction m with
  | nil => simp at hm
  | cons e m ih =>
    obtain ⟨k₀, v₀⟩ := e
    simp only [CountMap.keys, List.map_cons, List.nodup_cons] at h
    rcases List.mem_cons.mp hm with heq | hmem
    · cases heq
      simp [CountMap.find?]
    · have hne : k₀ ≠ k := by
        intro hk
        subst hk
        exact h.1 (List.mem_map.mpr ⟨(k₀, v), hmem, rfl⟩)
      have := ih h.2 hmem
      simpa [CountMap.find?, hne] using this

theorem mem_of_find? (m : CountMap) (k : String) (v : Nat)
    (h : CountMap.find? m k = some v) : (k, v) ∈ m := by
  induction m with
  | nil => simp [CountMap.find?] at h
  | cons e m ih =>
    obtain ⟨k₀, v₀⟩ := e
    by_cases hk : k₀ = k
    · subst hk
      simp [CountMap.find?] at h
      subst h
      exact List.mem_cons_self _ _
    · simp [CountMap.find?, hk] at h
      exact List.mem_cons_of_mem _ (ih h)

theorem find?_scored (GetScore : String → Nat) (all : CountMap) (threshold : Nat)
    (hnd : (CountMap.keys all).Nodup) (k : String) :
    CountMap.find? (scored GetScore all threshold) k
      = match CountMap.find? all k with
        | some c => if threshold ≤ c then some (c * GetScore k % 2 ^ 64) else none
        | none => none := by
  have hnd' := nodup_keys_scored GetScore all threshold hnd
  cases hf : CountMap.find? all k with
  | none =>
    simp only []
    cases hs : CountMap.find? (scored GetScore all threshold) k with
    | none => rfl
    | some v =>
      obtain ⟨c, hc, _, _⟩ := (mem_scored GetScore all threshold k v).1 (mem_of_find? _ _ _ hs)
      rw [find?_of_mem all hnd k c hc] at hf
      cases hf
  | some c =>
    simp only []
    have hc := mem_of_find? _ _ _ hf
    by_cases ht : threshold ≤ c
    · rw [if_pos ht]
      exact find?_of_mem _ hnd' k _ ((mem_scored GetScore all threshold k _).2 ⟨c, hc, ht, rfl⟩)
    · rw [if_neg ht]
      cases hs : CountMap.find? (scored GetScore all threshold) k with
      | none => rfl
      | some v =>
        obtain ⟨c', hc', ht', _⟩ :=
          (mem_scored GetScore all threshold k v).1 (mem_of_find? _ _ _ hs)
        have := value_unique all hnd k c c' hc hc'
        subst this
        exact absurd ht' ht

/-- C29: `topN` returns, and the map it was given then holds the keys whose count
reached the threshold and no other key, each with its count times its score modulo
`2^64`; when the number of these keys is at most `N` the map returned is this map. -/
theorem topN_mutates_input (GetScore : String → Nat) (all : CountMap) (n : Int)
    (threshold : Nat) (hnd : (CountMap.keys all).Nodup) :
    ∃ input tops, topNRun GetScore all n threshold = some (input, tops)
      ∧ (CountMap.keys input).Nodup
      ∧ (∀ k, CountMap.find? input k
          = match CountMap.find? all k with
            | some c => if threshold ≤ c then some (c * GetScore k % 2 ^ 64) else none
            | none => none)
      ∧ input.length = (all.filter (fun e => decide (threshold ≤ e.2))).length
      ∧ ((input.length : Int) ≤ n → tops = input) := by
  obtain ⟨r, rest, hrun, _, _, _, hsame⟩ := topNRun_spec GetScore all n threshold hnd
  refine ⟨scored GetScore all threshold, r, hrun, nodup_keys_scored GetScore all threshold hnd,
    find?_scored GetScore all threshold hnd, ?_, hsame⟩
  rw [length_scored]
  rfl

/-- C29, on a map of three keys of which two reach the threshold 2, with the score 3
for every key and `N = 5`: the map given and the map returned both end as
`{a: 6, c: 15}`. -/
theorem topN_mutates_input_witness :
    (CountMap.keys [("a", 2), ("b", 1), ("c", 5)]).Nodup
      ∧ topNRun (fun _ => 3) [("a", 2), ("b", 1), ("c", 5)] 5 2
          = some ([("a", 6), ("c", 15)], [("a", 6), ("c", 15)])
      ∧ ∃ input tops, topNRun (fun _ => 3) [("a", 2), ("b", 1), ("c", 5)] 5 2
            = some (input, tops)
          ∧ CountMap.find? input "b" = none ∧ CountMap.find? input "c" = some 15 :=
  ⟨by decide, by decide,
    (topN_mutates_input (fun _ => 3) [("a", 2), ("b", 1), ("c", 5)] 5 2 (by decide)).imp
      (fun _ h => h.imp (fun _ h' => ⟨h'.1, by rw [h'.2.2.1 "b"]; decide,
        by rw [h'.2.2.1 "c"]; decide⟩))⟩

/-! ## The aggregator: the cut of `Aggregate` -/

theorem cutLoop_spec (t : Nat) (h cut : HotKeyEntries)
    (H : HotKeyEntries.HeapFrom h 0 h.length)
    (hsorted : cut.Pairwise (fun a b => b.Score ≤ a.Score))
    (hdom : ∀ x ∈ cut, ∀ y ∈ h, y.Score ≤ x.Score) :
    ∃ cut' rest, cutLoop t h cut = some (cut', rest) ∧ (cut' ++ rest).Perm (cut ++ h)
      ∧ cut'.length = cut.length + min t h.length
      ∧ cut'.Pairwise (fun a b => b.Score ≤ a.Score)
      ∧ ∀ x ∈ cut', ∀ y ∈ rest, y.Score ≤ x.Score := by
  induction t generalizing h cut with
  | zero => exact ⟨cut, h, rfl, List.Perm.refl _, by simp, hsorted, hdom⟩
  | succ t ih =>
    by_cases hl : h.length > 0
    · obtain ⟨e, h', hp⟩ := HotKeyEntries.heapPop_isSome h hl
      have hperm := HotKeyEntries.heapPop_perm h e h' hp
      have hlen := HotKeyEntries.heapPop_length h e h' hp
      obtain ⟨hheap, hmax⟩ := HotKeyEntries.heapPop_heap h e h' H hp
      have heh : e ∈ h := hperm.symm.subset (by simp)
      have hsub : ∀ y ∈ h', y ∈ h := fun y hy => hperm.symm.subset (by simp [hy])
      have hsorted' : (cut ++ [e]).Pairwise (fun a b => b.Score ≤ a.Score) := by
        rw [List.pairwise_append]
        refine ⟨hsorted, List.pairwise_singleton _ _, ?_⟩
        intro a ha b hb
        rw [List.mem_singleton] at hb
        subst hb
        exact hdom a ha b heh
      have hdom' : ∀ x ∈ cut ++ [e], ∀ y ∈ h', y.Score ≤ x.Score := by
        intro x hx y hy
        rcases List.mem_append.1 hx with hx | hx
        · exact hdom x hx y (hsub y hy)
        · rw [List.mem_singleton] at hx
          subst hx
          exact hmax y (hsub y hy)
      obtain ⟨cut', rest, hrun, hp', hlen', hs', hd'⟩ := ih h' (cut ++ [e]) hheap hsorted' hdom'
      refine ⟨cut', rest, ?_, ?_, ?_, hs', hd'⟩
      · simp only [cutLoop, hl, if_true, hp]
        exact hrun
      · refine hp'.trans ?_
        rw [List.append_assoc]
        exact List.Perm.append_left cut
          ((List.perm_append_comm).trans hperm.symm)
      · rw [hlen', List.length_append, List.length_singleton]
        omega
    · have h0 : h.length = 0 := by omega
      refine ⟨cut, h, ?_, List.Perm.refl _, by simp [h0], hsorted, hdom⟩
      simp only [cutLoop, hl, if_false]

/-- C24: for every list of `m` entries and every `N ≥ 0`, the cut of `Aggregate`
(`heap.Init`, then at most `N` times `heap.Pop`) returns; the list `cutN` has
`min(N, m)` entries; its scores do not increase from one entry to the next; together
with the entries left in the heap it holds the entries given, each as often as it was
given; and no entry left in the heap has a larger score than an entry of `cutN`. -/
theorem Aggregate_cut (hotKeyEntries : HotKeyEntries) (topN : Int) (hN : 0 ≤ topN) :
    ∃ cut rest, cutN hotKeyEntries topN = some (cut, rest)
      ∧ (cut.length : Int) = min topN (hotKeyEntries.length : Int)
      ∧ cut.Pairwise (fun a b => b.Score ≤ a.Score)
      ∧ (cut ++ rest).Perm hotKeyEntries
      ∧ ∀ x ∈ cut, ∀ y ∈ rest, y.Score ≤ x.Score := by
  have H : HotKeyEntries.HeapFrom (HotKeyEntries.heapInit hotKeyEntries) 0
      (HotKeyEntries.heapInit hotKeyEntries).length := by
    rw [HotKeyEntries.heapInit_length]
    exact HotKeyEntries.heapInit_heap hotKeyEntries
  obtain ⟨cut, rest, hrun, hperm, hlen, hsorted, hdom⟩ :=
    cutLoop_spec topN.toNat (HotKeyEntries.heapInit hotKeyEntries) [] H List.Pairwise.nil
      (by simp)
  rw [HotKeyEntries.heapInit_length] at hlen
  simp only [List.length_nil, Nat.zero_add, List.nil_append] at hlen hperm
  have hneg : ¬ topN < 0 := by omega
  refine ⟨cut, rest, by simp only [cutN, hneg, if_false]; exact hrun, ?_, hsorted,
    hperm.trans (HotKeyEntries.heapInit_perm hotKeyEntries), hdom⟩
  rw [hlen]
  omega

/-- C24, on three reports, of which the second does not decode, and `N = 2`: of the four
entries collected the cut keeps the two with the scores 9 and 7, in this order. -/
theorem Aggregate_cut_witness :
    (0 : Int) ≤ 2
      ∧ (∃ cut rest,
          cutN (collect [some [("a", 5), ("b", 7)], none, some [("c", 6), ("a", 9)]]) 2
            = some (cut, rest)
          ∧ (cut.length : Int) = min 2 4 ∧ cut.Pairwise (fun a b => b.Score ≤ a.Score))
      ∧ cutN (collect [some [("a", 5), ("b", 7)], none, some [("c", 6), ("a", 9)]]) 2
          = some ([⟨"a", 9⟩, ⟨"b", 7⟩], [⟨"c", 6⟩, ⟨"a", 5⟩]) :=
  ⟨by decide,
    (Aggregate_cut (collect [some [("a", 5), ("b", 7)], none, some [("c", 6), ("a", 9)]]) 2
      (by decide)).imp (fun _ h => h.imp (fun _ h' => ⟨h'.1, h'.2.1, h'.2.2.1⟩)),
    by decide⟩

/-! ## The reporter and the aggregator: the keys of the reports -/

theorem append_colon_inj (a b c : String) (h : a ++ ":" ++ b = a ++ ":" ++ c) : b = c := by
  have := congrArg String.data h
  simp only [String.data_append, List.append_assoc, List.append_cancel_left_eq] at this
  exact String.ext this

/-- The key of a report is among the keys that `discover` returns only when the identity
of the reporter, port and all, is the node address of an instance. -/
theorem mem_discover (aggregator : MemcachedHotKeyAggregator) (reporters : List String)
    (identity : String) (rawBytes : List UInt8) :
    (MemcachedHotKeyReporter.Report ⟨identity, aggregator.reportKey⟩ rawBytes).Key
        ∈ aggregator.discover (some reporters)
      ↔ identity ∈ reporters := by
  simp only [MemcachedHotKeyReporter.Report, MemcachedHotKeyAggregator.discover, List.mem_map]
  constructor
  · rintro ⟨a, ha, heq⟩
    rw [append_colon_inj _ _ _ heq] at ha
    exact ha
  · intro h
    exact ⟨identity, h, rfl⟩

theorem ReporterIdentity_ne (hostname host : String) (port : Int) :
    ReporterIdentity hostname host port ≠ (if host = "" then hostname else host) := by
  intro h
  have := congrArg String.length h
  simp only [ReporterIdentity, String.length_append] at this
  have h1 : (":" : String).length = 1 := rfl
  omega

/-- C25, refuted: for every report key, host and port, the key under which the reporter
of identity `ReporterIdentity(host, port)` sets its report is the report key, a colon,
the host, a colon and the port, while the key that the aggregator makes for an instance
whose node address is that host is the report key, a colon and the host: the two are
different, and the key of the report is not among the keys that `discover` returns for
that instance. With the flags of `main`, `MEMCACHED_HOT_KEYS:10.0.0.1:11211` against
`MEMCACHED_HOT_KEYS:10.0.0.1`. -/
theorem report_key_not_discovered (aggregator : MemcachedHotKeyAggregator)
    (hostname host : String) (port : Int) (rawBytes : List UInt8) :
    (MemcachedHotKeyReporter.Report
        ⟨ReporterIdentity hostname host port, aggregator.reportKey⟩ rawBytes).Key
      = aggregator.reportKey ++ ":" ++ (if host = "" then hostname else host) ++ ":"
          ++ decimal port
    ∧ aggregator.discover (some [if host = "" then hostname else host])
      = [aggregator.reportKey ++ ":" ++ (if host = "" then hostname else host)]
    ∧ (MemcachedHotKeyReporter.Report
        ⟨ReporterIdentity hostname host port, aggregator.reportKey⟩ rawBytes).Key
      ∉ aggregator.discover (some [if host = "" then hostname else host])
    ∧ (MemcachedHotKeyReporter.Report
        ⟨ReporterIdentity "box" "10.0.0.1" 11211, "MEMCACHED_HOT_KEYS"⟩ []).Key
      = "MEMCACHED_HOT_KEYS:10.0.0.1:11211"
    ∧ MemcachedHotKeyAggregator.discover ⟨"mc_hotkeys", "MEMCACHED_HOT_KEYS", 10⟩
        (some ["10.0.0.1"]) = ["MEMCACHED_HOT_KEYS:10.0.0.1"] := by
  refine ⟨?_, rfl, ?_, by decide, by decide⟩
  · simp only [MemcachedHotKeyReporter.Report, ReporterIdentity]
    apply String.ext
    simp only [String.data_append, List.append_assoc]
  · rw [mem_discover]
    simp only [List.mem_singleton]
    exact ReporterIdentity_ne hostname host port

/-! ## The aggregator: the leader loop of `elect` -/

namespace Elect

theorem Inv_start : Inv start := Or.inl ⟨rfl, rfl, rfl⟩

theorem Inv_next (s : Elect) (e : Event) (H : Inv s) : Inv (s.next e) := by
  obtain ⟨at_, ticked, stopped, leaderClosed, aggregates, locks⟩ := s
  cases e with
  | step =>
    cases at_ with
    | lock =>
      rcases H with ⟨_, h2, h3⟩ | ⟨h1, _⟩
      · simp only at h2 h3
        subst h2 h3
        exact Or.inr ⟨by simp [next, step], by simp [next, step], by simp [next, step]⟩
      · exact absurd rfl h1
    | tick =>
      rcases H with ⟨h1, _⟩ | ⟨_, h2, h3⟩
      · cases h1
      · cases ticked
        · exact Or.inr ⟨by simp [next, step], by simpa [next, step] using h2,
            by simpa [next, step] using h3⟩
        · exact Or.inr ⟨by simp [next, step], by simpa [next, step] using h2,
            by simpa [next, step] using h3⟩
    | select =>
      rcases H with ⟨h1, _⟩ | ⟨_, h2, h3⟩
      · cases h1
      · cases leaderClosed
        · exact Or.inr ⟨by simp [next, step], by simpa [next, step] using h2,
            by simpa [next, step] using h3⟩
        · exact Or.inr ⟨by simp [next, step], by simpa [next, step] using h2,
            by simp [next, step]⟩
    | aggregate =>
      rcases H with ⟨h1, _⟩ | ⟨_, h2, h3⟩
      · cases h1
      · have := h3 (Or.inl rfl)
        exact Or.inr ⟨by simp [next, step], by simpa [next, step] using h2,
          by simpa [next, step] using this⟩
  | fire =>
    rcases H with ⟨h1, h2, h3⟩ | ⟨h1, h2, h3⟩
    · simp only at h1 h2 h3
      subst h1 h2 h3
      cases stopped <;> exact Or.inl ⟨rfl, rfl, rfl⟩
    · cases stopped
      · exact Or.inr ⟨by simpa [next, fire] using h1, by simpa [next, fire] using h2,
          by simpa [next, fire] using h3⟩
      · exact Or.inr ⟨by simpa [next, fire] using h1, by simpa [next, fire] using h2,
          by simpa [next, fire] using h3⟩
  | lose =>
    rcases H with ⟨h1, h2, h3⟩ | ⟨h1, h2, h3⟩
    · exact Or.inl ⟨h1, h2, h3⟩
    · refine Or.inr ⟨h1, h2, ?_⟩
      intro h
      exact ⟨rfl, (h3 h).2⟩

theorem Inv_run (s : Elect) (events : List Event) (H : Inv s) : Inv (s.run events) := by
  induction events generalizing s with
  | nil => exact H
  | cons e events ih => exact ih _ (Inv_next s e H)

/-- With the ticker stopped and no tick waiting, `elect` stays at `<-ticker.C`. -/
theorem stuck (events : List Event) (s : Elect) (h1 : s.at_ = ElectAt.tick)
    (h2 : s.ticked = false) (h3 : s.stopped = true) :
    (s.run events).at_ = ElectAt.tick ∧ (s.run events).ticked = false
      ∧ (s.run events).stopped = true ∧ (s.run events).aggregates = s.aggregates
      ∧ (s.run events).locks = s.locks := by
  induction events generalizing s with
  | nil => exact ⟨h1, h2, h3, rfl, rfl⟩
  | cons e events ih =>
    obtain ⟨at_, ticked, stopped, leaderClosed, aggregates, locks⟩ := s
    simp only at h1 h2 h3
    subst h1 h2 h3
    cases e with
    | step => exact ih _ rfl rfl rfl
    | fire => exact ih _ rfl rfl rfl
    | lose => exact ih (lose _) rfl rfl rfl

end Elect

/-- C26, refuted: a tick on which the channel `leader` is still open makes the `select`
wait, and `Aggregate` is not called; a tick on which the channel is closed stops the
ticker, and `Aggregate` is called all the same, since the `break` ends the `select` and
not the loop; after that call `elect` waits for a tick of the stopped ticker, and no
event makes it call `locker.Lock` again. At every moment of every run at most one call
of `locker.Lock` has returned, and `Aggregate` has only been called with the channel
closed. On the run of a tick under leadership, the loss of the leadership and one more
firing of the ticker, `Aggregate` is not called before the loss and is called once after
it. -/
theorem elect_leader_loop :
    (∀ s : Elect, s.at_ = ElectAt.select → s.leaderClosed = false → s.step = none)
      ∧ (∀ s : Elect, s.at_ = ElectAt.select → s.leaderClosed = true →
          ∃ s₁ s₂, s.step = some s₁ ∧ s₁.step = some s₂
            ∧ s₂.aggregates = s.aggregates + 1 ∧ s₂.stopped = true
            ∧ s₂.at_ = ElectAt.tick ∧ s₂.locks = s.locks
            ∧ (s.ticked = false → ∀ events, (s₂.run events).at_ = ElectAt.tick
                ∧ (s₂.run events).aggregates = s.aggregates + 1
                ∧ (s₂.run events).locks = s.locks))
      ∧ (∀ events, (Elect.start.run events).locks ≤ 1
          ∧ (0 < (Elect.start.run events).aggregates →
              (Elect.start.run events).leaderClosed = true))
      ∧ Elect.start.run [Elect.Event.step, Elect.Event.fire, Elect.Event.step,
            Elect.Event.step]
          = { at_ := ElectAt.select, ticked := false, stopped := false, leaderClosed := false,
              aggregates := 0, locks := 1 }
      ∧ Elect.start.run [Elect.Event.step, Elect.Event.fire, Elect.Event.step,
            Elect.Event.step, Elect.Event.lose, Elect.Event.step, Elect.Event.step,
            Elect.Event.fire, Elect.Event.step, Elect.Event.step]
          = { at_ := ElectAt.tick, ticked := false, stopped := true, leaderClosed := true,
              aggregates := 1, locks := 1 } := by
  refine ⟨?_, ?_, ?_, by decide, by decide⟩
  · intro s h1 h2
    simp only [Elect.step, h1, h2, Bool.false_eq_true, if_false]
  · intro s h1 h2
    refine ⟨{ s with at_ := ElectAt.aggregate, stopped := true },
      { s with at_ := ElectAt.tick, stopped := true, aggregates := s.aggregates + 1 },
      by simp only [Elect.step, h1, h2, if_true], rfl, rfl, rfl, rfl, rfl, ?_⟩
    intro ht events
    have := Elect.stuck events
      ({ s with at_ := ElectAt.tick, stopped := true, aggregates := s.aggregates + 1 } : Elect)
      rfl ht rfl
    exact ⟨this.1, this.2.2.2.1, this.2.2.2.2⟩
  · intro events
    have H := Elect.Inv_run Elect.start events Elect.Inv_start
    rcases H with ⟨_, h2, h3⟩ | ⟨_, h2, h3⟩
    · exact ⟨by omega, fun h => by omega⟩
    · exact ⟨by omega, fun h => (h3 (Or.inr h)).1⟩

/-! ## The registry: decimal numbers -/

theorem digitChar_spec :
    ∀ d, d < 10 → '0' ≤ Nat.digitChar d ∧ Nat.digitChar d ≤ '9'
      ∧ (Nat.digitChar d).toNat - '0'.toNat = d := by
  decide

theorem digit_ne_colon (c : Char) (h : '0' ≤ c ∧ c ≤ '9') : c ≠ ':' ∧ c ≠ '-' ∧ c ≠ '+' := by
  refine ⟨?_, ?_, ?_⟩ <;> (intro hc; subst hc; revert h; decide)

theorem parseDigits_append (L rest : List Char) (a n : Nat)
    (h : ∀ acc rest', parseDigits (L ++ rest') acc = parseDigits rest' (acc * 10 ^ L.length + n))
    (c : Char) (d : Nat) (hc : '0' ≤ c ∧ c ≤ '9') (hv : c.toNat - '0'.toNat = d) :
    parseDigits ((L ++ [c]) ++ rest) a
      = parseDigits rest (a * 10 ^ (L ++ [c]).length + (n * 10 + d)) := by
  rw [List.append_assoc, h]
  simp only [List.singleton_append, parseDigits, hc, and_self, if_true, hv,
    List.length_append, List.length_singleton]
  congr 1
  rw [pow_succ]
  ring

theorem toDigitsCore_spec (fuel : Nat) :
    ∀ (n : Nat) (acc : List Char), n < fuel →
      ∃ L, Nat.toDigitsCore 10 fuel n acc = L ++ acc ∧ L ≠ []
        ∧ (∀ c ∈ L, '0' ≤ c ∧ c ≤ '9')
        ∧ ∀ a rest, parseDigits (L ++ rest) a = parseDigits rest (a * 10 ^ L.length + n) := by
  induction fuel with
  | zero => intro n acc h; omega
  | succ fuel ih =>
    intro n acc hn
    have hd := digitChar_spec (n % 10) (Nat.mod_lt _ (by omega))
    by_cases hq : n / 10 = 0
    · refine ⟨[Nat.digitChar (n % 10)], ?_, by simp, ?_, ?_⟩
      · simp only [Nat.toDigitsCore, hq, if_true, List.singleton_append]
      · intro c hc
        rw [List.mem_singleton] at hc
        subst hc
        exact ⟨hd.1, hd.2.1⟩
      · intro a rest
        have hn10 : n % 10 = n := by
          have := Nat.div_add_mod n 10
          omega
        simp only [List.singleton_append, parseDigits, hd.1, hd.2.1, and_self, if_true, hd.2.2,
          List.length_singleton, pow_one]
        rw [hn10]
        rfl
    · have hlt : n / 10 < fuel := by
        have := Nat.div_add_mod n 10
        omega
      obtain ⟨L, hL, _, hdig, hparse⟩ := ih (n / 10) (Nat.digitChar (n % 10) :: acc) hlt
      refine ⟨L ++ [Nat.digitChar (n % 10)], ?_, by simp, ?_, ?_⟩
      · simp only [Nat.toDigitsCore, hq, if_false, hL, List.append_assoc, List.singleton_append]
      · intro c hc
        rcases List.mem_append.1 hc with hc | hc
        · exact hdig c hc
        · rw [List.mem_singleton] at hc
          subst hc
          exact ⟨hd.1, hd.2.1⟩
      · intro a rest
        rw [parseDigits_append L rest a (n / 10) hparse _ (n % 10) ⟨hd.1, hd.2.1⟩ hd.2.2]
        have := Nat.div_add_mod n 10
        congr 2
        omega

theorem toDigits_spec (n : Nat) :
    Nat.toDigits 10 n ≠ [] ∧ (∀ c ∈ Nat.toDigits 10 n, '0' ≤ c ∧ c ≤ '9')
      ∧ parseDigits (Nat.toDigits 10 n) 0 = some n := by
  obtain ⟨L, hL, hne, hdig, hparse⟩ := toDigitsCore_spec (n + 1) n [] (by omega)
  rw [List.append_nil] at hL
  have hL' : Nat.toDigits 10 n = L := hL
  rw [hL']
  refine ⟨hne, hdig, ?_⟩
  have := hparse 0 []
  simpa [parseDigits] using this

theorem colon_not_mem_decimal (p : Int) : ':' ∉ (decimal p).data := by
  cases p with
  | ofNat m =>
    intro h
    exact (digit_ne_colon _ ((toDigits_spec m).2.1 _ h)).1 rfl
  | negSucc m =>
    intro h
    simp only [decimal, List.mem_cons] at h
    rcases h with h | h
    · revert h; decide
    · exact (digit_ne_colon _ ((toDigits_spec (m + 1)).2.1 _ h)).1 rfl

theorem decimal_ne_nil (p : Int) : (decimal p).data ≠ [] := by
  cases p with
  | ofNat m => exact (toDigits_spec m).1
  | negSucc m => simp [decimal]

theorem ParseInt_decimal (p : Int) (hp : -2 ^ 63 ≤ p) (hp' : p < 2 ^ 63) :
    ParseInt (decimal p) = some p := by
  cases p with
  | ofNat m =>
    obtain ⟨hne, hdig, hparse⟩ := toDigits_spec m
    have hm : m < 2 ^ 63 := by
      have : (m : Int) < 2 ^ 63 := hp'
      exact_mod_cast this
    cases hd : Nat.toDigits 10 m with
    | nil => exact absurd hd hne
    | cons c rest =>
      have hc := digit_ne_colon c (hdig c (by rw [hd]; exact List.mem_cons_self _ _))
      have hplus : (c = '+') = False := eq_false hc.2.2
      have hminus : (c = '-') = False := eq_false hc.2.1
      have hcons : (c :: rest = []) = False := eq_false (List.cons_ne_nil c rest)
      have hge : (m ≥ 2 ^ 63) = False := eq_false (by omega)
      rw [hd] at hparse
      simp only [ParseInt, decimal, hd, hplus, hminus, decide_False, or_self, if_false, hcons,
        hparse, Bool.false_eq_true, not_false_eq_true, true_and, hge, false_and]
      rfl
  | negSucc m =>
    obtain ⟨hne, hdig, hparse⟩ := toDigits_spec (m + 1)
    have hm : m + 1 ≤ 2 ^ 63 := by
      have : -(2 : Int) ^ 63 ≤ Int.negSucc m := hp
      rw [Int.negSucc_eq] at this
      have h2 : ((m : Int) + 1) ≤ 2 ^ 63 := by omega
      exact_mod_cast h2
    have hgt : ¬ m + 1 > 2 ^ 63 := by omega
    simp only [ParseInt, decimal, decide_True, or_true, if_true, hne, if_false, hparse,
      not_true_eq_false, false_and, true_and, hgt]
    rw [Int.negSucc_eq]
    rfl

/-! ## The registry: `parseMcrouter` -/

theorem LastIndex_eq_none (l : List Char) (sep : Char) (h : sep ∉ l) : LastIndex l sep = none := by
  induction l with
  | nil => rfl
  | cons x xs ih =>
    have hx : x ≠ sep := fun hh => h (hh ▸ List.mem_cons_self _ _)
    have hxs : sep ∉ xs := fun hh => h (List.mem_cons_of_mem _ hh)
    simp only [LastIndex, ih hxs, hx, if_false]

theorem LastIndex_append (host port : List Char) (sep : Char) (h : sep ∉ port) :
    LastIndex (host ++ sep :: port) sep = some host.length := by
  induction host with
  | nil => simp only [List.nil_append, LastIndex, LastIndex_eq_none port sep h, if_true,
      List.length_nil]
  | cons x xs ih =>
    show (match LastIndex (xs ++ sep :: port) sep with
      | some i => some (i + 1)
      | none => if x = sep then some 0 else none) = some (xs.length + 1)
    rw [ih]

theorem not_mem_of_LastIndex (l : List Char) (sep : Char) (h : LastIndex l sep = none) :
    sep ∉ l := by
  induction l with
  | nil => simp
  | cons x xs ih =>
    simp only [LastIndex] at h
    cases hxs : LastIndex xs sep with
    | some j => rw [hxs] at h; simp at h
    | none =>
      rw [hxs] at h
      simp only at h
      by_cases hx : x = sep
      · rw [if_pos hx] at h; simp at h
      · intro hm
        rcases List.mem_cons.1 hm with hm | hm
        · exact hx hm.symm
        · exact ih hxs hm

theorem LastIndex_some (l : List Char) (sep : Char) (i : Nat) (h : LastIndex l sep = some i) :
    l = l.take i ++ sep :: l.drop (i + 1) ∧ sep ∉ l.drop (i + 1) ∧ (l.take i).length = i := by
  induction l generalizing i with
  | nil => simp [LastIndex] at h
  | cons x xs ih =>
    simp only [LastIndex] at h
    cases hxs : LastIndex xs sep with
    | some j =>
      rw [hxs] at h
      simp only [Option.some.injEq] at h
      subst h
      obtain ⟨h1, h2, h3⟩ := ih j hxs
      refine ⟨?_, ?_, ?_⟩
      · simp only [List.take_succ_cons, List.drop_succ_cons, List.cons_append]
        rw [← h1]
      · simpa using h2
      · simp only [List.take_succ_cons, List.length_cons, h3]
    | none =>
      rw [hxs] at h
      simp only at h
      by_cases hx : x = sep
      · rw [if_pos hx] at h
        simp only [Option.some.injEq] at h
        subst h
        subst hx
        refine ⟨by simp, ?_, by simp⟩
        simpa using not_mem_of_LastIndex xs x hxs
      · rw [if_neg hx] at h
        simp at h

theorem parseMcrouter_of_form (mcrouter : String) (p : Int) (host port : List Char)
    (hdata : mcrouter.data = host ++ ':' :: port) (hc : ':' ∉ port) (hh : host ≠ [])
    (hp : port ≠ []) :
    parseMcrouter mcrouter p
      = match Atoi (String.mk port) with
        | some _ => (String.mk host ++ ":" ++ decimal p, none)
        | none => ("", some McrouterError.ErrParseMcrouter) := by
  have hidx := LastIndex_append host port ':' hc
  have hpos : host.length > 0 := List.length_pos.2 hh
  have hplen : port.length > 0 := List.length_pos.2 hp
  have hcond : host.length > 0 ∧ host.length + 1 < (host ++ ':' :: port).length := by
    simp only [List.length_append, List.length_cons]
    omega
  have htake : (host ++ ':' :: port).take host.length = host := by
    rw [List.take_append_of_le_length (le_refl _)]
    simp
  have hdrop : (host ++ ':' :: port).drop (host.length + 1) = port := by
    rw [show host ++ ':' :: port = (host ++ [':']) ++ port by simp]
    rw [List.drop_append_of_le_length (by simp)]
    simp
  simp only [parseMcrouter, hdata, hidx, hcond, and_self, if_true, htake, hdrop]

theorem parseMcrouter_ok (mcrouter : String) (p : Int) (r : String)
    (h : parseMcrouter mcrouter p = (r, none)) :
    ∃ host port, mcrouter.data = host ++ ':' :: port ∧ ':' ∉ port ∧ host ≠ [] ∧ port ≠ []
      ∧ (Atoi (String.mk port)).isSome ∧ r = String.mk host ++ ":" ++ decimal p := by
  unfold parseMcrouter at h
  cases hidx : LastIndex mcrouter.data ':' with
  | none => rw [hidx] at h; simp at h
  | some colon =>
    rw [hidx] at h
    simp only at h
    obtain ⟨h1, h2, h3⟩ := LastIndex_some _ _ _ hidx
    by_cases hcond : colon > 0 ∧ colon + 1 < mcrouter.data.length
    · rw [if_pos hcond] at h
      cases ha : Atoi (String.mk (mcrouter.data.drop (colon + 1))) with
      | none => rw [ha] at h; simp at h
      | some v =>
        rw [ha] at h
        simp only [Prod.mk.injEq, and_true] at h
        refine ⟨mcrouter.data.take colon, mcrouter.data.drop (colon + 1), h1, h2, ?_, ?_, ?_,
          h.symm⟩
        · intro hnil
          rw [hnil] at h3
          simp only [List.length_nil] at h3
          omega
        · intro hnil
          have := congrArg List.length hnil
          simp only [List.length_drop, List.length_nil] at this
          omega
        · rw [ha]; rfl
    · rw [if_neg hcond] at h
      simp at h

theorem parseMcrouter_error (mcrouter : String) (p : Int) :
    (parseMcrouter mcrouter p).2 = none
      ∨ parseMcrouter mcrouter p = ("", some McrouterError.ErrParseMcrouter) := by
  unfold parseMcrouter
  cases LastIndex mcrouter.data ':' with
  | none => exact Or.inr rfl
  | some colon =>
    simp only
    split
    · cases Atoi (String.mk (mcrouter.data.drop (colon + 1))) with
      | none => exact Or.inr rfl
      | some v => exact Or.inl rfl
    · exact Or.inr rfl

theorem parseMcrouter_fixed (host : List Char) (p : Int) (hh : host ≠ [])
    (hp : -2 ^ 63 ≤ p) (hp' : p < 2 ^ 63) :
    parseMcrouter (String.mk host ++ ":" ++ decimal p) p
      = (String.mk host ++ ":" ++ decimal p, none) := by
  have hdata : (String.mk host ++ ":" ++ decimal p).data = host ++ ':' :: (decimal p).data := by
    simp only [String.data_append, List.append_assoc]
    rfl
  rw [parseMcrouter_of_form _ p host (decimal p).data hdata (colon_not_mem_decimal p) hh
    (decimal_ne_nil p)]
  have : Atoi (String.mk (decimal p).data) = some p := ParseInt_decimal p hp hp'
  rw [this]

/-- C27: `parseMcrouter(addr, p)` returns the host, a colon and the decimal digits of
`p` when `addr` is a host that is not empty, then the last colon of `addr`, then a port
that is not empty and that `Atoi` accepts, and it returns the empty string and
`ErrParseMcrouter` when `addr` is not of this form; and, `p` being an `int`, what it
returns for `addr` is what it returns for the string it returned:
`parseMcrouter(parseMcrouter(addr, p), p) = parseMcrouter(addr, p)`. -/
theorem parseMcrouter_spec (mcrouter : String) (p : Int) (hp : -2 ^ 63 ≤ p) (hp' : p < 2 ^ 63) :
    (∀ host port, mcrouter.data = host ++ ':' :: port → ':' ∉ port → host ≠ [] → port ≠ [] →
        (Atoi (String.mk port)).isSome →
        parseMcrouter mcrouter p = (String.mk host ++ ":" ++ decimal p, none))
      ∧ ((∀ host port, mcrouter.data = host ++ ':' :: port → ':' ∉ port →
            host = [] ∨ port = [] ∨ Atoi (String.mk port) = none) →
          parseMcrouter mcrouter p = ("", some McrouterError.ErrParseMcrouter))
      ∧ parseMcrouter (parseMcrouter mcrouter p).1 p = parseMcrouter mcrouter p := by
  refine ⟨?_, ?_, ?_⟩
  · intro host port hdata hc hh hport hatoi
    rw [parseMcrouter_of_form mcrouter p host port hdata hc hh hport]
    cases ha : Atoi (String.mk port) with
    | none => rw [ha] at hatoi; simp at hatoi
    | some v => rfl
  · intro hall
    rcases parseMcrouter_error mcrouter p with hok | herr
    · have heq : parseMcrouter mcrouter p = ((parseMcrouter mcrouter p).1, none) := by
        rw [← hok]
      obtain ⟨host, port, hdata, hc, hh, hport, hatoi, _⟩ := parseMcrouter_ok mcrouter p _ heq
      rcases hall host port hdata hc with h | h | h
      · exact absurd h hh
      · exact absurd h hport
      · rw [h] at hatoi; simp at hatoi
    · exact herr
  · rcases parseMcrouter_error mcrouter p with hok | herr
    · have heq : parseMcrouter mcrouter p = ((parseMcrouter mcrouter p).1, none) := by
        rw [← hok]
      obtain ⟨host, port, _, _, hh, _, _, hr⟩ := parseMcrouter_ok mcrouter p _ heq
      rw [heq]
      simp only
      rw [hr]
      exact parseMcrouter_fixed host p hh hp hp'
    · rw [herr]
      rfl

/-- C27, on the address and the port of `TestMcrouterRegistry`: `localhost:10000` gives
`localhost:8989`, which gives itself; `localhost`, `:10000`, `localhost:` and
`localhost:http` give the error. -/
theorem parseMcrouter_spec_witness :
    (-2 ^ 63 ≤ (8989 : Int)) ∧ ((8989 : Int) < 2 ^ 63)
      ∧ parseMcrouter "localhost:10000" 8989 = ("localhost:8989", none)
      ∧ parseMcrouter (parseMcrouter "localhost:10000" 8989).1 8989
          = parseMcrouter "localhost:10000" 8989
      ∧ parseMcrouter "localhost" 8989 = ("", some McrouterError.ErrParseMcrouter)
      ∧ parseMcrouter ":10000" 8989 = ("", some McrouterError.ErrParseMcrouter)
      ∧ parseMcrouter "localhost:" 8989 = ("", some McrouterError.ErrParseMcrouter)
      ∧ parseMcrouter "localhost:http" 8989 = ("", some McrouterError.ErrParseMcrouter) :=
  ⟨by decide, by decide,
    (parseMcrouter_spec "localhost:10000" 8989 (by decide) (by decide)).1
      "localhost".data "10000".data rfl (by decide) (by decide) (by decide) (by decide),
    (parseMcrouter_spec "localhost:10000" 8989 (by decide) (by decide)).2.2,
    by decide, by decide, by decide, by decide⟩

/-! ## The registry: `Register` and `Unregister` -/

namespace UsageMap

theorem find?_put_usage (m : UsageMap) (k : String) (v : Int) (k' : String) :
    find? (put m k v) k' = if k = k' then some v else find? m k' := by
  induction m with
  | nil => simp [put, find?]
  | cons e m ih =>
    obtain ⟨k₀, v₀⟩ := e
    by_cases h : k₀ = k
    · subst h
      by_cases h' : k₀ = k' <;> simp [put, find?, h']
    · by_cases h' : k₀ = k'
      · subst h'
        simp [put, find?, h, Ne.symm h]
      · simp [put, find?, h, h', ih]

theorem get_put_usage (m : UsageMap) (k : String) (v : Int) (k' : String) :
    get (put m k v) k' = if k = k' then v else get m k' := by
  unfold get
  rw [find?_put_usage]
  split <;> rfl

theorem mem_put_usage (m : UsageMap) (k : String) (v : Int) (e : String × Int)
    (h : e ∈ put m k v) : e ∈ m ∨ e = (k, v) := by
  induction m with
  | nil =>
    simp only [put, List.mem_singleton] at h
    exact Or.inr h
  | cons e₀ m ih =>
    obtain ⟨k₀, v₀⟩ := e₀
    by_cases hk : k₀ = k
    · subst hk
      simp only [put, if_true, List.mem_cons] at h
      rcases h with h | h
      · exact Or.inr h
      · exact Or.inl (List.mem_cons_of_mem _ h)
    · simp only [put, hk, if_false, List.mem_cons] at h
      rcases h with h | h
      · exact Or.inl (h ▸ List.mem_cons_self _ _)
      · rcases ih h with h' | h'
        · exact Or.inl (List.mem_cons_of_mem _ h')
        · exact Or.inr h'

theorem keys_put_usage (m : UsageMap) (k : String) (v : Int) :
    (put m k v).map Prod.fst = if k ∈ m.map Prod.fst then m.map Prod.fst
      else m.map Prod.fst ++ [k] := by
  induction m with
  | nil => simp [put]
  | cons e m ih =>
    obtain ⟨k₀, v₀⟩ := e
    by_cases hk : k₀ = k
    · subst hk
      simp [put]
    · have hk' : ¬ k = k₀ := fun h => hk h.symm
      simp only [put, hk, if_false, List.map_cons, ih, List.mem_cons, hk', false_or]
      split <;> simp

theorem nodup_put_usage (m : UsageMap) (k : String) (v : Int) (h : (m.map Prod.fst).Nodup) :
    ((put m k v).map Prod.fst).Nodup := by
  rw [keys_put_usage]
  split
  · exact h
  · rename_i hk
    rw [List.nodup_append]
    refine ⟨h, List.nodup_singleton _, ?_⟩
    intro a ha hb
    rw [List.mem_singleton] at hb
    subst hb
    exact hk ha

theorem find?_of_mem_usage (m : UsageMap) (h : (m.map Prod.fst).Nodup) (k : String) (v : Int)
    (hm : (k, v) ∈ m) : find? m k = some v := by
  induction m with
  | nil => simp at hm
  | cons e m ih =>
    obtain ⟨k₀, v₀⟩ := e
    simp only [List.map_cons, List.nodup_cons] at h
    rcases List.mem_cons.mp hm with heq | hmem
    · cases heq
      simp [find?]
    · have hne : k₀ ≠ k := by
        intro hk
        subst hk
        exact h.1 (List.mem_map.mpr ⟨(k₀, v), hmem, rfl⟩)
      have := ih h.2 hmem
      simpa [find?, hne] using this

theorem mem_of_find?_usage (m : UsageMap) (k : String) (v : Int) (h : find? m k = some v) :
    (k, v) ∈ m := by
  induction m with
  | nil => simp [find?] at h
  | cons e m ih =>
    obtain ⟨k₀, v₀⟩ := e
    by_cases hk : k₀ = k
    · subst hk
      simp [find?] at h
      subst h
      exact List.mem_cons_self _ _
    · simp [find?, hk] at h
      exact List.mem_cons_of_mem _ (ih h)

end UsageMap

namespace SimpleMcrouterRegistry

/-- The server list after `unsafeUpdateServerList` holds the keys whose usage is
positive. -/
theorem mem_ss (registry : SimpleMcrouterRegistry)
    (hnd : (registry.mcrouters.map Prod.fst).Nodup) (m : String) :
    m ∈ (unsafeUpdateServerList registry).ss ↔ 0 < UsageMap.get registry.mcrouters m := by
  simp only [unsafeUpdateServerList, List.mem_map, List.mem_filter, decide_eq_true_eq,
    Prod.exists, exists_and_right, exists_eq_right, UsageMap.get]
  constructor
  · rintro ⟨v, hm, hv⟩
    rw [UsageMap.find?_of_mem_usage _ hnd m v hm]
    exact hv
  · intro h
    cases hf : UsageMap.find? registry.mcrouters m with
    | none => rw [hf] at h; simp at h
    | some v =>
      rw [hf] at h
      exact ⟨v, UsageMap.mem_of_find?_usage _ _ _ hf, h⟩

theorem Register_present (testMcrouter : String → Bool) (registry : SimpleMcrouterRegistry)
    (mcrouter : String) (h : (UsageMap.find? registry.mcrouters mcrouter).isSome) :
    Register testMcrouter registry mcrouter = (none, registry) := by
  simp only [Register, h, if_true]

theorem Register_fresh (testMcrouter : String → Bool) (registry : SimpleMcrouterRegistry)
    (mcrouter testing : String) (h : UsageMap.find? registry.mcrouters mcrouter = none)
    (hparse : parseMcrouter mcrouter registry.mcrouterPort = (testing, none))
    (hprobe : testMcrouter testing = true) :
    Register testMcrouter registry mcrouter
      = (none, unsafeUpdateServerList { registry with
          mcrouters := registry.mcrouters.put testing
            (wrapInt64 (UsageMap.get registry.mcrouters testing + 1)) }) := by
  simp only [Register, h, Option.isSome_none, Bool.false_eq_true, if_false, hparse, hprobe,
    if_true]

theorem Unregister_absent (registry : SimpleMcrouterRegistry) (mcrouter : String)
    (h : UsageMap.find? registry.mcrouters mcrouter = none) :
    Unregister registry mcrouter = (none, registry) := by
  simp only [Unregister, h, Option.isSome_none, Bool.false_eq_true, not_false_eq_true, if_true]

theorem Register_mcrouters (testMcrouter : String → Bool) (registry : SimpleMcrouterRegistry)
    (mcrouter : String) :
    (Register testMcrouter registry mcrouter).2.mcrouterPort = registry.mcrouterPort
      ∧ ((Register testMcrouter registry mcrouter).2.mcrouters = registry.mcrouters
        ∨ ∃ testing v, parseMcrouter mcrouter registry.mcrouterPort = (testing, none)
            ∧ (Register testMcrouter registry mcrouter).2.mcrouters
                = registry.mcrouters.put testing v) := by
  unfold Register
  split
  · exact ⟨rfl, Or.inl rfl⟩
  · split
    · rename_i testing hparse
      split
      · exact ⟨rfl, Or.inr ⟨testing, _, hparse, rfl⟩⟩
      · exact ⟨rfl, Or.inl rfl⟩
    · exact ⟨rfl, Or.inl rfl⟩

theorem RouterKeys_new (port : Int) : RouterKeys (NewMcrouterRegistry port) := by
  intro e he
  simp [NewMcrouterRegistry] at he

theorem RouterKeys_Register (testMcrouter : String → Bool) (registry : SimpleMcrouterRegistry)
    (mcrouter : String) (H : RouterKeys registry) :
    RouterKeys (Register testMcrouter registry mcrouter).2 := by
  obtain ⟨hport, hm⟩ := Register_mcrouters testMcrouter registry mcrouter
  intro e he
  rw [hport]
  rcases hm with hm | ⟨testing, v, hparse, hm⟩
  · rw [hm] at he
    exact H e he
  · rw [hm] at he
    rcases UsageMap.mem_put_usage _ _ _ _ he with h | h
    · exact H e h
    · obtain ⟨host, port, _, _, hh, _, _, hr⟩ := parseMcrouter_ok _ _ _ hparse
      exact ⟨host, hh, by rw [h]; exact hr⟩

/-- A remote address that is not a host, a colon and the decimal digits of the router
port is not a key of `mcrouters`, before `Register` and after it, so that `Unregister`
of it leaves the registry as it is. -/
theorem Unregister_after_Register (testMcrouter : String → Bool)
    (registry : SimpleMcrouterRegistry) (mcrouter : String) (H : RouterKeys registry)
    (hne : ∀ host : List Char, mcrouter ≠ String.mk host ++ ":" ++ decimal registry.mcrouterPort) :
    Unregister (Register testMcrouter registry mcrouter).2 mcrouter
      = (none, (Register testMcrouter registry mcrouter).2) := by
  apply Unregister_absent
  have H' := RouterKeys_Register testMcrouter registry mcrouter H
  have hport := (Register_mcrouters testMcrouter registry mcrouter).1
  cases hf : UsageMap.find? (Register testMcrouter registry mcrouter).2.mcrouters mcrouter with
  | none => rfl
  | some v =>
    obtain ⟨host, _, hk⟩ := H' _ (UsageMap.mem_of_find?_usage _ _ _ hf)
    rw [hport] at hk
    exact absurd hk (hne host)

end SimpleMcrouterRegistry

/-- C22, refuted by evaluation: on a new registry with the router port 8989, with a
probe that succeeds, `Register("localhost:10000")` returns no error and leaves the entry
`localhost:8989` with the usage 1 and in the server list; `Unregister("localhost:10000")`
then looks up `localhost:10000`, which is not a key, and returns with the usage still 1
and the server still in the list. It is so for every remote address whose port is not
the router port in decimal digits: `Unregister` of an address that is not a key leaves
the registry as it is. -/
theorem Unregister_keeps_usage :
    SimpleMcrouterRegistry.Register (fun _ => true) (NewMcrouterRegistry 8989) "localhost:10000"
        = (none, ⟨["localhost:8989"], 8989, [("localhost:8989", 1)]⟩)
      ∧ SimpleMcrouterRegistry.Unregister ⟨["localhost:8989"], 8989, [("localhost:8989", 1)]⟩
          "localhost:10000"
        = (none, ⟨["localhost:8989"], 8989, [("localhost:8989", 1)]⟩)
      ∧ (∀ (registry : SimpleMcrouterRegistry) (mcrouter : String),
          UsageMap.find? registry.mcrouters mcrouter = none →
            SimpleMcrouterRegistry.Unregister registry mcrouter = (none, registry))
      ∧ SimpleMcrouterRegistry.Unregister ⟨["localhost:8989"], 8989, [("localhost:8989", 1)]⟩
          "localhost:8989"
        = (none, ⟨[], 8989, [("localhost:8989", 0)]⟩) := by
  refine ⟨by decide, by decide, SimpleMcrouterRegistry.Unregister_absent, by decide⟩

/-- C23, refuted by evaluation: on a new registry with the router port 8989, with a
probe that succeeds, the first `Register("localhost:10000")` leaves the usage of
`localhost:8989` at 1 and the second, which tests `mcrouters["localhost:10000"]`, finds
no such key and leaves the usage at 2. For the remote address `localhost:8989`, which is
the key it is stored under, the test finds the key and the second call leaves the
registry as the first left it. -/
theorem Register_not_idempotent :
    SimpleMcrouterRegistry.Register (fun _ => true) (NewMcrouterRegistry 8989) "localhost:10000"
        = (none, ⟨["localhost:8989"], 8989, [("localhost:8989", 1)]⟩)
      ∧ SimpleMcrouterRegistry.Register (fun _ => true)
          ⟨["localhost:8989"], 8989, [("localhost:8989", 1)]⟩ "localhost:10000"
        = (none, ⟨["localhost:8989"], 8989, [("localhost:8989", 2)]⟩)
      ∧ SimpleMcrouterRegistry.Register (fun _ => true) (NewMcrouterRegistry 8989)
          "localhost:8989"
        = (none, ⟨["localhost:8989"], 8989, [("localhost:8989", 1)]⟩)
      ∧ SimpleMcrouterRegistry.Register (fun _ => true)
          ⟨["localhost:8989"], 8989, [("localhost:8989", 1)]⟩ "localhost:8989"
        = (none, ⟨["localhost:8989"], 8989, [("localhost:8989", 1)]⟩) := by
  refine ⟨by decide, by decide, by decide, by decide⟩

namespace SimpleMcrouterRegistry

theorem mem_servers (M : UsageMap) (hnd : (M.map Prod.fst).Nodup) (m : String) :
    m ∈ (M.filter (fun e => decide (e.2 > 0))).map Prod.fst ↔ 0 < UsageMap.get M m :=
  mem_ss ⟨[], 0, M⟩ hnd m

theorem Register_fresh_proj (testMcrouter : String → Bool) (registry : SimpleMcrouterRegistry)
    (mcrouter testing : String) (h : UsageMap.find? registry.mcrouters mcrouter = none)
    (hparse : parseMcrouter mcrouter registry.mcrouterPort = (testing, none))
    (hprobe : testMcrouter testing = true) :
    (Register testMcrouter registry mcrouter).1 = none
      ∧ (Register testMcrouter registry mcrouter).2.mcrouterPort = registry.mcrouterPort
      ∧ (Register testMcrouter registry mcrouter).2.mcrouters
          = registry.mcrouters.put testing
              (wrapInt64 (UsageMap.get registry.mcrouters testing + 1))
      ∧ (Register testMcrouter registry mcrouter).2.ss
          = ((registry.mcrouters.put testing
              (wrapInt64 (UsageMap.get registry.mcrouters testing + 1))).filter
                (fun e => decide (e.2 > 0))).map Prod.fst := by
  rw [Register_fresh testMcrouter registry mcrouter testing h hparse hprobe]
  exact ⟨rfl, rfl, rfl, rfl⟩

end SimpleMcrouterRegistry

/-- What two calls of `Register` do, for a remote address that is not yet a key of
`mcrouters`, that `parseMcrouter` turns into the router entry `testing`, and whose probe
succeeds at both calls: `Register` returns no error both times; the first call adds 1 to
the usage of the router entry and leaves it in the server list; the second call leaves
the server list with the same servers; it leaves the registry as it is when the remote
address is the router entry itself, and adds 1 to the usage of the router entry once
more when it is not. -/
theorem Register_twice (testMcrouter₁ testMcrouter₂ : String → Bool)
    (registry : SimpleMcrouterRegistry) (mcrouter testing : String)
    (hnd : (registry.mcrouters.map Prod.fst).Nodup)
    (hnew : UsageMap.find? registry.mcrouters mcrouter = none)
    (hparse : parseMcrouter mcrouter registry.mcrouterPort = (testing, none))
    (h₁ : testMcrouter₁ testing = true) (h₂ : testMcrouter₂ testing = true)
    (hu : 0 ≤ UsageMap.get registry.mcrouters testing)
    (hu' : UsageMap.get registry.mcrouters testing + 2 < 2 ^ 63) :
    (SimpleMcrouterRegistry.Register testMcrouter₁ registry mcrouter).1 = none
      ∧ UsageMap.get
            (SimpleMcrouterRegistry.Register testMcrouter₁ registry mcrouter).2.mcrouters testing
          = UsageMap.get registry.mcrouters testing + 1
      ∧ testing ∈ (SimpleMcrouterRegistry.Register testMcrouter₁ registry mcrouter).2.ss
      ∧ (SimpleMcrouterRegistry.Register testMcrouter₂
            (SimpleMcrouterRegistry.Register testMcrouter₁ registry mcrouter).2 mcrouter).1
          = none
      ∧ (∀ m, m ∈ (SimpleMcrouterRegistry.Register testMcrouter₂
              (SimpleMcrouterRegistry.Register testMcrouter₁ registry mcrouter).2 mcrouter).2.ss
            ↔ m ∈ (SimpleMcrouterRegistry.Register testMcrouter₁ registry mcrouter).2.ss)
      ∧ (mcrouter = testing →
          (SimpleMcrouterRegistry.Register testMcrouter₂
              (SimpleMcrouterRegistry.Register testMcrouter₁ registry mcrouter).2 mcrouter).2
            = (SimpleMcrouterRegistry.Register testMcrouter₁ registry mcrouter).2)
      ∧ (mcrouter ≠ testing →
          UsageMap.get (SimpleMcrouterRegistry.Register testMcrouter₂
              (SimpleMcrouterRegistry.Register testMcrouter₁ registry mcrouter).2
              mcrouter).2.mcrouters testing
            = UsageMap.get registry.mcrouters testing + 2
          ∧ ∀ k, k ≠ testing →
              UsageMap.get (SimpleMcrouterRegistry.Register testMcrouter₂
                  (SimpleMcrouterRegistry.Register testMcrouter₁ registry mcrouter).2
                  mcrouter).2.mcrouters k
                = UsageMap.get registry.mcrouters k) := by
  obtain ⟨e₁, p₁, m₁, s₁⟩ := SimpleMcrouterRegistry.Register_fresh_proj testMcrouter₁ registry
    mcrouter testing hnew hparse h₁
  rw [wrapInt64_of_range _ (by omega) (by omega)] at m₁ s₁
  generalize SimpleMcrouterRegistry.Register testMcrouter₁ registry mcrouter = R₁ at e₁ p₁ m₁ s₁ ⊢
  generalize hu₀ : UsageMap.get registry.mcrouters testing = u at m₁ s₁ hu hu' ⊢
  have hnd₁ : ((registry.mcrouters.put testing (u + 1)).map Prod.fst).Nodup :=
    UsageMap.nodup_put_usage _ _ _ hnd
  have hget₁ : UsageMap.get R₁.2.mcrouters testing = u + 1 := by
    rw [m₁, UsageMap.get_put_usage, if_pos rfl]
  refine ⟨e₁, hget₁, ?_, ?_⟩
  · rw [s₁, SimpleMcrouterRegistry.mem_servers _ hnd₁, UsageMap.get_put_usage, if_pos rfl]; omega
  · by_cases heq : mcrouter = testing
    · have hpres : (UsageMap.find? R₁.2.mcrouters mcrouter).isSome := by
        rw [m₁, UsageMap.find?_put_usage, if_pos heq.symm]
        rfl
      rw [SimpleMcrouterRegistry.Register_present testMcrouter₂ _ mcrouter hpres]
      exact ⟨rfl, fun m => Iff.rfl, fun _ => rfl, fun h => absurd heq h⟩
    · have hnew₂ : UsageMap.find? R₁.2.mcrouters mcrouter = none := by
        rw [m₁, UsageMap.find?_put_usage, if_neg (fun h => heq h.symm)]
        exact hnew
      obtain ⟨e₂, _, m₂, s₂⟩ := SimpleMcrouterRegistry.Register_fresh_proj testMcrouter₂ R₁.2
        mcrouter testing hnew₂ (by rw [p₁]; exact hparse) h₂
      rw [hget₁, wrapInt64_of_range _ (by omega) (by omega), m₁] at m₂ s₂
      generalize SimpleMcrouterRegistry.Register testMcrouter₂ R₁.2 mcrouter = R₂ at e₂ m₂ s₂ ⊢
      have hnd₂ : (((registry.mcrouters.put testing (u + 1)).put testing (u + 1 + 1)).map
          Prod.fst).Nodup := UsageMap.nodup_put_usage _ _ _ hnd₁
      refine ⟨e₂, ?_, fun h => absurd h heq, fun _ => ⟨?_, ?_⟩⟩
      · intro m
        rw [s₂, s₁, SimpleMcrouterRegistry.mem_servers _ hnd₂,
          SimpleMcrouterRegistry.mem_servers _ hnd₁]
        by_cases hm : testing = m
        · simp only [UsageMap.get_put_usage, hm, if_true]
          constructor <;> intro _ <;> omega
        · simp only [UsageMap.get_put_usage, hm, if_false]
      · rw [m₂, UsageMap.get_put_usage, if_pos rfl]
        omega
      · intro k hk
        rw [m₂, UsageMap.get_put_usage, if_neg (fun h => hk h.symm), UsageMap.get_put_usage,
          if_neg (fun h => hk h.symm)]

/-- Two calls of `Register("localhost:10000")` on the registry of
`TestMcrouterRegistry`, with the router port 8989, leave the usage of `localhost:8989`
at 2, and the server list with that one server. -/
theorem Register_twice_witness :
    UsageMap.get (SimpleMcrouterRegistry.Register (fun _ => true)
        (SimpleMcrouterRegistry.Register (fun _ => true) (NewMcrouterRegistry 8989)
          "localhost:10000").2 "localhost:10000").2.mcrouters "localhost:8989" = 2
      ∧ ∀ m, m ∈ (SimpleMcrouterRegistry.Register (fun _ => true)
            (SimpleMcrouterRegistry.Register (fun _ => true) (NewMcrouterRegistry 8989)
              "localhost:10000").2 "localhost:10000").2.ss
          ↔ m ∈ (SimpleMcrouterRegistry.Register (fun _ => true) (NewMcrouterRegistry 8989)
              "localhost:10000").2.ss :=
  ⟨((Register_twice (fun _ => true) (fun _ => true) (NewMcrouterRegistry 8989)
      "localhost:10000" "localhost:8989" (by decide) (by decide) (by decide) rfl rfl
      (by decide) (by decide)).2.2.2.2.2.2 (by decide)).1,
    (Register_twice (fun _ => true) (fun _ => true) (NewMcrouterRegistry 8989)
      "localhost:10000" "localhost:8989" (by decide) (by decide) (by decide) rfl rfl
      (by decide) (by decide)).2.2.2.2.1⟩

/-! ## The codec: the advance of `scanCRLF` -/

theorem IndexAny_lt (data chars : List UInt8) (i : Nat) (h : IndexAny data chars = some i) :
    i < data.length := by
  induction data generalizing i with
  | nil => simp [IndexAny] at h
  | cons b rest ih =>
    simp only [IndexAny] at h
    split at h
    · simp only [Option.some.injEq] at h
      subst h
      simp
    · cases hr : IndexAny rest chars with
      | none => rw [hr] at h; simp at h
      | some j =>
        rw [hr] at h
        simp only [Option.map_some', Option.some.injEq] at h
        subst h
        have := ih j hr
        simp only [List.length_cons]
        omega

/-- The advance of `scanCRLF` is at most one byte beyond the data. -/
theorem scanCRLF_advance_le (data : List UInt8) (atEOF : Bool) :
    (scanCRLF data atEOF).1 ≤ data.length + 1 := by
  unfold scanCRLF
  split
  · simp
  · cases h : IndexAny data (bytesOf CRLF) with
    | some i =>
      have := IndexAny_lt _ _ _ h
      simp only
      omega
    | none =>
      simp only
      split <;> simp

/-- When the first CR or LF of the data is its last byte, the advance of `scanCRLF` is
one byte beyond the data. -/
theorem scanCRLF_last_delimiter (line : List UInt8) (b : UInt8) (atEOF : Bool)
    (h : ∀ x ∈ line, x ≠ 13 ∧ x ≠ 10) (hb : b = 13 ∨ b = 10) :
    (scanCRLF (line ++ [b]) atEOF).1 = (line ++ [b]).length + 1 := by
  rw [scanCRLF_first_delimiter line [] b atEOF h hb]
  simp

theorem scanCRLF_get_k :
    scanCRLF (bytesOf "get k\r") false = (7, some (bytesOf "get k"), none) := by
  decide

theorem Scan_get_k :
    (Scanner.new (bytesOf "get k\r")).Scan
      = (false, { buf := bytesOf "get k\r", token := [], done := true,
                  err := some Error.ErrAdvanceTooFar }) := by
  decide

/-- C31, refuted by evaluation: on the 6 bytes `get k` and CR, the LF not having arrived,
`scanCRLF` returns the advance 7, and the `Scan` that gets it ends with
`ErrAdvanceTooFar`. It is so whenever the first CR or LF of the data is its last byte;
the advance is never more than one byte beyond the data. -/
theorem scanCRLF_advance_too_far :
    scanCRLF (bytesOf "get k\r") false = (7, some (bytesOf "get k"), none)
      ∧ (bytesOf "get k\r").length = 6
      ∧ (Scanner.new (bytesOf "get k\r")).Scan
          = (false, { buf := bytesOf "get k\r", token := [], done := true,
                      err := some Error.ErrAdvanceTooFar })
      ∧ (∀ (line : List UInt8) (b : UInt8) (atEOF : Bool),
          (∀ x ∈ line, x ≠ 13 ∧ x ≠ 10) → b = 13 ∨ b = 10 →
            (scanCRLF (line ++ [b]) atEOF).1 = (line ++ [b]).length + 1)
      ∧ ∀ (data : List UInt8) (atEOF : Bool), (scanCRLF data atEOF).1 ≤ data.length + 1 :=
  ⟨scanCRLF_get_k, by decide, Scan_get_k, scanCRLF_last_delimiter, scanCRLF_advance_le⟩

/-! ## The codec: the byte count of a store header -/

theorem toUint64_of_nonneg (bytes : Int) (h0 : 0 ≤ bytes) (h1 : bytes < 2 ^ 63) :
    (toUint64 bytes : Int) = bytes := by
  unfold toUint64
  rw [Int.emod_eq_of_lt h0 (by omega)]
  exact Int.toNat_of_nonneg h0

theorem parseStore_minus_five :
    parseStore 1700000000 ["k", "0", "0", "-5"] = Except.ok ("k", -5, 0) := rfl

theorem OnCommand_minus_five :
    ((NewRollingWindowsMcrouterEavesdropper SimpleKeyScorer).OnCommand 1700000000 Command.SET
        ["k", "0", "0", "-5"] (Scanner.new (bytesOf "get k\r\n"))
        ⟨NewSimpleRollingWindows (NewSimpleKeyScorer 96) (fun _ => GetKeyCounter.empty {}) 1 5 0,
          SimpleKeyScorer.asKeyScorer⟩).map
      (fun r => (r.resp, r.err, r.scanner.buf, r.state.rollingWindows.scorer.trie))
      = some (some NotStored, none, [], [("k", ⟨18446744073709551611, 0⟩)]) := by
  decide

/-- C33, refuted by evaluation: `parseStore` accepts the header `k 0 0 -5` of the command
`set k 0 0 -5` and returns the byte count -5; `OnStore` then records for `k` the score
`uint64(-5)`, which is 18446744073709551611, and `skipN`, asked for -3 bytes, takes the
line that follows. When the count returned is not negative the score recorded is the
count. -/
theorem parseStore_negative_bytes :
    parseStore 1700000000 ["k", "0", "0", "-5"] = Except.ok ("k", -5, 0)
      ∧ toUint64 (-5) = 18446744073709551611
      ∧ ((NewRollingWindowsMcrouterEavesdropper SimpleKeyScorer).OnCommand 1700000000
            Command.SET ["k", "0", "0", "-5"] (Scanner.new (bytesOf "get k\r\n"))
            ⟨NewSimpleRollingWindows (NewSimpleKeyScorer 96) (fun _ => GetKeyCounter.empty {})
              1 5 0, SimpleKeyScorer.asKeyScorer⟩).map
          (fun r => (r.resp, r.err, r.scanner.buf, r.state.rollingWindows.scorer.trie))
          = some (some NotStored, none, [], [("k", ⟨18446744073709551611, 0⟩)])
      ∧ ∀ bytes : Int, 0 ≤ bytes → bytes < 2 ^ 63 → (toUint64 bytes : Int) = bytes :=
  ⟨parseStore_minus_five, by decide, OnCommand_minus_five, toUint64_of_nonneg⟩

/-! ## The scorer: the buckets against one scorer -/

theorem ScorersHold_new (buckets : Int) (hB : 1 ≤ (buckets % 2 ^ 32).toNat) (minBytes : Nat) :
    ScorersHold (NewBucketKeyScorer buckets minBytes) (NewSimpleKeyScorer minBytes) := by
  refine ⟨hB, by simp [NewBucketKeyScorer, NewBucketing], ?_⟩
  intro j scorer hj
  simp only [NewBucketKeyScorer, NewBucketing, List.getElem?_replicate] at hj
  split at hj
  · cases hj
    exact ⟨rfl, fun _ _ => rfl⟩
  · cases hj

theorem ScorersHold_pick (b : BucketKeyScorer) (s : SimpleKeyScorer) (H : ScorersHold b s)
    (key : String) :
    ∃ scorer, b.bucketing.PickIndex key
        = some ((b.bucketing.hashing key % 2 ^ 32) % b.bucketing.buckets)
      ∧ b.bucketing.instances[(b.bucketing.hashing key % 2 ^ 32) % b.bucketing.buckets]?
        = some scorer
      ∧ scorer.minBytes = s.minBytes ∧ scorer.trie.Get key = s.trie.Get key := by
  obtain ⟨hB, hlen, hall⟩ := H
  have hidx : (b.bucketing.hashing key % 2 ^ 32) % b.bucketing.buckets
      < b.bucketing.instances.length := by
    rw [hlen]; exact Nat.mod_lt _ (by omega)
  have hget := List.getElem?_eq_getElem hidx
  have hB0 : ¬ b.bucketing.buckets = 0 := by omega
  obtain ⟨h1, h2⟩ := hall _ _ hget
  exact ⟨_, by simp only [Bucketing.PickIndex, hB0, if_false], hget, h1, h2 key rfl⟩

theorem ScorersHold_GetScore (b : BucketKeyScorer) (s : SimpleKeyScorer) (H : ScorersHold b s)
    (now : Int) (key : String) : b.GetScore now key = some (s.GetScore now key) := by
  obtain ⟨scorer, hp, hi, hm, hg⟩ := ScorersHold_pick b s H key
  simp only [BucketKeyScorer.GetScore, Bucketing.Pick, hp, hi, SimpleKeyScorer.GetScore, hm, hg]

theorem ScorersHold_SetScore (b : BucketKeyScorer) (s : SimpleKeyScorer) (H : ScorersHold b s)
    (key : String) (bytes : Nat) (exptime : Int) :
    ∃ b', b.SetScore key bytes exptime = some b'
      ∧ ScorersHold b' (s.SetScore key bytes exptime) := by
  obtain ⟨scorer, hp, hi, hm, hg⟩ := ScorersHold_pick b s H key
  obtain ⟨hB, hlen, hall⟩ := H
  refine ⟨({ b with bucketing :=
      { b.bucketing with
        instances := b.bucketing.instances.set
          ((b.bucketing.hashing key % 2 ^ 32) % b.bucketing.buckets)
          (scorer.SetScore key bytes exptime) } } : BucketKeyScorer),
    by simp only [BucketKeyScorer.SetScore, hp, hi], hB, by simp [hlen], ?_⟩
  intro j sc hj
  simp only at hj
  by_cases hji : (b.bucketing.hashing key % 2 ^ 32) % b.bucketing.buckets = j
  · subst hji
    have hlt := (List.getElem?_eq_some.1 hi).1
    rw [List.getElem?_set_self hlt] at hj
    cases hj
    refine ⟨hm, ?_⟩
    intro k hk
    have := (hall _ _ hi).2 k hk
    simp only [SimpleKeyScorer.SetScore, RuneTrie.Get_Put, this]
  · rw [List.getElem?_set_ne hji] at hj
    obtain ⟨h1, h2⟩ := hall j sc hj
    refine ⟨h1, ?_⟩
    intro k hk
    have hne : ¬ key = k := by
      intro h
      subst h
      exact hji hk
    simp only [SimpleKeyScorer.SetScore, RuneTrie.Get_Put, hne, if_false]
    exact h2 k hk

theorem mem_flatMap_append (groups : ScorerGroups) (i : Nat) (k x : String) :
    x ∈ (groups.append i k).flatMap Prod.snd ↔ x ∈ groups.flatMap Prod.snd ∨ x = k := by
  induction groups with
  | nil => simp [ScorerGroups.append]
  | cons p groups ih =>
    obtain ⟨i₀, keys⟩ := p
    by_cases h : i₀ = i
    · simp only [ScorerGroups.append, h, if_true, List.flatMap_cons, List.mem_append,
        List.mem_singleton]
      tauto
    · simp only [ScorerGroups.append, h, if_false, List.flatMap_cons, List.mem_append, ih]
      tauto

theorem GroupsOk_append (pick : String → Nat) (instances : List SimpleKeyScorer)
    (groups : ScorerGroups) (k : String) (hk : pick k < instances.length)
    (H : GroupsOk pick instances groups) :
    GroupsOk pick instances (groups.append (pick k) k) := by
  induction groups with
  | nil =>
    intro p hp
    simp only [ScorerGroups.append, List.mem_singleton] at hp
    subst hp
    exact ⟨hk, fun x hx => by rw [List.mem_singleton] at hx; rw [hx]⟩
  | cons p₀ groups ih =>
    obtain ⟨i₀, keys⟩ := p₀
    have H₀ := H (i₀, keys) (List.mem_cons_self _ _)
    have Hrest : GroupsOk pick instances groups := fun p hp => H p (List.mem_cons_of_mem _ hp)
    intro p hp
    by_cases h : i₀ = pick k
    · simp only [ScorerGroups.append, h, if_true, List.mem_cons] at hp
      rcases hp with hp | hp
      · subst hp
        refine ⟨hk, ?_⟩
        intro x hx
        rcases List.mem_append.1 hx with hx | hx
        · rw [← h]; exact H₀.2 x hx
        · rw [List.mem_singleton] at hx; rw [hx]
      · exact Hrest p hp
    · simp only [ScorerGroups.append, h, if_false, List.mem_cons] at hp
      rcases hp with hp | hp
      · subst hp; exact H₀
      · exact ih Hrest p hp

theorem group_spec (b : BucketKeyScorer) (hB : 1 ≤ b.bucketing.buckets)
    (hlen : b.bucketing.instances.length = b.bucketing.buckets) (key : List String)
    (groups : ScorerGroups)
    (H : GroupsOk (fun k => (b.bucketing.hashing k % 2 ^ 32) % b.bucketing.buckets)
      b.bucketing.instances groups) :
    ∃ groups', b.group key groups = some groups'
      ∧ GroupsOk (fun k => (b.bucketing.hashing k % 2 ^ 32) % b.bucketing.buckets)
          b.bucketing.instances groups'
      ∧ ∀ x, x ∈ groups'.flatMap Prod.snd ↔ x ∈ groups.flatMap Prod.snd ∨ x ∈ key := by
  induction key generalizing groups with
  | nil => exact ⟨groups, rfl, H, by simp⟩
  | cons k key ih =>
    have hidx : (b.bucketing.hashing k % 2 ^ 32) % b.bucketing.buckets
        < b.bucketing.instances.length := by
      rw [hlen]; exact Nat.mod_lt _ (by omega)
    have hB0 : ¬ b.bucketing.buckets = 0 := by omega
    obtain ⟨groups', hrun, hok, hmem⟩ := ih _
      (GroupsOk_append (fun k => (b.bucketing.hashing k % 2 ^ 32) % b.bucketing.buckets)
        b.bucketing.instances groups k hidx H)
    refine ⟨groups', ?_, hok, ?_⟩
    · simp only [BucketKeyScorer.group, Bucketing.PickIndex, hB0, if_false,
        List.getElem?_eq_getElem hidx]
      exact hrun
    · intro x
      rw [hmem, mem_flatMap_append, List.mem_cons]
      tauto

theorem delGroups_spec (pick : String → Nat) (groups : ScorerGroups)
    (instances : List SimpleKeyScorer) (H : GroupsOk pick instances groups) :
    (BucketKeyScorer.delGroups groups instances).length = instances.length
      ∧ ∀ (j : Nat) (scorer' : SimpleKeyScorer),
          (BucketKeyScorer.delGroups groups instances)[j]? = some scorer' →
          ∃ scorer, instances[j]? = some scorer ∧ scorer'.minBytes = scorer.minBytes
            ∧ ∀ k, pick k = j →
                scorer'.trie.Get k
                  = if k ∈ groups.flatMap Prod.snd then none else scorer.trie.Get k := by
  induction groups generalizing instances with
  | nil =>
    refine ⟨rfl, ?_⟩
    intro j scorer' hj
    exact ⟨scorer', hj, rfl, fun k _ => by simp⟩
  | cons p groups ih =>
    obtain ⟨i, keys⟩ := p
    have H₀ := H (i, keys) (List.mem_cons_self _ _)
    have hget := List.getElem?_eq_getElem H₀.1
    have Hrest : GroupsOk pick (instances.set i (instances[i].DelScore keys)) groups := by
      intro p hp
      have := H p (List.mem_cons_of_mem _ hp)
      exact ⟨by rw [List.length_set]; exact this.1, this.2⟩
    obtain ⟨hl, hall⟩ := ih _ Hrest
    simp only [BucketKeyScorer.delGroups, hget]
    refine ⟨by rw [hl, List.length_set], ?_⟩
    intro j scorer' hj
    obtain ⟨scorer₁, h1, h2, h3⟩ := hall j scorer' hj
    by_cases hji : i = j
    · subst hji
      rw [List.getElem?_set_self H₀.1] at h1
      cases h1
      refine ⟨_, hget, h2, ?_⟩
      intro k hk
      rw [h3 k hk]
      simp only [SimpleKeyScorer.DelScore, RuneTrie.Get_foldl_Delete, List.flatMap_cons,
        List.mem_append]
      by_cases hk1 : k ∈ keys <;> by_cases hk2 : k ∈ groups.flatMap Prod.snd <;>
        simp [hk1, hk2]
    · rw [List.getElem?_set_ne hji] at h1
      refine ⟨scorer₁, h1, h2, ?_⟩
      intro k hk
      rw [h3 k hk]
      have hk1 : k ∉ keys := by
        intro hmem
        have := H₀.2 k hmem
        simp only at this
        omega
      simp only [List.flatMap_cons, List.mem_append, hk1, false_or]

theorem ScorersHold_DelScore (b : BucketKeyScorer) (s : SimpleKeyScorer) (H : ScorersHold b s)
    (key : List String) (order : ScorerGroups → ScorerGroups)
    (horder : ∀ groups, (order groups).Perm groups) :
    ∃ b', b.DelScore key order = some b' ∧ ScorersHold b' (s.DelScore key) := by
  obtain ⟨hB, hlen, hall⟩ := H
  obtain ⟨groups, hrun, hok, hmem⟩ := group_spec b hB hlen key [] (by intro p hp; simp at hp)
  have hok' : GroupsOk (fun k => (b.bucketing.hashing k % 2 ^ 32) % b.bucketing.buckets)
      b.bucketing.instances (order groups) :=
    fun p hp => hok p ((horder groups).mem_iff.1 hp)
  have hmem' : ∀ x, x ∈ (order groups).flatMap Prod.snd ↔ x ∈ key := by
    intro x
    have := hmem x
    simp only [List.flatMap_nil, List.not_mem_nil, false_or] at this
    rw [← this]
    simp only [List.mem_flatMap]
    constructor
    · rintro ⟨p, hp, hx⟩
      exact ⟨p, (horder groups).mem_iff.1 hp, hx⟩
    · rintro ⟨p, hp, hx⟩
      exact ⟨p, (horder groups).mem_iff.2 hp, hx⟩
  obtain ⟨hl, hspec⟩ := delGroups_spec _ (order groups) b.bucketing.instances hok'
  refine ⟨({ b with bucketing :=
      { b.bucketing with
        instances := BucketKeyScorer.delGroups (order groups) b.bucketing.instances } } :
        BucketKeyScorer),
    by simp only [BucketKeyScorer.DelScore, hrun], hB, by rw [← hlen]; exact hl, ?_⟩
  intro j scorer' hj
  obtain ⟨scorer, h1, h2, h3⟩ := hspec j scorer' hj
  obtain ⟨h4, h5⟩ := hall j scorer h1
  refine ⟨by rw [h2, h4]; rfl, ?_⟩
  intro k hk
  rw [h3 k hk, h5 k hk]
  simp only [SimpleKeyScorer.DelScore, RuneTrie.Get_foldl_Delete]
  by_cases hkk : k ∈ key
  · rw [if_pos ((hmem' k).2 hkk), if_pos hkk]
  · rw [if_neg (fun h => hkk ((hmem' k).1 h)), if_neg hkk]

theorem ScorersHold_run (order : Nat → ScorerGroups → ScorerGroups)
    (horder : ∀ n groups, (order n groups).Perm groups) (ops : List ScorerOp) :
    ∀ (n : Nat) (b : BucketKeyScorer) (s : SimpleKeyScorer), ScorersHold b s →
      b.run order n ops = some (s.run ops) := by
  induction ops with
  | nil => intro n b s _; rfl
  | cons op ops ih =>
    intro n b s H
    cases op with
    | set key bytes exptime =>
      obtain ⟨b', hb', H'⟩ := ScorersHold_SetScore b s H key bytes exptime
      simp only [BucketKeyScorer.run, hb', SimpleKeyScorer.run]
      exact ih (n + 1) b' _ H'
    | del key =>
      obtain ⟨b', hb', H'⟩ := ScorersHold_DelScore b s H key (order n) (horder n)
      simp only [BucketKeyScorer.run, hb', SimpleKeyScorer.run]
      exact ih (n + 1) b' _ H'
    | get now key =>
      simp only [BucketKeyScorer.run, ScorersHold_GetScore b s H now key, SimpleKeyScorer.run,
        ih (n + 1) b s H]

/-- C32: for every number of buckets `B ≥ 1` (`B` being `uint32(buckets)`), every floor
`minBytes`, every sequence of `SetScore`, `DelScore` and `GetScore` calls, each
`GetScore` at its own clock time, and every order in which the `DelScore` calls visit
their groups, the calls on `NewBucketKeyScorer(buckets, minBytes)` all return, and its
`GetScore` calls return what the same calls return on one
`NewSimpleKeyScorer(minBytes)`. -/
theorem bucket_scorer_refines (buckets : Int) (hB : 1 ≤ (buckets % 2 ^ 32).toNat)
    (minBytes : Nat) (order : Nat → ScorerGroups → ScorerGroups)
    (horder : ∀ n groups, (order n groups).Perm groups) (ops : List ScorerOp) :
    (NewBucketKeyScorer buckets minBytes).run order 0 ops
      = some ((NewSimpleKeyScorer minBytes).run ops) :=
  ScorersHold_run order horder ops 0 _ _ (ScorersHold_new buckets hB minBytes)

/-- C32, on 4 buckets and the floor 96, the groups of `DelScore` visited last to first:
the scores set for `a` and `b` are read back, `b` expires, and after the `DelScore` of
`a`, `b` and `c` the floor is read for `a`. -/
theorem bucket_scorer_refines_witness :
    1 ≤ ((4 : Int) % 2 ^ 32).toNat
      ∧ (∀ (n : Nat) (groups : ScorerGroups),
          ((fun (_ : Nat) (g : ScorerGroups) => g.reverse) n groups).Perm groups)
      ∧ (NewBucketKeyScorer 4 96).run (fun _ g => g.reverse) 0
          [ScorerOp.set "a" 500 0, ScorerOp.set "b" 700 1700000060,
            ScorerOp.get 1700000000 "a", ScorerOp.get 1700000000 "b",
            ScorerOp.get 1700000060 "b", ScorerOp.del ["a", "b", "c"],
            ScorerOp.get 1700000000 "a", ScorerOp.get 1700000000 "zz"]
          = some [500, 700, 96, 96, 96] :=
  ⟨by decide, fun _ g => List.reverse_perm g,
    (bucket_scorer_refines 4 (by decide) 96 (fun _ g => g.reverse)
      (fun _ g => List.reverse_perm g) _).trans (by decide)⟩

/-! ## The codec: the functions of the rolling-window eavesdropper return -/

theorem OneWritable_Increment_some {σ : Type} (w : SimpleRollingWindows σ) (H : OneWritable w)
    (key : String) (delta : Nat) : ∃ w', w.Increment key delta = some w' ∧ OneWritable w' := by
  obtain ⟨hlen, hrf, hcur, hall⟩ := H
  have hlt : w.current < w.windows.length := by rw [hlen]; exact hcur
  have hget := List.getElem?_eq_getElem hlt
  have hw := hall w.current _ hget
  rw [if_pos rfl] at hw
  obtain ⟨b, hb, hrest⟩ := hw
  obtain ⟨counter, _, hinc, _⟩ := Writable_Increment b ⟨b, rfl, hrest⟩ key delta
  rw [hb] at hget
  obtain ⟨c', hc'⟩ : ∃ c', (GetKeyCounter.bucket b).Increment key delta = some c' := ⟨_, hinc⟩
  have hsome : w.Increment key delta
      = some ({ w with windows := (w.windows.set w.current c') } : SimpleRollingWindows σ) := by
    simp only [SimpleRollingWindows.Increment, SimpleRollingWindows.last, hget, hc']
  exact ⟨_, hsome, OneWritable_Increment w _ key delta ⟨hlen, hrf, hcur, hall⟩ hsome⟩

theorem OneWritable_IncrementAll_some {σ : Type} (incs : List (String × Nat))
    (w : SimpleRollingWindows σ) (H : OneWritable w) :
    ∃ w', w.IncrementAll incs = some w' ∧ OneWritable w' := by
  induction incs generalizing w with
  | nil => exact ⟨w, rfl, H⟩
  | cons e incs ih =>
    obtain ⟨key, delta⟩ := e
    obtain ⟨w₁, h1, H1⟩ := OneWritable_Increment_some w H key delta
    obtain ⟨w', h2, H2⟩ := ih w₁ H1
    exact ⟨w', by simp only [SimpleRollingWindows.IncrementAll, h1]; exact h2, H2⟩

/-- The eavesdropper that `newEavesdropper` of `mc_hotkeys.go` makes, in a state in which
the window at `current` is writable and the scorers of the `BucketKeyScorer` hold what
one scorer holds: its three functions return, whatever they are called with. -/
theorem RollingWindows_callbacks_return
    (eavesdropper : RollingWindowsMcrouterEavesdropper BucketKeyScorer)
    (order : ScorerGroups → ScorerGroups) (horder : ∀ groups, (order groups).Perm groups)
    (s : SimpleKeyScorer) (hring : OneWritable eavesdropper.rollingWindows)
    (hscorer : ScorersHold eavesdropper.rollingWindows.scorer s)
    (hks : eavesdropper.keyScorer = BucketKeyScorer.asKeyScorer order) :
    (∀ keys, ((NewRollingWindowsMcrouterEavesdropper BucketKeyScorer).OnFetch keys
        eavesdropper).isSome)
      ∧ (∀ key len exptime, ((NewRollingWindowsMcrouterEavesdropper BucketKeyScorer).OnStore
          key len exptime eavesdropper).isSome)
      ∧ ∀ key, ((NewRollingWindowsMcrouterEavesdropper BucketKeyScorer).OnDelete key
          eavesdropper).isSome := by
  refine ⟨?_, ?_, ?_⟩
  · intro keys
    show (eavesdropper.OnFetch keys).isSome
    obtain ⟨w', hw', _⟩ := OneWritable_IncrementAll_some (keys.map (fun k => (k, 1)))
      eavesdropper.rollingWindows hring
    rw [RollingWindowsMcrouterEavesdropper.OnFetch_eq, hw']
    rfl
  · intro key len exptime
    show (eavesdropper.OnStore key len exptime).isSome
    obtain ⟨b', hb', _⟩ := ScorersHold_SetScore _ s hscorer key (toUint64 len) exptime
    simp only [RollingWindowsMcrouterEavesdropper.OnStore, hks, BucketKeyScorer.asKeyScorer, hb']
    rfl
  · intro key
    show (eavesdropper.OnDelete key).isSome
    obtain ⟨b', hb', _⟩ := ScorersHold_DelScore _ s hscorer [key] order horder
    simp only [RollingWindowsMcrouterEavesdropper.OnDelete, hks, BucketKeyScorer.asKeyScorer,
      hb']
    rfl

/-- C16, on the eavesdropper that `newEavesdropper` of `mc_hotkeys.go` makes, with 8
buckets and the default flags, in its first state: the command `set k 0 0 4`, whose
header parses and which calls `OnStore`, the command `get k x`, which calls `OnFetch`,
and the command `delete k`, which calls `OnDelete`, are answered with their fixed
replies. -/
theorem OnCommand_reply_witness :
    ((NewRollingWindowsMcrouterEavesdropper BucketKeyScorer).OnStore "k" 4 0
        ⟨NewSimpleRollingWindows (NewBucketKeyScorer 8 96)
          (fun _ => GetKeyCounter.bucket (NewBucketGetKeyCounter 8)) 10 10 100,
          BucketKeyScorer.asKeyScorer id⟩).isSome
      ∧ parseStore 1700000000 ["k", "0", "0", "4"] = Except.ok ("k", 4, 0)
      ∧ (∃ r, (NewRollingWindowsMcrouterEavesdropper BucketKeyScorer).OnCommand 1700000000
            Command.SET ["k", "0", "0", "4"] (Scanner.new (bytesOf "abcd\r\nget k\r\n"))
            ⟨NewSimpleRollingWindows (NewBucketKeyScorer 8 96)
              (fun _ => GetKeyCounter.bucket (NewBucketGetKeyCounter 8)) 10 10 100,
              BucketKeyScorer.asKeyScorer id⟩ = some r
          ∧ r.resp = some "NOT_STORED\r\n" ∧ r.err = none)
      ∧ (∃ r, (NewRollingWindowsMcrouterEavesdropper BucketKeyScorer).OnCommand 1700000000
            Command.GET ["k", "x"] (Scanner.new (bytesOf "get k\r\n"))
            ⟨NewSimpleRollingWindows (NewBucketKeyScorer 8 96)
              (fun _ => GetKeyCounter.bucket (NewBucketGetKeyCounter 8)) 10 10 100,
              BucketKeyScorer.asKeyScorer id⟩ = some r
          ∧ r.resp = some "END\r\n" ∧ r.err = none)
      ∧ (∃ r, (NewRollingWindowsMcrouterEavesdropper BucketKeyScorer).OnCommand 1700000000
            Command.DELETE ["k"] (Scanner.new (bytesOf "get k\r\n"))
            ⟨NewSimpleRollingWindows (NewBucketKeyScorer 8 96)
              (fun _ => GetKeyCounter.bucket (NewBucketGetKeyCounter 8)) 10 10 100,
              BucketKeyScorer.asKeyScorer id⟩ = some r
          ∧ r.resp = some "NOT_FOUND\r\n" ∧ r.err = none) :=
  ⟨(RollingWindows_callbacks_return _ id (fun _ => List.Perm.refl _) (NewSimpleKeyScorer 96)
      (OneWritable_new _ 8 (by decide) 10 10 100) (ScorersHold_new 8 (by decide) 96) rfl).2.1
      "k" 4 0,
    rfl,
    (OnCommand_reply (NewRollingWindowsMcrouterEavesdropper BucketKeyScorer) 1700000000
      ["k", "0", "0", "4"] (Scanner.new (bytesOf "abcd\r\nget k\r\n"))
      ⟨NewSimpleRollingWindows (NewBucketKeyScorer 8 96)
        (fun _ => GetKeyCounter.bucket (NewBucketGetKeyCounter 8)) 10 10 100,
        BucketKeyScorer.asKeyScorer id⟩
      ((RollingWindows_callbacks_return _ id (fun _ => List.Perm.refl _) (NewSimpleKeyScorer 96)
        (OneWritable_new _ 8 (by decide) 10 10 100) (ScorersHold_new 8 (by decide) 96) rfl).1 _)
      (fun key len exptime _ =>
        (RollingWindows_callbacks_return _ id (fun _ => List.Perm.refl _)
          (NewSimpleKeyScorer 96) (OneWritable_new _ 8 (by decide) 10 10 100)
          (ScorersHold_new 8 (by decide) 96) rfl).2.1 key len exptime)
      (fun key _ _ =>
        (RollingWindows_callbacks_return _ id (fun _ => List.Perm.refl _)
          (NewSimpleKeyScorer 96) (OneWritable_new _ 8 (by decide) 10 10 100)
          (ScorersHold_new 8 (by decide) 96) rfl).2.2 key)).2.1 Command.SET (by decide),
    (OnCommand_reply (NewRollingWindowsMcrouterEavesdropper BucketKeyScorer) 1700000000
      ["k", "x"] (Scanner.new (bytesOf "get k\r\n"))
      ⟨NewSimpleRollingWindows (NewBucketKeyScorer 8 96)
        (fun _ => GetKeyCounter.bucket (NewBucketGetKeyCounter 8)) 10 10 100,
        BucketKeyScorer.asKeyScorer id⟩
      ((RollingWindows_callbacks_return _ id (fun _ => List.Perm.refl _) (NewSimpleKeyScorer 96)
        (OneWritable_new _ 8 (by decide) 10 10 100) (ScorersHold_new 8 (by decide) 96) rfl).1 _)
      (fun key len exptime _ =>
        (RollingWindows_callbacks_return _ id (fun _ => List.Perm.refl _)
          (NewSimpleKeyScorer 96) (OneWritable_new _ 8 (by decide) 10 10 100)
          (ScorersHold_new 8 (by decide) 96) rfl).2.1 key len exptime)
      (fun key _ _ =>
        (RollingWindows_callbacks_return _ id (fun _ => List.Perm.refl _)
          (NewSimpleKeyScorer 96) (OneWritable_new _ 8 (by decide) 10 10 100)
          (ScorersHold_new 8 (by decide) 96) rfl).2.2 key)).1 Command.GET (by decide),
    (OnCommand_reply (NewRollingWindowsMcrouterEavesdropper BucketKeyScorer) 1700000000
      ["k"] (Scanner.new (bytesOf "get k\r\n"))
      ⟨NewSimpleRollingWindows (NewBucketKeyScorer 8 96)
        (fun _ => GetKeyCounter.bucket (NewBucketGetKeyCounter 8)) 10 10 100,
        BucketKeyScorer.asKeyScorer id⟩
      ((RollingWindows_callbacks_return _ id (fun _ => List.Perm.refl _) (NewSimpleKeyScorer 96)
        (OneWritable_new _ 8 (by decide) 10 10 100) (ScorersHold_new 8 (by decide) 96) rfl).1 _)
      (fun key len exptime _ =>
        (RollingWindows_callbacks_return _ id (fun _ => List.Perm.refl _)
          (NewSimpleKeyScorer 96) (OneWritable_new _ 8 (by decide) 10 10 100)
          (ScorersHold_new 8 (by decide) 96) rfl).2.1 key len exptime)
      (fun key _ _ =>
        (RollingWindows_callbacks_return _ id (fun _ => List.Perm.refl _)
          (NewSimpleKeyScorer 96) (OneWritable_new _ 8 (by decide) 10 10 100)
          (ScorersHold_new 8 (by decide) 96) rfl).2.2 key)).2.2.1 Command.DELETE (by decide)⟩

end McHotkeys
